import Mathlib

/-!
Shallow embedding of `src/trading-platform/rust-orderbook-core/src/lib.rs`:
a multi-symbol limit-order-book matching engine.

Modelling conventions:
* Rust `f64` quantities and prices are modelled as `ℚ` (exact arithmetic);
  floating-point rounding is outside the scope of this development, matching
  the specification, which states all properties in real-number terms.
* `u64` / `u32` are modelled as `ℕ`.  The cast `(x : f64) as u64` saturates
  in Rust (negative values clamp to 0, values above `u64::MAX` clamp to
  `u64::MAX`, and the fractional part is truncated); this is modelled
  faithfully by `f64AsU64`.
* `DashMap` is an unordered hash map; it is modelled as an association list
  with `insert` replacing any existing entry for the key.  The source sorts
  the map entries by key before every matching sweep, which is mirrored by
  an explicit insertion sort.
* The injected clock `now()` is external to the core (spec section 1); it is
  modelled as the constant 0, since no property here depends on timestamps.
* Atomic counters are modelled as plain `ℕ` fields threaded through state;
  counter wrap-around at 2^64 is a fatal overflow outside the scope of the
  core per spec section 7.
-/

namespace Orderbook

/-- A u64's maximal value, the saturation bound of Rust's `as u64` cast. -/
def u64Max : Nat := 2 ^ 64 - 1

/-- Rust's saturating cast `(x : f64) as u64`: truncate toward zero, clamping
negative values to 0 and large values to `u64::MAX`.  (For `x ≥ 0`,
truncation toward zero is the floor.) -/
def f64AsU64 (x : ℚ) : Nat := min (Int.toNat ⌊x⌋) u64Max

/-- `OrderSide` from the source (line 25). -/
inductive OrderSide where
  | Buy
  | Sell
deriving DecidableEq, Repr

/-- `OrderType` from the source (line 32). -/
inductive OrderType where
  | Market
  | Limit
deriving DecidableEq, Repr

/-- `Order` from the source (line 39). -/
structure Order where
  id : Nat
  symbol : String
  side : OrderSide
  order_type : OrderType
  quantity : ℚ
  price : ℚ
  timestamp : ℚ
  user_id : Nat
deriving DecidableEq, Repr

/-- `Trade` from the source (line 76). -/
structure Trade where
  id : Nat
  symbol : String
  buy_order_id : Nat
  sell_order_id : Nat
  price : ℚ
  quantity : ℚ
  timestamp : ℚ
deriving DecidableEq, Repr

/-- `PriceLevel` from the source (line 86): the FIFO queue of orders at one tick. -/
abbrev PriceLevel := List Order

section AList

variable {κ : Type} {α : Type} [DecidableEq κ]

/-- Lookup in an association list; models `DashMap::get` / `contains_key`. -/
def alistGet? : List (κ × α) → κ → Option α
  | [], _ => none
  | p :: t, k => if p.1 = k then some p.2 else alistGet? t k

/-- Insert into an association list, replacing any existing entry for the key;
models `DashMap::insert`. -/
def alistInsert (l : List (κ × α)) (k : κ) (v : α) : List (κ × α) :=
  (l.filter (fun p => p.1 ≠ k)) ++ [(k, v)]

/-- Remove a key from an association list; models `DashMap::remove`. -/
def alistRemove (l : List (κ × α)) (k : κ) : List (κ × α) :=
  l.filter (fun p => p.1 ≠ k)

end AList

section SortBy

variable {α : Type}

/-- Insert an element into a list so that elements on which `le` holds come
first; auxiliary to `sort_by`. -/
def insertLe (le : α → α → Bool) (a : α) : List α → List α
  | [] => [a]
  | b :: t => if le a b then a :: b :: t else b :: insertLe le a t

/-- Insertion sort by a boolean comparison; models the source's
`sort_by` over the collected `DashMap` entries (lines 158, 222, 282, 355). -/
def sort_by (le : α → α → Bool) : List α → List α
  | [] => []
  | a :: t => insertLe le a (sort_by le t)

end SortBy

/-- `OrderBook` from the source (line 89).  `bids`/`asks` map a tick key to a
price level; `orders` is the id index of resting orders. -/
structure OrderBook where
  symbol : String
  bids : List (Nat × PriceLevel)
  asks : List (Nat × PriceLevel)
  orders : List (Nat × Order)
  next_trade_id : Nat
  total_volume : Nat
  last_price : ℚ
  best_bid : ℚ
  best_ask : ℚ
deriving DecidableEq, Repr

/-- The largest finite `f64` value, `f64::MAX`, used by the source as the
in-band sentinel for an unset `best_ask` (line 112). -/
def f64MAX : ℚ := (2 ^ 53 - 1) * 2 ^ 971

namespace OrderBook

/-- `OrderBook::new` (source lines 101-114). -/
def new (symbol : String) : OrderBook where
  symbol := symbol
  bids := []
  asks := []
  orders := []
  next_trade_id := 1
  total_volume := 0
  last_price := 0
  best_bid := 0
  best_ask := f64MAX

/-- `OrderBook::price_to_key` (source lines 116-118): `(price * 10000.0) as u64`,
the saturating u64 cast of the scaled price. -/
def price_to_key (price : ℚ) : Nat := f64AsU64 (price * 10000)

/-- `OrderBook::key_to_price` (source lines 120-122): `key as f64 / 10000.0`. -/
def key_to_price (key : Nat) : ℚ := (key : ℚ) / 10000

/-- The shared per-level consumption loop of the four matching variants
(source lines 171-200, 235-263, 299-327, 372-400): walk the resting orders of
one price level in FIFO order while the aggressor has residual quantity,
emitting a trade per fill, decrementing quantities, updating `last_price`,
`total_volume` and the trade-id allocator, removing fully filled makers from
the id index, and rebuilding the level queue.  `takerIsBuy` selects which
trade field carries the maker's id. -/
def consumeLevel (takerIsBuy : Bool) (sym : String) (takerId : Nat) (price : ℚ) :
    OrderBook → ℚ → List Trade → List Order → List Order →
    OrderBook × ℚ × List Trade × List Order
  | b, r, ts, [], nl => (b, r, ts, nl)
  | b, r, ts, m :: rest, nl =>
    if r ≤ 0 then
      consumeLevel takerIsBuy sym takerId price b r ts rest (nl ++ [m])
    else
      let tq := min r m.quantity
      let t : Trade :=
        { id := b.next_trade_id
          symbol := sym
          buy_order_id := if takerIsBuy then takerId else m.id
          sell_order_id := if takerIsBuy then m.id else takerId
          price := price
          quantity := tq
          timestamp := 0 }
      let m' : Order := { m with quantity := m.quantity - tq }
      let b' : OrderBook :=
        { b with
          next_trade_id := b.next_trade_id + 1
          last_price := price
          total_volume := b.total_volume + f64AsU64 tq }
      if 0 < m'.quantity then
        consumeLevel takerIsBuy sym takerId price b' (r - tq) (ts ++ [t]) rest (nl ++ [m'])
      else
        consumeLevel takerIsBuy sym takerId price
          { b' with orders := alistRemove b'.orders m.id } (r - tq) (ts ++ [t]) rest nl

/-- The outer sweep of a buy aggressor over the ask side (source lines
160-207 and 284-335): walk the pre-sorted ask levels in ascending key order,
halting when the `stop` predicate fires on a level's key (the limit-price
break; constantly false for market orders) or when the residual quantity is
exhausted, consuming each visited level and removing it from the map when it
empties. -/
def sweepAsks (sym : String) (takerId : Nat) (stop : Nat → Bool) :
    OrderBook → ℚ → List Trade → List (Nat × PriceLevel) →
    OrderBook × ℚ × List Trade
  | b, r, ts, [] => (b, r, ts)
  | b, r, ts, (k, lvl) :: rest =>
    if stop k then (b, r, ts)
    else if r ≤ 0 then (b, r, ts)
    else
      let res := consumeLevel true sym takerId (key_to_price k) b r ts lvl []
      let b' :=
        if res.2.2.2.isEmpty then { res.1 with asks := alistRemove res.1.asks k }
        else { res.1 with asks := alistInsert res.1.asks k res.2.2.2 }
      sweepAsks sym takerId stop b' res.2.1 res.2.2.1 rest

/-- The outer sweep of a sell aggressor over the bid side (source lines
224-271 and 357-408), symmetric to `sweepAsks`: bid levels arrive pre-sorted
in descending key order. -/
def sweepBids (sym : String) (takerId : Nat) (stop : Nat → Bool) :
    OrderBook → ℚ → List Trade → List (Nat × PriceLevel) →
    OrderBook × ℚ × List Trade
  | b, r, ts, [] => (b, r, ts)
  | b, r, ts, (k, lvl) :: rest =>
    if stop k then (b, r, ts)
    else if r ≤ 0 then (b, r, ts)
    else
      let res := consumeLevel false sym takerId (key_to_price k) b r ts lvl []
      let b' :=
        if res.2.2.2.isEmpty then { res.1 with bids := alistRemove res.1.bids k }
        else { res.1 with bids := alistInsert res.1.bids k res.2.2.2 }
      sweepBids sym takerId stop b' res.2.1 res.2.2.1 rest

/-- `OrderBook::match_market_buy` (source lines 152-214): sort asks ascending,
sweep with no price constraint, discard any residual (it is only logged). -/
def match_market_buy (b : OrderBook) (o : Order) : OrderBook × List Trade :=
  let sorted := sort_by (fun a c => a.1 ≤ c.1) b.asks
  let res := sweepAsks o.symbol o.id (fun _ => false) b o.quantity [] sorted
  (res.1, res.2.2)

/-- `OrderBook::match_market_sell` (source lines 216-274): sort bids
descending, sweep with no price constraint, discard any residual. -/
def match_market_sell (b : OrderBook) (o : Order) : OrderBook × List Trade :=
  let sorted := sort_by (fun a c => c.1 ≤ a.1) b.bids
  let res := sweepBids o.symbol o.id (fun _ => false) b o.quantity [] sorted
  (res.1, res.2.2)

/-- `OrderBook::match_limit_buy` (source lines 276-347): sweep the asks in
ascending key order, breaking at the first level whose price exceeds the
limit; any positive residual rests as a bid at the limit's tick, appended to
the level's tail and registered in the id index. -/
def match_limit_buy (b : OrderBook) (o : Order) : OrderBook × List Trade :=
  let sorted := sort_by (fun a c => a.1 ≤ c.1) b.asks
  let res := sweepAsks o.symbol o.id (fun k => decide (o.price < key_to_price k)) b o.quantity [] sorted
  let b' := res.1
  let r := res.2.1
  if 0 < r then
    let price_key := price_to_key o.price
    let ro : Order := { o with quantity := r }
    let lvl := (alistGet? b'.bids price_key).getD []
    (({ b' with
        orders := alistInsert b'.orders ro.id ro
        bids := alistInsert b'.bids price_key (lvl ++ [ro]) }), res.2.2)
  else (b', res.2.2)

/-- `OrderBook::match_limit_sell` (source lines 349-420), symmetric to
`match_limit_buy`: sweep bids descending, break at the first level whose
price is below the limit; any positive residual rests as an ask. -/
def match_limit_sell (b : OrderBook) (o : Order) : OrderBook × List Trade :=
  let sorted := sort_by (fun a c => c.1 ≤ a.1) b.bids
  let res := sweepBids o.symbol o.id (fun k => decide (key_to_price k < o.price)) b o.quantity [] sorted
  let b' := res.1
  let r := res.2.1
  if 0 < r then
    let price_key := price_to_key o.price
    let ro : Order := { o with quantity := r }
    let lvl := (alistGet? b'.asks price_key).getD []
    (({ b' with
        orders := alistInsert b'.orders ro.id ro
        asks := alistInsert b'.asks price_key (lvl ++ [ro]) }), res.2.2)
  else (b', res.2.2)

/-- `OrderBook::update_best_prices` (source lines 422-436): recompute
`best_bid` from the maximal bid key (sentinel 0 when empty) and `best_ask`
from the minimal ask key (sentinel `f64::MAX` when empty). -/
def update_best_prices (b : OrderBook) : OrderBook :=
  let bb := match (b.bids.map Prod.fst).max? with
            | some k => key_to_price k
            | none => 0
  let ba := match (b.asks.map Prod.fst).min? with
            | some k => key_to_price k
            | none => f64MAX
  { b with best_bid := bb, best_ask := ba }

/-- `OrderBook::add_order` (source lines 124-150): dispatch on side and type,
then recompute the best prices only when the submitted order's id ended up
in the id index (i.e. only when the aggressor rested). -/
def add_order (b : OrderBook) (o : Order) : OrderBook × List Trade :=
  let res :=
    match o.side, o.order_type with
    | OrderSide.Buy, OrderType.Market => match_market_buy b o
    | OrderSide.Buy, OrderType.Limit => match_limit_buy b o
    | OrderSide.Sell, OrderType.Market => match_market_sell b o
    | OrderSide.Sell, OrderType.Limit => match_limit_sell b o
  if (alistGet? res.1.orders o.id).isSome then (update_best_prices res.1, res.2)
  else res

/-- `OrderBook::get_spread` (source lines 438-447). -/
def get_spread (b : OrderBook) : ℚ :=
  if b.best_ask = f64MAX ∨ b.best_bid = 0 then 0 else b.best_ask - b.best_bid

end OrderBook

/-- `TradingEngine` from the source (line 451): the registry of order books
plus the global counters. -/
structure TradingEngine where
  orderbooks : List (String × OrderBook)
  next_order_id : Nat
  processed_orders : Nat
  total_trades : Nat
deriving DecidableEq, Repr

namespace TradingEngine

/-- `TradingEngine::new` (source lines 461-472). -/
def new : TradingEngine where
  orderbooks := []
  next_order_id := 1
  processed_orders := 0
  total_trades := 0

/-- `TradingEngine::add_symbol` (source lines 474-479): unconditionally
insert a freshly created order book for the symbol (`DashMap::insert`
replaces any existing entry). -/
def add_symbol (e : TradingEngine) (symbol : String) : TradingEngine :=
  { e with orderbooks := alistInsert e.orderbooks symbol (OrderBook.new symbol) }

/-- `TradingEngine::place_order` (source lines 481-521): look the symbol up
(unknown symbol yields the error string), allocate the next order id, build
the order, run the match, and bump the counters.  The JSON serialization of
the trade list is out of scope; the result models the trades themselves. -/
def place_order (e : TradingEngine) (symbol : String) (side : OrderSide)
    (order_type : OrderType) (quantity : ℚ) (price : ℚ) (user_id : Nat) :
    TradingEngine × Except String (List Trade) :=
  match alistGet? e.orderbooks symbol with
  | some b =>
    let order_id := e.next_order_id
    let o : Order :=
      { id := order_id, symbol := symbol, side := side, order_type := order_type
        quantity := quantity, price := price, timestamp := 0, user_id := user_id }
    let res := b.add_order o
    ({ e with
        orderbooks := alistInsert e.orderbooks symbol res.1
        next_order_id := e.next_order_id + 1
        processed_orders := e.processed_orders + 1
        total_trades := e.total_trades + res.2.length },
     Except.ok res.2)
  | none => (e, Except.error ("Error: Symbol " ++ symbol ++ " not found"))

end TradingEngine

/-- The depth view returned by `TradingEngine::get_orderbook` (source lines
523-559), with the JSON encoding abstracted away: per-side lists of
(price, total quantity, order count), bids sorted descending and asks
ascending, each truncated to 20 levels, plus the summary fields. -/
structure OrderbookView where
  symbol : String
  bids : List (ℚ × ℚ × Nat)
  asks : List (ℚ × ℚ × Nat)
  last_price : ℚ
  spread : ℚ
  total_volume : Nat
deriving DecidableEq, Repr

namespace TradingEngine

/-- `TradingEngine::get_orderbook` (source lines 523-559); `none` models the
error JSON for an unknown symbol. -/
def get_orderbook (e : TradingEngine) (symbol : String) : Option OrderbookView :=
  match alistGet? e.orderbooks symbol with
  | some b =>
    let mkEntry : Nat × PriceLevel → ℚ × ℚ × Nat := fun p =>
      (OrderBook.key_to_price p.1, (p.2.map Order.quantity).sum, p.2.length)
    let bids := sort_by (fun a c => c.1 ≤ a.1) (b.bids.map mkEntry)
    let asks := sort_by (fun a c => a.1 ≤ c.1) (b.asks.map mkEntry)
    some
      { symbol := symbol
        bids := bids.take 20
        asks := asks.take 20
        last_price := b.last_price
        spread := b.get_spread
        total_volume := b.total_volume }
  | none => none

end TradingEngine

/-! ## Derived observations used by the statements -/

/-- The total quantity of a list of trades. -/
def sumQty (ts : List Trade) : ℚ := (ts.map Trade.quantity).sum

/-- The keys (ticks, order ids, or symbols) of an association list. -/
def keysOf {κ α : Type} (l : List (κ × α)) : List κ := l.map Prod.fst

/-- How many orders with the given id a single price level holds. -/
def countL (id : Nat) (lvl : PriceLevel) : Nat :=
  (lvl.filter (fun o => o.id = id)).length

/-- How many orders with the given id one side's price-level queues hold. -/
def countSide (id : Nat) (s : List (Nat × PriceLevel)) : Nat :=
  (s.map (fun p => countL id p.2)).sum

/-- How many orders with the given id the whole book's queues hold. -/
def countBook (b : OrderBook) (id : Nat) : Nat :=
  countSide id b.bids + countSide id b.asks

/-- The order `e` sits in some price-level queue of the side `s`. -/
def occursSide (s : List (Nat × PriceLevel)) (e : Order) : Prop :=
  ∃ p ∈ s, e ∈ p.2

/-- The order `e` sits in some price-level queue of the book. -/
def occursInBook (b : OrderBook) (e : Order) : Prop :=
  occursSide b.bids e ∨ occursSide b.asks e

/-- The quantity the id index stores for an order id (0 when absent). -/
def restQty (b : OrderBook) (id : Nat) : ℚ :=
  match alistGet? b.orders id with
  | some ro => ro.quantity
  | none => 0

/-- The side/type dispatch step of `add_order` (source lines 128-143), i.e.
the value of its local `trades` before the conditional best-price update. -/
def OrderBook.matchStep (b : OrderBook) (o : Order) : OrderBook × List Trade :=
  match o.side, o.order_type with
  | OrderSide.Buy, OrderType.Market => OrderBook.match_market_buy b o
  | OrderSide.Buy, OrderType.Limit => OrderBook.match_limit_buy b o
  | OrderSide.Sell, OrderType.Market => OrderBook.match_market_sell b o
  | OrderSide.Sell, OrderType.Limit => OrderBook.match_limit_sell b o

/-- The residual quantity of a market order after its sweep, which the source
discards after logging it (lines 209-211); 0 for limit orders, whose residual
rests instead. -/
def market_residue (b : OrderBook) (o : Order) : ℚ :=
  match o.side, o.order_type with
  | OrderSide.Buy, OrderType.Market =>
    (OrderBook.sweepAsks o.symbol o.id (fun _ => false) b o.quantity []
      (sort_by (fun a c => a.1 ≤ c.1) b.asks)).2.1
  | OrderSide.Sell, OrderType.Market =>
    (OrderBook.sweepBids o.symbol o.id (fun _ => false) b o.quantity []
      (sort_by (fun a c => c.1 ≤ a.1) b.bids)).2.1
  | _, _ => 0

/-- The structural well-formedness invariant of a single order book: the maps
have no duplicate keys, all tick keys fit in a u64, the book is never
strictly crossed beyond tick equality, and every id the orders index knows
sits in exactly one price-level queue with a quantity dominated by the
indexed one. -/
structure BookInv (b : OrderBook) : Prop where
  bidsNodup : (keysOf b.bids).Nodup
  asksNodup : (keysOf b.asks).Nodup
  bidsBound : ∀ k ∈ keysOf b.bids, k ≤ u64Max
  asksBound : ∀ k ∈ keysOf b.asks, k ≤ u64Max
  nocross : ∀ kb ∈ keysOf b.bids, ∀ ka ∈ keysOf b.asks, kb ≤ ka
  idxCount : ∀ id, (alistGet? b.orders id).isSome → countBook b id = 1
  idxQty : ∀ id ro, alistGet? b.orders id = some ro →
    ∀ e, occursInBook b e → e.id = id → e.quantity ≤ ro.quantity

/-- Every order id recorded anywhere in the book is below `n` (the engine's
order-id allocator), so the next allocated id is fresh for the book. -/
def bookIdBound (b : OrderBook) (n : Nat) : Prop :=
  (∀ id ∈ keysOf b.orders, id < n) ∧ (∀ e, occursInBook b e → e.id < n)

/-- The engine-wide invariant: every registered book is well-formed and all
its ids are below the engine's order-id allocator. -/
def EngineInv (e : TradingEngine) : Prop :=
  ∀ p ∈ e.orderbooks, BookInv p.2 ∧ bookIdBound p.2 e.next_order_id

/-- The engine states reachable through the public interface: the fresh
engine, followed by any sequence of `add_symbol` and `place_order` calls. -/
inductive Reachable : TradingEngine → Prop
  | new : Reachable TradingEngine.new
  | add_symbol (e : TradingEngine) (s : String) :
      Reachable e → Reachable (e.add_symbol s)
  | place (e : TradingEngine) (s : String) (side : OrderSide) (ty : OrderType)
      (q p : ℚ) (u : Nat) :
      Reachable e → Reachable (e.place_order s side ty q p u).1

/-! ## Concrete scenarios

Small concrete runs of the engine, used to exhibit the behaviour of the code
on specific inputs. -/

/-- An engine with the single symbol `"X"` and an empty book. -/
def engX0 : TradingEngine := TradingEngine.new.add_symbol "X"

/-- `engX0` after a resting limit sell of 10 units at price 100 (order id 1). -/
def engRest : TradingEngine :=
  (engX0.place_order "X" OrderSide.Sell OrderType.Limit 10 100 1).1

/-- The `"X"` book of `engRest`. -/
def bookRest : OrderBook :=
  (alistGet? engRest.orderbooks "X").getD (OrderBook.new "X")

/-- `engRest` after an aggressing limit buy of 4 units at price 100 (order
id 2): the resting sell of order 1 is partially filled, 6 units remain. -/
def engPartial : TradingEngine :=
  (engRest.place_order "X" OrderSide.Buy OrderType.Limit 4 100 2).1

/-- `engRest` after a market buy of 10 units (order id 2) that fully consumes
the only ask level.  The aggressor never rests, so `update_best_prices` is
skipped and `best_ask` keeps the price of the now-empty level. -/
def engStale : TradingEngine :=
  (engRest.place_order "X" OrderSide.Buy OrderType.Market 10 0 2).1

/-- An engine whose `"X"` book has a resting bid at price 90 (tick 900000)
and a resting ask at price 100 (tick 1000000). -/
def engTwoSided : TradingEngine :=
  ((engX0.place_order "X" OrderSide.Buy OrderType.Limit 10 90 1).1.place_order
    "X" OrderSide.Sell OrderType.Limit 10 100 2).1

/-- The `"X"` book of `engTwoSided`. -/
def bookTwoSided : OrderBook :=
  (alistGet? engTwoSided.orderbooks "X").getD (OrderBook.new "X")

/-- An engine whose `"X"` book holds a resting bid from price 0.5 and a
resting ask from price 0.50007: both prices floor to tick 5000, so the book
ends with `best_bid = best_ask`. -/
def engEqualTick : TradingEngine :=
  ((engX0.place_order "X" OrderSide.Buy OrderType.Limit 10 0.5 1).1.place_order
    "X" OrderSide.Sell OrderType.Limit 10 0.50007 2).1

/-- An engine with the symbols `"X"` and `"Y"`, each carrying one resting
limit sell of 10 units at price 100 (order ids 1 and 2). -/
def engXY : TradingEngine :=
  ((((TradingEngine.new.add_symbol "X").add_symbol "Y").place_order "X"
    OrderSide.Sell OrderType.Limit 10 100 1).1.place_order "Y"
    OrderSide.Sell OrderType.Limit 10 100 2).1

/-- `engXY` after a crossing limit buy on `"X"` (order id 3), whose trade on
the `"X"` book carries trade id 1. -/
def engXY3 : TradingEngine :=
  (engXY.place_order "X" OrderSide.Buy OrderType.Limit 10 100 3).1

/-- A resting maker: a limit sell of 10 units at price 100 (order id 1). -/
def makerOrd : Order :=
  { id := 1, symbol := "X", side := OrderSide.Sell, order_type := OrderType.Limit,
    quantity := 10, price := 100, timestamp := 0, user_id := 1 }

/-- A one-level book holding only `makerOrd` at tick 1000000. -/
def bookOneAsk : OrderBook :=
  { symbol := "X", bids := [], asks := [(1000000, [makerOrd])],
    orders := [(1, makerOrd)], next_trade_id := 1, total_volume := 0,
    last_price := 0, best_bid := 0, best_ask := 100 }

/-- An aggressing limit buy of 4 units at price 101 (order id 2): its limit
price improves on the maker's 100, so the trade price shows which side wins. -/
def takerOrd : Order :=
  { id := 2, symbol := "X", side := OrderSide.Buy, order_type := OrderType.Limit,
    quantity := 4, price := 101, timestamp := 0, user_id := 2 }

/-- The trade that matching `takerOrd` against `bookOneAsk` emits: 4 units at
the maker's price 100. -/
def tradeMk : Trade :=
  { id := 1, symbol := "X", buy_order_id := 2, sell_order_id := 1,
    price := 100, quantity := 4, timestamp := 0 }

/-- A limit buy of 5 units at price 100 (order id 1). -/
def orderPos : Order :=
  { id := 1, symbol := "X", side := OrderSide.Buy, order_type := OrderType.Limit,
    quantity := 5, price := 100, timestamp := 0, user_id := 1 }

/-- A limit buy with the nonsensical quantity -5 (order id 1), which
`place_order` nevertheless forwards to the matching step. -/
def orderNeg : Order :=
  { id := 1, symbol := "X", side := OrderSide.Buy, order_type := OrderType.Limit,
    quantity := -5, price := 100, timestamp := 0, user_id := 1 }

/-! ## Association-list lemmas -/

section AListLemmas

variable {κ : Type} {α : Type} [DecidableEq κ]

theorem alistGet?_append (l₁ l₂ : List (κ × α)) (k : κ) :
    alistGet? (l₁ ++ l₂) k =
      match alistGet? l₁ k with
      | some v => some v
      | none => alistGet? l₂ k := by
  induction l₁ with
  | nil => rfl
  | cons p t ih =>
    by_cases hp : p.1 = k
    · simp [alistGet?, hp]
    · simp [alistGet?, hp, ih]

theorem alistGet?_filter_ne (l : List (κ × α)) (k k' : κ) (hk : k' ≠ k) :
    alistGet? (l.filter (fun p => p.1 ≠ k)) k' = alistGet? l k' := by
  have hkk : ¬ k = k' := fun h => hk h.symm
  induction l with
  | nil => rfl
  | cons p t ih =>
    simp only [ne_eq, decide_not] at ih ⊢
    by_cases hp : p.1 = k
    · simp [List.filter_cons, hp, hkk, alistGet?, ih]
    · by_cases hp' : p.1 = k'
      · simp [List.filter_cons, hp, alistGet?, hp', hk]
      · simp [List.filter_cons, hp, alistGet?, hp', ih]

theorem alistGet?_eq_none_of_not_mem (l : List (κ × α)) (k : κ)
    (h : k ∉ keysOf l) : alistGet? l k = none := by
  induction l with
  | nil => rfl
  | cons p t ih =>
    simp only [keysOf, List.map_cons, List.mem_cons, not_or] at h
    have hp : ¬ p.1 = k := fun hh => h.1 hh.symm
    simp only [alistGet?, if_neg hp]
    exact ih (by simpa [keysOf] using h.2)

theorem not_mem_keysOf_filter (l : List (κ × α)) (k : κ) :
    k ∉ keysOf (l.filter (fun p => p.1 ≠ k)) := by
  intro hmem
  simp only [keysOf, List.mem_map] at hmem
  obtain ⟨p, hp, hpk⟩ := hmem
  have h2 := List.of_mem_filter hp
  simp at h2
  exact h2 hpk

theorem alistGet?_insert_self (l : List (κ × α)) (k : κ) (v : α) :
    alistGet? (alistInsert l k v) k = some v := by
  unfold alistInsert
  rw [alistGet?_append, alistGet?_eq_none_of_not_mem _ _ (not_mem_keysOf_filter l k)]
  simp [alistGet?]

theorem alistGet?_insert_ne (l : List (κ × α)) (k k' : κ) (v : α) (hk : k' ≠ k) :
    alistGet? (alistInsert l k v) k' = alistGet? l k' := by
  unfold alistInsert
  rw [alistGet?_append, alistGet?_filter_ne l k k' hk]
  have hkk : ¬ k = k' := fun h => hk h.symm
  cases h : alistGet? l k' with
  | some v' => rfl
  | none => simp [alistGet?, hkk]

theorem alistGet?_remove_self (l : List (κ × α)) (k : κ) :
    alistGet? (alistRemove l k) k = none := by
  unfold alistRemove
  exact alistGet?_eq_none_of_not_mem _ _ (not_mem_keysOf_filter l k)

theorem alistGet?_remove_ne (l : List (κ × α)) (k k' : κ) (hk : k' ≠ k) :
    alistGet? (alistRemove l k) k' = alistGet? l k' :=
  alistGet?_filter_ne l k k' hk

theorem alistGet?_isSome_iff (l : List (κ × α)) (k : κ) :
    (alistGet? l k).isSome = true ↔ k ∈ keysOf l := by
  induction l with
  | nil => simp [alistGet?, keysOf]
  | cons p t ih =>
    by_cases hp : p.1 = k
    · simp [alistGet?, hp, keysOf]
    · have hkp : ¬ k = p.1 := fun h => hp h.symm
      simpa [alistGet?, hp, keysOf, hkp] using ih

theorem alistGet?_eq_some_mem (l : List (κ × α)) (k : κ) (v : α)
    (h : alistGet? l k = some v) : (k, v) ∈ l := by
  induction l with
  | nil => simp [alistGet?] at h
  | cons p t ih =>
    by_cases hp : p.1 = k
    · simp only [alistGet?, if_pos hp] at h
      have hpv : (k, v) = p := by
        obtain ⟨a, c⟩ := p
        simp only [Option.some.injEq] at h
        simp only [Prod.mk.injEq]
        simp only at hp
        exact ⟨hp.symm, h.symm⟩
      rw [hpv]
      exact List.mem_cons_self _ _
    · simp only [alistGet?, if_neg hp] at h
      exact List.mem_cons_of_mem _ (ih h)

theorem mem_alistGet?_of_nodup (l : List (κ × α)) (k : κ) (v : α)
    (hnd : (keysOf l).Nodup) (hmem : (k, v) ∈ l) : alistGet? l k = some v := by
  induction l with
  | nil => simp at hmem
  | cons p t ih =>
    simp only [keysOf, List.map_cons, List.nodup_cons] at hnd
    rcases List.mem_cons.mp hmem with heq | hmem'
    · rw [← heq]
      simp [alistGet?]
    · have hp : ¬ p.1 = k := by
        intro hpk
        exact hnd.1 (by
          rw [hpk]
          exact List.mem_map.mpr ⟨(k, v), hmem', rfl⟩)
      simp only [alistGet?, if_neg hp]
      exact ih hnd.2 hmem'

theorem mem_of_mem_alistInsert (l : List (κ × α)) (k : κ) (v : α) (p : κ × α)
    (h : p ∈ alistInsert l k v) : p ∈ l ∨ p = (k, v) := by
  simp only [alistInsert, List.mem_append, List.mem_singleton] at h
  rcases h with h | h
  · exact Or.inl (List.mem_of_mem_filter h)
  · exact Or.inr h

theorem mem_of_mem_alistRemove (l : List (κ × α)) (k : κ) (p : κ × α)
    (h : p ∈ alistRemove l k) : p ∈ l ∧ p.1 ≠ k := by
  refine ⟨List.mem_of_mem_filter h, ?_⟩
  have h2 := List.of_mem_filter h
  simpa using h2

theorem mem_alistInsert_of_ne (l : List (κ × α)) (k : κ) (v : α) (p : κ × α)
    (hmem : p ∈ l) (hne : p.1 ≠ k) : p ∈ alistInsert l k v := by
  simp only [alistInsert, List.mem_append]
  exact Or.inl (List.mem_filter.mpr ⟨hmem, by simpa using hne⟩)

theorem mem_alistRemove_of_ne (l : List (κ × α)) (k : κ) (p : κ × α)
    (hmem : p ∈ l) (hne : p.1 ≠ k) : p ∈ alistRemove l k :=
  List.mem_filter.mpr ⟨hmem, by simpa using hne⟩

theorem self_mem_alistInsert (l : List (κ × α)) (k : κ) (v : α) :
    (k, v) ∈ alistInsert l k v := by
  simp [alistInsert]

theorem mem_keysOf_alistInsert (l : List (κ × α)) (k k' : κ) (v : α)
    (h : k' ∈ keysOf (alistInsert l k v)) : k' = k ∨ k' ∈ keysOf l := by
  simp only [keysOf, List.mem_map] at h ⊢
  obtain ⟨p, hp, hpk⟩ := h
  rcases mem_of_mem_alistInsert l k v p hp with hmem | heq
  · exact Or.inr ⟨p, hmem, hpk⟩
  · subst heq; exact Or.inl hpk.symm

theorem mem_keysOf_alistRemove (l : List (κ × α)) (k k' : κ)
    (h : k' ∈ keysOf (alistRemove l k)) : k' ∈ keysOf l ∧ k' ≠ k := by
  simp only [keysOf, List.mem_map] at h ⊢
  obtain ⟨p, hp, hpk⟩ := h
  obtain ⟨hmem, hne⟩ := mem_of_mem_alistRemove l k p hp
  exact ⟨⟨p, hmem, hpk⟩, by rw [← hpk]; exact hne⟩

theorem nodup_keysOf_alistInsert (l : List (κ × α)) (k : κ) (v : α)
    (hnd : (keysOf l).Nodup) : (keysOf (alistInsert l k v)).Nodup := by
  have hsub : (l.filter (fun p => p.1 ≠ k)).Sublist l := List.filter_sublist l
  have hnd' : (keysOf (l.filter (fun p => p.1 ≠ k))).Nodup :=
    (hsub.map Prod.fst).nodup hnd
  have hknot := not_mem_keysOf_filter l k
  simp only [alistInsert, keysOf, List.map_append, List.map_cons, List.map_nil] at hnd' hknot ⊢
  rw [List.nodup_append]
  refine ⟨hnd', List.nodup_singleton k, ?_⟩
  intro a ha hak
  simp only [List.mem_singleton] at hak
  exact hknot (hak ▸ ha)

theorem nodup_keysOf_alistRemove (l : List (κ × α)) (k : κ)
    (hnd : (keysOf l).Nodup) : (keysOf (alistRemove l k)).Nodup :=
  ((List.filter_sublist l).map Prod.fst).nodup hnd

end AListLemmas

/-- A filter that excludes a key absent from the list is the identity. -/
theorem filter_ne_eq_self {κ α : Type} [DecidableEq κ] (l : List (κ × α)) (k : κ)
    (h : k ∉ keysOf l) : l.filter (fun p => p.1 ≠ k) = l := by
  apply List.filter_eq_self.mpr
  intro p hp
  simp only [ne_eq, decide_not, Bool.not_eq_true', decide_eq_false_iff_not]
  intro hpk
  exact h (by
    rw [← hpk]
    exact List.mem_map.mpr ⟨p, hp, rfl⟩)

/-! ## Sorting lemmas -/

section SortLemmas

variable {α : Type}

theorem mem_insertLe (le : α → α → Bool) (a x : α) (l : List α) :
    x ∈ insertLe le a l ↔ x = a ∨ x ∈ l := by
  induction l with
  | nil => simp [insertLe]
  | cons b t ih =>
    by_cases h : le a b = true
    · simp only [insertLe, if_pos h, List.mem_cons]
    · simp only [insertLe, if_neg h, List.mem_cons, ih]
      tauto

theorem perm_insertLe (le : α → α → Bool) (a : α) (l : List α) :
    List.Perm (insertLe le a l) (a :: l) := by
  induction l with
  | nil => exact List.Perm.refl _
  | cons b t ih =>
    by_cases h : le a b = true
    · simp only [insertLe, if_pos h]
      exact List.Perm.refl _
    · simp only [insertLe, if_neg h]
      exact (List.Perm.cons b ih).trans (List.Perm.swap a b t)

theorem perm_sort_by (le : α → α → Bool) (l : List α) :
    List.Perm (sort_by le l) l := by
  induction l with
  | nil => exact List.Perm.refl _
  | cons a t ih =>
    exact (perm_insertLe le a (sort_by le t)).trans (List.Perm.cons a ih)

theorem pairwise_insertLe (le : α → α → Bool)
    (htot : ∀ x y, le x y = false → le y x = true)
    (htrans : ∀ x y z, le x y = true → le y z = true → le x z = true)
    (a : α) (l : List α) (hl : l.Pairwise (fun x y => le x y = true)) :
    (insertLe le a l).Pairwise (fun x y => le x y = true) := by
  induction l with
  | nil => simp [insertLe]
  | cons b t ih =>
    rcases List.pairwise_cons.mp hl with ⟨hb, ht⟩
    by_cases h : le a b = true
    · simp only [insertLe, if_pos h]
      refine List.pairwise_cons.mpr ⟨?_, hl⟩
      intro y hy
      rcases List.mem_cons.mp hy with rfl | hyt
      · exact h
      · exact htrans a b y h (hb y hyt)
    · simp only [insertLe, if_neg h]
      refine List.pairwise_cons.mpr ⟨?_, ih ht⟩
      intro y hy
      rcases (mem_insertLe le a y t).mp hy with hya | hyt
      · rw [hya]
        exact htot a b (by simpa using h)
      · exact hb y hyt

theorem pairwise_sort_by (le : α → α → Bool)
    (htot : ∀ x y, le x y = false → le y x = true)
    (htrans : ∀ x y z, le x y = true → le y z = true → le x z = true)
    (l : List α) : (sort_by le l).Pairwise (fun x y => le x y = true) := by
  induction l with
  | nil => simp [sort_by]
  | cons a t ih => exact pairwise_insertLe le htot htrans a (sort_by le t) ih

end SortLemmas

/-- Ascending key sort is sorted (pairwise nondecreasing keys). -/
theorem sort_by_asc_pairwise {β : Type} (l : List (Nat × β)) :
    (sort_by (fun a c => decide (a.1 ≤ c.1)) l).Pairwise (fun a c => a.1 ≤ c.1) := by
  have h := pairwise_sort_by (fun a c : Nat × β => decide (a.1 ≤ c.1))
    (fun x y hxy => by simp at hxy ⊢; omega)
    (fun x y z h1 h2 => by simp at h1 h2 ⊢; omega) l
  exact h.imp (fun hh => of_decide_eq_true hh)

/-- Descending key sort is sorted (pairwise nonincreasing keys). -/
theorem sort_by_desc_pairwise {β : Type} (l : List (Nat × β)) :
    (sort_by (fun a c => decide (c.1 ≤ a.1)) l).Pairwise (fun a c => c.1 ≤ a.1) := by
  have h := pairwise_sort_by (fun a c : Nat × β => decide (c.1 ≤ a.1))
    (fun x y hxy => by simp at hxy ⊢; omega)
    (fun x y z h1 h2 => by simp at h1 h2 ⊢; omega) l
  exact h.imp (fun hh => of_decide_eq_true hh)

/-! ## Counting lemmas -/

theorem countL_append (id : Nat) (l₁ l₂ : PriceLevel) :
    countL id (l₁ ++ l₂) = countL id l₁ + countL id l₂ := by
  simp [countL]

theorem countSide_append (id : Nat) (s₁ s₂ : List (Nat × PriceLevel)) :
    countSide id (s₁ ++ s₂) = countSide id s₁ + countSide id s₂ := by
  simp [countSide]

theorem countSide_filter_add (id k : Nat) (lvl : PriceLevel)
    (s : List (Nat × PriceLevel))
    (hnd : (keysOf s).Nodup) (hmem : (k, lvl) ∈ s) :
    countSide id (s.filter (fun p => p.1 ≠ k)) + countL id lvl = countSide id s := by
  induction s with
  | nil => simp at hmem
  | cons p t ih =>
    simp only [keysOf, List.map_cons, List.nodup_cons] at hnd
    rcases List.mem_cons.mp hmem with heq | hmem'
    · subst heq
      have hk : k ∉ keysOf t := by simpa [keysOf] using hnd.1
      have hfil : List.filter (fun q => decide (q.1 ≠ k)) ((k, lvl) :: t) =
          List.filter (fun q => decide (q.1 ≠ k)) t := by
        simp [List.filter_cons]
      rw [hfil, filter_ne_eq_self t k hk]
      simp only [countSide, List.map_cons, List.sum_cons]
      omega
    · have hkmem : k ∈ keysOf t := by
        simp only [keysOf, List.mem_map]
        exact ⟨(k, lvl), hmem', rfl⟩
      have hp : ¬ p.1 = k := fun hh => hnd.1 (by simpa [keysOf, hh] using hkmem)
      have hfil : List.filter (fun q => decide (q.1 ≠ k)) (p :: t) =
          p :: List.filter (fun q => decide (q.1 ≠ k)) t := by
        simp [List.filter_cons, hp]
      rw [hfil]
      have hih := ih hnd.2 hmem'
      simp only [countSide, List.map_cons, List.sum_cons] at hih ⊢
      omega

theorem countSide_alistInsert (id k : Nat) (lvl nl : PriceLevel)
    (s : List (Nat × PriceLevel))
    (hnd : (keysOf s).Nodup) (hmem : (k, lvl) ∈ s) :
    countSide id (alistInsert s k nl) + countL id lvl =
      countSide id s + countL id nl := by
  unfold alistInsert
  rw [countSide_append]
  have h := countSide_filter_add id k lvl s hnd hmem
  simp only [countSide, List.map_cons, List.map_nil, List.sum_cons, List.sum_nil] at h ⊢
  omega

theorem countSide_alistRemove (id k : Nat) (lvl : PriceLevel)
    (s : List (Nat × PriceLevel))
    (hnd : (keysOf s).Nodup) (hmem : (k, lvl) ∈ s) :
    countSide id (alistRemove s k) + countL id lvl = countSide id s :=
  countSide_filter_add id k lvl s hnd hmem

theorem countSide_alistInsert_notmem (id k : Nat) (nl : PriceLevel)
    (s : List (Nat × PriceLevel)) (h : k ∉ keysOf s) :
    countSide id (alistInsert s k nl) = countSide id s + countL id nl := by
  unfold alistInsert
  rw [filter_ne_eq_self s k h, countSide_append]
  simp [countSide]

theorem countSide_eq_zero (id : Nat) (s : List (Nat × PriceLevel))
    (h : ∀ e, occursSide s e → e.id ≠ id) : countSide id s = 0 := by
  induction s with
  | nil => rfl
  | cons p t ih =>
    simp only [countSide, List.map_cons, List.sum_cons]
    have h1 : countL id p.2 = 0 := by
      simp only [countL, List.length_eq_zero]
      apply List.filter_eq_nil.mpr
      intro e he
      simpa using h e ⟨p, List.mem_cons_self p t, he⟩
    have h2 : countSide id t = 0 :=
      ih (fun e ⟨q, hq, he⟩ => h e ⟨q, List.mem_cons_of_mem p hq, he⟩)
    simp [countSide] at h2
    omega

theorem countL_pos_of_mem (id : Nat) (lvl : PriceLevel) (e : Order)
    (he : e ∈ lvl) (hid : e.id = id) : 0 < countL id lvl := by
  simp only [countL, List.length_pos]
  intro hnil
  have : e ∈ lvl.filter (fun o => o.id = id) :=
    List.mem_filter.mpr ⟨he, by simpa using hid⟩
  simp [hnil] at this

theorem countSide_pos_of_occurs (id : Nat) (s : List (Nat × PriceLevel)) (e : Order)
    (he : occursSide s e) (hid : e.id = id) : 0 < countSide id s := by
  obtain ⟨p, hp, hep⟩ := he
  induction s with
  | nil => simp at hp
  | cons q t ih =>
    simp only [countSide, List.map_cons, List.sum_cons]
    rcases List.mem_cons.mp hp with rfl | hpt
    · have := countL_pos_of_mem id p.2 e hep hid
      omega
    · have := ih hpt
      simp only [countSide] at this
      omega

theorem occursSide_of_mem_level (s : List (Nat × PriceLevel)) (p : Nat × PriceLevel)
    (e : Order) (hp : p ∈ s) (he : e ∈ p.2) : occursSide s e := ⟨p, hp, he⟩

theorem occursSide_alistInsert_elim (s : List (Nat × PriceLevel)) (k : Nat)
    (nl : PriceLevel) (e : Order) (h : occursSide (alistInsert s k nl) e) :
    occursSide s e ∨ e ∈ nl := by
  obtain ⟨p, hp, hep⟩ := h
  rcases mem_of_mem_alistInsert s k nl p hp with hmem | heq
  · exact Or.inl ⟨p, hmem, hep⟩
  · subst heq
    exact Or.inr hep

theorem occursSide_alistRemove_elim (s : List (Nat × PriceLevel)) (k : Nat)
    (e : Order) (h : occursSide (alistRemove s k) e) : occursSide s e := by
  obtain ⟨p, hp, hep⟩ := h
  exact ⟨p, (mem_of_mem_alistRemove s k p hp).1, hep⟩

/-! ## Per-level consumption lemmas -/

namespace OrderBook

theorem consumeLevel_frame (tb : Bool) (sym : String) (tid : Nat) (price : ℚ)
    (b : OrderBook) (r : ℚ) (ts : List Trade) (lvl nl : List Order) :
    (consumeLevel tb sym tid price b r ts lvl nl).1.bids = b.bids ∧
    (consumeLevel tb sym tid price b r ts lvl nl).1.asks = b.asks ∧
    (consumeLevel tb sym tid price b r ts lvl nl).1.symbol = b.symbol ∧
    (consumeLevel tb sym tid price b r ts lvl nl).1.best_bid = b.best_bid ∧
    (consumeLevel tb sym tid price b r ts lvl nl).1.best_ask = b.best_ask := by
  induction lvl generalizing b r ts nl with
  | nil => simp [consumeLevel]
  | cons m rest ih =>
    simp only [consumeLevel]
    split_ifs <;> exact ih _ _ _ _

theorem consumeLevel_nonpos (tb : Bool) (sym : String) (tid : Nat) (price : ℚ)
    (b : OrderBook) (r : ℚ) (ts : List Trade) (lvl nl : List Order) (hr : r ≤ 0) :
    consumeLevel tb sym tid price b r ts lvl nl = (b, r, ts, nl ++ lvl) := by
  induction lvl generalizing nl with
  | nil => simp [consumeLevel]
  | cons m rest ih =>
    simp only [consumeLevel, if_pos hr]
    rw [ih (nl ++ [m])]
    simp

theorem consumeLevel_res_pos_newLevel (tb : Bool) (sym : String) (tid : Nat)
    (price : ℚ) (b : OrderBook) (r : ℚ) (ts : List Trade) (lvl nl : List Order)
    (h : 0 < (consumeLevel tb sym tid price b r ts lvl nl).2.1) :
    (consumeLevel tb sym tid price b r ts lvl nl).2.2.2 = nl := by
  induction lvl generalizing b r ts nl with
  | nil => simp [consumeLevel]
  | cons m rest ih =>
    by_cases h1 : r ≤ 0
    · rw [consumeLevel_nonpos tb sym tid price b r ts (m :: rest) nl h1] at h
      exact absurd h (by simpa using h1)
    · simp only [consumeLevel, if_neg h1] at h ⊢
      by_cases h2 : 0 < m.quantity - min r m.quantity
      · simp only [if_pos h2] at h ⊢
        have htq : min r m.quantity = r := by
          rcases min_cases r m.quantity with ⟨he, _⟩ | ⟨he, hlt⟩
          · exact he
          · exfalso
            rw [he] at h2
            simp at h2
        rw [htq] at h ⊢
        rw [consumeLevel_nonpos _ _ _ _ _ _ _ _ _ (by simp : r - r ≤ 0)] at h
        simp at h
      · simp only [if_neg h2] at h ⊢
        exact ih _ _ _ _ h

theorem consumeLevel_cons_nonpos (tb : Bool) (sym : String) (tid : Nat)
    (price : ℚ) (b : OrderBook) (r : ℚ) (ts : List Trade) (m : Order)
    (rest nl : List Order) (hr : r ≤ 0) :
    consumeLevel tb sym tid price b r ts (m :: rest) nl =
      consumeLevel tb sym tid price b r ts rest (nl ++ [m]) := by
  simp only [consumeLevel, if_pos hr]

theorem consumeLevel_cons_keep (tb : Bool) (sym : String) (tid : Nat)
    (price : ℚ) (b : OrderBook) (r : ℚ) (ts : List Trade) (m : Order)
    (rest nl : List Order) (hr : ¬ r ≤ 0) (hm : 0 < m.quantity - min r m.quantity) :
    consumeLevel tb sym tid price b r ts (m :: rest) nl =
      consumeLevel tb sym tid price
        { b with next_trade_id := b.next_trade_id + 1, last_price := price,
                 total_volume := b.total_volume + f64AsU64 (min r m.quantity) }
        (r - min r m.quantity)
        (ts ++ [{ id := b.next_trade_id, symbol := sym,
                  buy_order_id := if tb then tid else m.id,
                  sell_order_id := if tb then m.id else tid,
                  price := price, quantity := min r m.quantity, timestamp := 0 }])
        rest (nl ++ [{ m with quantity := m.quantity - min r m.quantity }]) := by
  simp only [consumeLevel, if_neg hr, if_pos hm]

theorem consumeLevel_cons_drop (tb : Bool) (sym : String) (tid : Nat)
    (price : ℚ) (b : OrderBook) (r : ℚ) (ts : List Trade) (m : Order)
    (rest nl : List Order) (hr : ¬ r ≤ 0) (hm : ¬ 0 < m.quantity - min r m.quantity) :
    consumeLevel tb sym tid price b r ts (m :: rest) nl =
      consumeLevel tb sym tid price
        { b with orders := alistRemove b.orders m.id,
                 next_trade_id := b.next_trade_id + 1, last_price := price,
                 total_volume := b.total_volume + f64AsU64 (min r m.quantity) }
        (r - min r m.quantity)
        (ts ++ [{ id := b.next_trade_id, symbol := sym,
                  buy_order_id := if tb then tid else m.id,
                  sell_order_id := if tb then m.id else tid,
                  price := price, quantity := min r m.quantity, timestamp := 0 }])
        rest nl := by
  simp only [consumeLevel, if_neg hr, if_neg hm]

theorem countL_cons (id : Nat) (m : Order) (rest : PriceLevel) :
    countL id (m :: rest) = (if m.id = id then 1 else 0) + countL id rest := by
  unfold countL
  rw [List.filter_cons]
  by_cases h : m.id = id
  · simp [h, Nat.add_comm]
  · simp [h]

theorem countL_nil (id : Nat) : countL id [] = 0 := rfl

theorem sumQty_nil : sumQty [] = 0 := rfl

theorem sumQty_cons (t : Trade) (ts : List Trade) :
    sumQty (t :: ts) = t.quantity + sumQty ts := by
  simp [sumQty]

theorem min_nonneg_of_keep (r q : ℚ) (hr : ¬ r ≤ 0) (hm : 0 < q - min r q) :
    0 ≤ min r q := by
  rcases le_or_lt 0 q with hq | hq
  · exact le_min (le_of_lt (not_le.mp hr)) hq
  · exfalso
    have h : min r q = q := min_eq_right (le_of_lt (hq.trans (not_le.mp hr)))
    rw [h] at hm
    simp at hm

theorem consumeLevel_newLevel_entries (tb : Bool) (sym : String) (tid : Nat)
    (price : ℚ) (b : OrderBook) (r : ℚ) (ts : List Trade) (lvl nl : List Order) :
    ∀ e' ∈ (consumeLevel tb sym tid price b r ts lvl nl).2.2.2,
      e' ∈ nl ∨ ∃ e ∈ lvl, e'.id = e.id ∧ e'.quantity ≤ e.quantity := by
  induction lvl generalizing b r ts nl with
  | nil =>
    intro e' he'
    simp only [consumeLevel] at he'
    exact Or.inl he'
  | cons m rest ih =>
    intro e' he'
    by_cases h1 : r ≤ 0
    · rw [consumeLevel_cons_nonpos tb sym tid price b r ts m rest nl h1] at he'
      rcases ih _ _ _ _ e' he' with hnl | ⟨e, he, hid, hq⟩
      · rcases List.mem_append.mp hnl with hnl' | hm
        · exact Or.inl hnl'
        · have hm' := List.mem_singleton.mp hm
          exact Or.inr ⟨m, List.mem_cons_self m rest, by rw [hm'], by rw [hm']⟩
      · exact Or.inr ⟨e, List.mem_cons_of_mem m he, hid, hq⟩
    · by_cases h2 : 0 < m.quantity - min r m.quantity
      · rw [consumeLevel_cons_keep tb sym tid price b r ts m rest nl h1 h2] at he'
        rcases ih _ _ _ _ e' he' with hnl | ⟨e, he, hid, hq⟩
        · rcases List.mem_append.mp hnl with hnl' | hm
          · exact Or.inl hnl'
          · have hm' := List.mem_singleton.mp hm
            refine Or.inr ⟨m, List.mem_cons_self m rest, by rw [hm'], ?_⟩
            rw [hm']
            have hmin := min_nonneg_of_keep r m.quantity h1 h2
            simp only
            linarith
        · exact Or.inr ⟨e, List.mem_cons_of_mem m he, hid, hq⟩
      · rw [consumeLevel_cons_drop tb sym tid price b r ts m rest nl h1 h2] at he'
        rcases ih _ _ _ _ e' he' with hnl | ⟨e, he, hid, hq⟩
        · exact Or.inl hnl
        · exact Or.inr ⟨e, List.mem_cons_of_mem m he, hid, hq⟩

theorem consumeLevel_orders_shrink (tb : Bool) (sym : String) (tid : Nat)
    (price : ℚ) (b : OrderBook) (r : ℚ) (ts : List Trade) (lvl nl : List Order) :
    ∀ id v, alistGet? (consumeLevel tb sym tid price b r ts lvl nl).1.orders id = some v →
      alistGet? b.orders id = some v := by
  induction lvl generalizing b r ts nl with
  | nil =>
    intro id v h
    simpa [consumeLevel] using h
  | cons m rest ih =>
    intro id v h
    by_cases h1 : r ≤ 0
    · rw [consumeLevel_cons_nonpos tb sym tid price b r ts m rest nl h1] at h
      exact ih _ _ _ _ id v h
    · by_cases h2 : 0 < m.quantity - min r m.quantity
      · rw [consumeLevel_cons_keep tb sym tid price b r ts m rest nl h1 h2] at h
        have hx := ih _ _ _ _ id v h
        exact hx
      · rw [consumeLevel_cons_drop tb sym tid price b r ts m rest nl h1 h2] at h
        have h' := ih _ _ _ _ id v h
        by_cases hid : id = m.id
        · rw [hid] at h'
          simp only at h'
          rw [alistGet?_remove_self] at h'
          exact absurd h' (by simp)
        · simp only at h'
          rw [alistGet?_remove_ne _ _ _ hid] at h'
          exact h'

theorem consumeLevel_surviving (tb : Bool) (sym : String) (tid : Nat)
    (price : ℚ) (b : OrderBook) (r : ℚ) (ts : List Trade) (lvl nl : List Order) :
    ∀ id, (alistGet? (consumeLevel tb sym tid price b r ts lvl nl).1.orders id).isSome →
      alistGet? (consumeLevel tb sym tid price b r ts lvl nl).1.orders id =
        alistGet? b.orders id ∧
      countL id (consumeLevel tb sym tid price b r ts lvl nl).2.2.2 =
        countL id nl + countL id lvl := by
  induction lvl generalizing b r ts nl with
  | nil =>
    intro id hs
    refine ⟨rfl, ?_⟩
    simp [consumeLevel, countL]
  | cons m rest ih =>
    intro id hs
    by_cases h1 : r ≤ 0
    · rw [consumeLevel_cons_nonpos tb sym tid price b r ts m rest nl h1] at hs ⊢
      obtain ⟨hl, hc⟩ := ih _ _ _ _ id hs
      refine ⟨hl, ?_⟩
      rw [hc, countL_append, countL_cons]
      by_cases hmid : m.id = id <;> simp [hmid, countL_cons, countL_nil] <;> omega
    · by_cases h2 : 0 < m.quantity - min r m.quantity
      · rw [consumeLevel_cons_keep tb sym tid price b r ts m rest nl h1 h2] at hs ⊢
        obtain ⟨hl, hc⟩ := ih _ _ _ _ id hs
        refine ⟨hl, ?_⟩
        rw [hc, countL_append, countL_cons]
        by_cases hmid : m.id = id <;> simp [hmid, countL_cons, countL_nil] <;> omega
      · rw [consumeLevel_cons_drop tb sym tid price b r ts m rest nl h1 h2] at hs ⊢
        obtain ⟨hl, hc⟩ := ih _ _ _ _ id hs
        have hid : id ≠ m.id := by
          intro hid
          rw [hl] at hs
          simp only at hs
          rw [hid, alistGet?_remove_self] at hs
          simp at hs
        constructor
        · rw [hl]
          simp only
          exact alistGet?_remove_ne _ _ _ hid
        · rw [hc, countL_cons]
          have : ¬ m.id = id := fun hh => hid hh.symm
          simp [this]

theorem consumeLevel_count_le (tb : Bool) (sym : String) (tid : Nat)
    (price : ℚ) (b : OrderBook) (r : ℚ) (ts : List Trade) (lvl nl : List Order) :
    ∀ id, countL id (consumeLevel tb sym tid price b r ts lvl nl).2.2.2 ≤
      countL id nl + countL id lvl := by
  induction lvl generalizing b r ts nl with
  | nil =>
    intro id
    simp [consumeLevel, countL]
  | cons m rest ih =>
    intro id
    by_cases h1 : r ≤ 0
    · rw [consumeLevel_cons_nonpos tb sym tid price b r ts m rest nl h1]
      refine le_trans (ih _ _ _ _ id) ?_
      rw [countL_append, countL_cons]
      by_cases hmid : m.id = id <;> simp [hmid, countL_cons, countL_nil] <;> omega
    · by_cases h2 : 0 < m.quantity - min r m.quantity
      · rw [consumeLevel_cons_keep tb sym tid price b r ts m rest nl h1 h2]
        refine le_trans (ih _ _ _ _ id) ?_
        rw [countL_append, countL_cons]
        by_cases hmid : m.id = id <;> simp [hmid, countL_cons, countL_nil] <;> omega
      · rw [consumeLevel_cons_drop tb sym tid price b r ts m rest nl h1 h2]
        refine le_trans (ih _ _ _ _ id) ?_
        rw [countL_cons]
        omega

theorem consumeLevel_trades (tb : Bool) (sym : String) (tid : Nat)
    (price : ℚ) (b : OrderBook) (r : ℚ) (ts : List Trade) (lvl nl : List Order) :
    ∃ δ, (consumeLevel tb sym tid price b r ts lvl nl).2.2.1 = ts ++ δ ∧
      δ.map Trade.id = List.range' b.next_trade_id δ.length ∧
      (consumeLevel tb sym tid price b r ts lvl nl).1.next_trade_id =
        b.next_trade_id + δ.length ∧
      sumQty δ + (consumeLevel tb sym tid price b r ts lvl nl).2.1 = r ∧
      ∀ t ∈ δ, t.price = price ∧ t.symbol = sym ∧
        (if tb then t.sell_order_id else t.buy_order_id) ∈ lvl.map Order.id := by
  induction lvl generalizing b r ts nl with
  | nil =>
    refine ⟨[], by simp [consumeLevel], by simp, by simp [consumeLevel], ?_, by simp⟩
    simp [consumeLevel, sumQty]
  | cons m rest ih =>
    by_cases h1 : r ≤ 0
    · rw [consumeLevel_cons_nonpos tb sym tid price b r ts m rest nl h1]
      obtain ⟨δ, ha, hb2, hc, hd, he⟩ := ih b r ts (nl ++ [m])
      exact ⟨δ, ha, hb2, hc, hd, fun t ht =>
        ⟨(he t ht).1, (he t ht).2.1, List.mem_cons_of_mem _ (he t ht).2.2⟩⟩
    · have hstep : ∀ bb nn,
        consumeLevel tb sym tid price b r ts (m :: rest) nl =
          consumeLevel tb sym tid price bb (r - min r m.quantity)
            (ts ++ [{ id := b.next_trade_id, symbol := sym,
                      buy_order_id := if tb then tid else m.id,
                      sell_order_id := if tb then m.id else tid,
                      price := price, quantity := min r m.quantity, timestamp := 0 }])
            rest nn →
        bb.next_trade_id = b.next_trade_id + 1 →
          ∃ δ, (consumeLevel tb sym tid price b r ts (m :: rest) nl).2.2.1 = ts ++ δ ∧
            δ.map Trade.id = List.range' b.next_trade_id δ.length ∧
            (consumeLevel tb sym tid price b r ts (m :: rest) nl).1.next_trade_id =
              b.next_trade_id + δ.length ∧
            sumQty δ + (consumeLevel tb sym tid price b r ts (m :: rest) nl).2.1 = r ∧
            ∀ t ∈ δ, t.price = price ∧ t.symbol = sym ∧
              (if tb then t.sell_order_id else t.buy_order_id) ∈ (m :: rest).map Order.id := by
        intro bb nn hstepEq hnext
        obtain ⟨δ, ha, hb2, hc, hd, he⟩ := ih bb (r - min r m.quantity)
          (ts ++ [{ id := b.next_trade_id, symbol := sym,
                    buy_order_id := if tb then tid else m.id,
                    sell_order_id := if tb then m.id else tid,
                    price := price, quantity := min r m.quantity, timestamp := 0 }]) nn
        rw [hstepEq]
        refine ⟨{ id := b.next_trade_id, symbol := sym,
                  buy_order_id := if tb then tid else m.id,
                  sell_order_id := if tb then m.id else tid,
                  price := price, quantity := min r m.quantity, timestamp := 0 } :: δ,
                ?_, ?_, ?_, ?_, ?_⟩
        · rw [ha, List.append_assoc]
          rfl
        · simp only [List.map_cons, List.length_cons, hb2, hnext]
          rw [List.range'_succ]
        · rw [hc, hnext, List.length_cons]
          omega
        · rw [sumQty_cons] at *
          simp only at hd ⊢
          linarith [hd]
        · intro t ht
          rcases List.mem_cons.mp ht with rfl | htd
          · refine ⟨rfl, rfl, ?_⟩
            cases tb <;> simp
          · obtain ⟨hp, hsym, hmk⟩ := he t htd
            exact ⟨hp, hsym, List.mem_cons_of_mem _ hmk⟩
      by_cases h2 : 0 < m.quantity - min r m.quantity
      · exact hstep _ _ (consumeLevel_cons_keep tb sym tid price b r ts m rest nl h1 h2) rfl
      · exact hstep _ _ (consumeLevel_cons_drop tb sym tid price b r ts m rest nl h1 h2) rfl

theorem consumeLevel_r_nonneg (tb : Bool) (sym : String) (tid : Nat)
    (price : ℚ) (b : OrderBook) (r : ℚ) (ts : List Trade) (lvl nl : List Order)
    (hr : 0 ≤ r) : 0 ≤ (consumeLevel tb sym tid price b r ts lvl nl).2.1 := by
  induction lvl generalizing b r ts nl with
  | nil => simpa [consumeLevel] using hr
  | cons m rest ih =>
    by_cases h1 : r ≤ 0
    · rw [consumeLevel_cons_nonpos tb sym tid price b r ts m rest nl h1]
      exact ih _ _ _ _ hr
    · have hr' : 0 ≤ r - min r m.quantity := by
        have := min_le_left r m.quantity
        linarith
      by_cases h2 : 0 < m.quantity - min r m.quantity
      · rw [consumeLevel_cons_keep tb sym tid price b r ts m rest nl h1 h2]
        exact ih _ _ _ _ hr'
      · rw [consumeLevel_cons_drop tb sym tid price b r ts m rest nl h1 h2]
        exact ih _ _ _ _ hr'

end OrderBook

/-! ## Ask-sweep lemmas -/

namespace OrderBook

theorem sweepAsks_nonpos (sym : String) (tid : Nat) (stop : Nat → Bool)
    (b : OrderBook) (r : ℚ) (ts : List Trade) (ls : List (Nat × PriceLevel))
    (hr : r ≤ 0) : sweepAsks sym tid stop b r ts ls = (b, r, ts) := by
  cases ls with
  | nil => rfl
  | cons p rest =>
    obtain ⟨k, lvl⟩ := p
    by_cases hstop : stop k = true
    · simp [sweepAsks, hstop]
    · simp [sweepAsks, hstop, hr]

theorem sweepAsks_cons_stop (sym : String) (tid : Nat) (stop : Nat → Bool)
    (b : OrderBook) (r : ℚ) (ts : List Trade) (k : Nat) (lvl : PriceLevel)
    (rest : List (Nat × PriceLevel)) (hstop : stop k = true) :
    sweepAsks sym tid stop b r ts ((k, lvl) :: rest) = (b, r, ts) := by
  simp [sweepAsks, hstop]

theorem sweepAsks_cons_go (sym : String) (tid : Nat) (stop : Nat → Bool)
    (b : OrderBook) (r : ℚ) (ts : List Trade) (k : Nat) (lvl : PriceLevel)
    (rest : List (Nat × PriceLevel)) (hstop : ¬ stop k = true) (hr : ¬ r ≤ 0) :
    sweepAsks sym tid stop b r ts ((k, lvl) :: rest) =
      sweepAsks sym tid stop
        (if (consumeLevel true sym tid (key_to_price k) b r ts lvl []).2.2.2.isEmpty = true
         then { (consumeLevel true sym tid (key_to_price k) b r ts lvl []).1 with
                asks := alistRemove
                  (consumeLevel true sym tid (key_to_price k) b r ts lvl []).1.asks k }
         else { (consumeLevel true sym tid (key_to_price k) b r ts lvl []).1 with
                asks := alistInsert
                  (consumeLevel true sym tid (key_to_price k) b r ts lvl []).1.asks k
                  (consumeLevel true sym tid (key_to_price k) b r ts lvl []).2.2.2 })
        (consumeLevel true sym tid (key_to_price k) b r ts lvl []).2.1
        (consumeLevel true sym tid (key_to_price k) b r ts lvl []).2.2.1 rest := by
  simp only [sweepAsks, if_neg hstop, if_neg hr]

theorem sweepAsks_frame (sym : String) (tid : Nat) (stop : Nat → Bool)
    (b : OrderBook) (r : ℚ) (ts : List Trade) (ls : List (Nat × PriceLevel)) :
    (sweepAsks sym tid stop b r ts ls).1.bids = b.bids ∧
    (sweepAsks sym tid stop b r ts ls).1.symbol = b.symbol ∧
    (sweepAsks sym tid stop b r ts ls).1.best_bid = b.best_bid ∧
    (sweepAsks sym tid stop b r ts ls).1.best_ask = b.best_ask := by
  induction ls generalizing b r ts with
  | nil => exact ⟨rfl, rfl, rfl, rfl⟩
  | cons p rest ih =>
    obtain ⟨k, lvl⟩ := p
    by_cases hstop : stop k = true
    · rw [sweepAsks_cons_stop sym tid stop b r ts k lvl rest hstop]
      exact ⟨rfl, rfl, rfl, rfl⟩
    · by_cases hr : r ≤ 0
      · rw [sweepAsks_nonpos sym tid stop b r ts _ hr]
        exact ⟨rfl, rfl, rfl, rfl⟩
      · rw [sweepAsks_cons_go sym tid stop b r ts k lvl rest hstop hr]
        obtain ⟨f1, f2, f3, f4, f5⟩ :=
          consumeLevel_frame true sym tid (key_to_price k) b r ts lvl []
        obtain ⟨g1, g2, g3, g4⟩ := ih _ _ _
        refine ⟨?_, ?_, ?_, ?_⟩ <;>
          [rw [g1]; rw [g2]; rw [g3]; rw [g4]] <;>
          split_ifs <;> simp [f1, f3, f4, f5]

theorem sweepAsks_orders_shrink (sym : String) (tid : Nat) (stop : Nat → Bool)
    (b : OrderBook) (r : ℚ) (ts : List Trade) (ls : List (Nat × PriceLevel)) :
    ∀ id v, alistGet? (sweepAsks sym tid stop b r ts ls).1.orders id = some v →
      alistGet? b.orders id = some v := by
  induction ls generalizing b r ts with
  | nil => exact fun id v h => h
  | cons p rest ih =>
    obtain ⟨k, lvl⟩ := p
    intro id v h
    by_cases hstop : stop k = true
    · rw [sweepAsks_cons_stop sym tid stop b r ts k lvl rest hstop] at h
      exact h
    · by_cases hr : r ≤ 0
      · rw [sweepAsks_nonpos sym tid stop b r ts _ hr] at h
        exact h
      · rw [sweepAsks_cons_go sym tid stop b r ts k lvl rest hstop hr] at h
        have h2 := ih _ _ _ id v h
        have h3 : alistGet?
            (consumeLevel true sym tid (key_to_price k) b r ts lvl []).1.orders id =
            some v := by
          split_ifs at h2 <;> exact h2
        exact consumeLevel_orders_shrink true sym tid (key_to_price k) b r ts lvl [] id v h3

theorem sweepAsks_r_nonneg (sym : String) (tid : Nat) (stop : Nat → Bool)
    (b : OrderBook) (r : ℚ) (ts : List Trade) (ls : List (Nat × PriceLevel))
    (hr : 0 ≤ r) : 0 ≤ (sweepAsks sym tid stop b r ts ls).2.1 := by
  induction ls generalizing b r ts with
  | nil => exact hr
  | cons p rest ih =>
    obtain ⟨k, lvl⟩ := p
    by_cases hstop : stop k = true
    · rw [sweepAsks_cons_stop sym tid stop b r ts k lvl rest hstop]
      exact hr
    · by_cases hnr : r ≤ 0
      · rw [sweepAsks_nonpos sym tid stop b r ts _ hnr]
        exact hr
      · rw [sweepAsks_cons_go sym tid stop b r ts k lvl rest hstop hnr]
        exact ih _ _ _ (consumeLevel_r_nonneg true sym tid (key_to_price k) b r ts lvl [] hr)

theorem sweepAsks_keys_sub (sym : String) (tid : Nat) (stop : Nat → Bool)
    (b : OrderBook) (r : ℚ) (ts : List Trade) (ls : List (Nat × PriceLevel))
    (hls : ∀ p ∈ ls, p ∈ b.asks) (hlsnd : (keysOf ls).Nodup) :
    ∀ k' ∈ keysOf (sweepAsks sym tid stop b r ts ls).1.asks, k' ∈ keysOf b.asks := by
  induction ls generalizing b r ts with
  | nil => exact fun k' h => h
  | cons p rest ih =>
    obtain ⟨k, lvl⟩ := p
    intro k' h
    by_cases hstop : stop k = true
    · rw [sweepAsks_cons_stop sym tid stop b r ts k lvl rest hstop] at h
      exact h
    · by_cases hr : r ≤ 0
      · rw [sweepAsks_nonpos sym tid stop b r ts _ hr] at h
        exact h
      · rw [sweepAsks_cons_go sym tid stop b r ts k lvl rest hstop hr] at h
        have hknotin : k ∉ keysOf rest := by
          simp only [keysOf, List.map_cons, List.nodup_cons] at hlsnd
          exact hlsnd.1
        have hrestnd : (keysOf rest).Nodup := by
          simp only [keysOf, List.map_cons, List.nodup_cons] at hlsnd
          exact hlsnd.2
        have hframe := consumeLevel_frame true sym tid (key_to_price k) b r ts lvl []
        have hrest : ∀ p ∈ rest,
            p ∈ (if (consumeLevel true sym tid (key_to_price k) b r ts lvl []).2.2.2.isEmpty = true
                 then { (consumeLevel true sym tid (key_to_price k) b r ts lvl []).1 with
                        asks := alistRemove
                          (consumeLevel true sym tid (key_to_price k) b r ts lvl []).1.asks k }
                 else { (consumeLevel true sym tid (key_to_price k) b r ts lvl []).1 with
                        asks := alistInsert
                          (consumeLevel true sym tid (key_to_price k) b r ts lvl []).1.asks k
                          (consumeLevel true sym tid (key_to_price k) b r ts lvl []).2.2.2 }).asks := by
          intro p hp
          have hpb : p ∈ b.asks := hls p (List.mem_cons_of_mem _ hp)
          have hpk : p.1 ≠ k := by
            intro hpk
            exact hknotin (hpk ▸ List.mem_map.mpr ⟨p, hp, rfl⟩)
          split_ifs
          · simp only
            rw [hframe.2.1]
            exact mem_alistRemove_of_ne _ _ _ hpb hpk
          · simp only
            rw [hframe.2.1]
            exact mem_alistInsert_of_ne _ _ _ _ hpb hpk
        have h2 := ih _ _ _ hrest hrestnd k' h
        split_ifs at h2
        · simp only at h2
          rw [hframe.2.1] at h2
          exact (mem_keysOf_alistRemove _ _ _ h2).1
        · simp only at h2
          rw [hframe.2.1] at h2
          rcases mem_keysOf_alistInsert _ _ _ _ h2 with rfl | hmem
          · exact List.mem_map.mpr ⟨(k', lvl), hls (k', lvl) (List.mem_cons_self _ _), rfl⟩
          · exact hmem

theorem sweepAsks_occurs (sym : String) (tid : Nat) (stop : Nat → Bool)
    (b : OrderBook) (r : ℚ) (ts : List Trade) (ls : List (Nat × PriceLevel))
    (hls : ∀ p ∈ ls, p ∈ b.asks) (hlsnd : (keysOf ls).Nodup) :
    ∀ e', occursSide (sweepAsks sym tid stop b r ts ls).1.asks e' →
      ∃ e, occursSide b.asks e ∧ e'.id = e.id ∧ e'.quantity ≤ e.quantity := by
  induction ls generalizing b r ts with
  | nil => exact fun e' h => ⟨e', h, rfl, le_refl _⟩
  | cons p rest ih =>
    obtain ⟨k, lvl⟩ := p
    intro e' h
    by_cases hstop : stop k = true
    · rw [sweepAsks_cons_stop sym tid stop b r ts k lvl rest hstop] at h
      exact ⟨e', h, rfl, le_refl _⟩
    · by_cases hr : r ≤ 0
      · rw [sweepAsks_nonpos sym tid stop b r ts _ hr] at h
        exact ⟨e', h, rfl, le_refl _⟩
      · rw [sweepAsks_cons_go sym tid stop b r ts k lvl rest hstop hr] at h
        have hknotin : k ∉ keysOf rest := by
          simp only [keysOf, List.map_cons, List.nodup_cons] at hlsnd
          exact hlsnd.1
        have hrestnd : (keysOf rest).Nodup := by
          simp only [keysOf, List.map_cons, List.nodup_cons] at hlsnd
          exact hlsnd.2
        have hframe := consumeLevel_frame true sym tid (key_to_price k) b r ts lvl []
        have hrest : ∀ p ∈ rest,
            p ∈ (if (consumeLevel true sym tid (key_to_price k) b r ts lvl []).2.2.2.isEmpty = true
                 then { (consumeLevel true sym tid (key_to_price k) b r ts lvl []).1 with
                        asks := alistRemove
                          (consumeLevel true sym tid (key_to_price k) b r ts lvl []).1.asks k }
                 else { (consumeLevel true sym tid (key_to_price k) b r ts lvl []).1 with
                        asks := alistInsert
                          (consumeLevel true sym tid (key_to_price k) b r ts lvl []).1.asks k
                          (consumeLevel true sym tid (key_to_price k) b r ts lvl []).2.2.2 }).asks := by
          intro p hp
          have hpb : p ∈ b.asks := hls p (List.mem_cons_of_mem _ hp)
          have hpk : p.1 ≠ k := by
            intro hpk
            exact hknotin (hpk ▸ List.mem_map.mpr ⟨p, hp, rfl⟩)
          split_ifs
          · simp only
            rw [hframe.2.1]
            exact mem_alistRemove_of_ne _ _ _ hpb hpk
          · simp only
            rw [hframe.2.1]
            exact mem_alistInsert_of_ne _ _ _ _ hpb hpk
        obtain ⟨e1, he1occ, he1id, he1q⟩ := ih _ _ _ hrest hrestnd e' h
        split_ifs at he1occ
        · simp only at he1occ
          rw [hframe.2.1] at he1occ
          exact ⟨e1, occursSide_alistRemove_elim _ _ _ he1occ, he1id, he1q⟩
        · simp only at he1occ
          rw [hframe.2.1] at he1occ
          rcases occursSide_alistInsert_elim _ _ _ _ he1occ with hocc | hnl
          · exact ⟨e1, hocc, he1id, he1q⟩
          · rcases consumeLevel_newLevel_entries true sym tid (key_to_price k) b r ts lvl []
              e1 hnl with hfalse | ⟨e2, he2, hid2, hq2⟩
            · simp at hfalse
            · exact ⟨e2, ⟨(k, lvl), hls (k, lvl) (List.mem_cons_self _ _), he2⟩,
                he1id.trans hid2, he1q.trans hq2⟩

theorem sumQty_append (ts1 ts2 : List Trade) :
    sumQty (ts1 ++ ts2) = sumQty ts1 + sumQty ts2 := by
  simp [sumQty]

theorem keysOf_cons_facts {β : Type} (k : Nat) (lvl : β) (rest : List (Nat × β))
    (h : (keysOf ((k, lvl) :: rest)).Nodup) :
    k ∉ keysOf rest ∧ (keysOf rest).Nodup := by
  simpa [keysOf] using h

theorem sweepAsks_step_GI (sym : String) (tid : Nat) (b : OrderBook) (r : ℚ)
    (ts : List Trade) (k : Nat) (lvl : PriceLevel) (rest : List (Nat × PriceLevel))
    (hls : ∀ p ∈ (k, lvl) :: rest, p ∈ b.asks)
    (hlsnd : (keysOf ((k, lvl) :: rest)).Nodup) :
    ∀ p ∈ rest,
      p ∈ (if (consumeLevel true sym tid (key_to_price k) b r ts lvl []).2.2.2.isEmpty = true
           then { (consumeLevel true sym tid (key_to_price k) b r ts lvl []).1 with
                  asks := alistRemove
                    (consumeLevel true sym tid (key_to_price k) b r ts lvl []).1.asks k }
           else { (consumeLevel true sym tid (key_to_price k) b r ts lvl []).1 with
                  asks := alistInsert
                    (consumeLevel true sym tid (key_to_price k) b r ts lvl []).1.asks k
                    (consumeLevel true sym tid (key_to_price k) b r ts lvl []).2.2.2 }).asks := by
  have hframe := consumeLevel_frame true sym tid (key_to_price k) b r ts lvl []
  obtain ⟨hknotin, hrestnd⟩ := keysOf_cons_facts k lvl rest hlsnd
  intro p hp
  have hpb : p ∈ b.asks := hls p (List.mem_cons_of_mem _ hp)
  have hpk : p.1 ≠ k := by
    intro hpk
    exact hknotin (hpk ▸ List.mem_map.mpr ⟨p, hp, rfl⟩)
  split_ifs
  · simp only
    rw [hframe.2.1]
    exact mem_alistRemove_of_ne _ _ _ hpb hpk
  · simp only
    rw [hframe.2.1]
    exact mem_alistInsert_of_ne _ _ _ _ hpb hpk

theorem sweepAsks_trades (sym : String) (tid : Nat) (stop : Nat → Bool)
    (b : OrderBook) (r : ℚ) (ts : List Trade) (ls : List (Nat × PriceLevel)) :
    ∃ δ, (sweepAsks sym tid stop b r ts ls).2.2 = ts ++ δ ∧
      δ.map Trade.id = List.range' b.next_trade_id δ.length ∧
      (sweepAsks sym tid stop b r ts ls).1.next_trade_id = b.next_trade_id + δ.length ∧
      sumQty δ + (sweepAsks sym tid stop b r ts ls).2.1 = r ∧
      ∀ t ∈ δ, ∃ p ∈ ls, t.price = key_to_price p.1 ∧ t.symbol = sym ∧
        t.sell_order_id ∈ p.2.map Order.id := by
  induction ls generalizing b r ts with
  | nil =>
    refine ⟨[], by simp [sweepAsks], by simp, by simp [sweepAsks], ?_, by simp⟩
    simp [sweepAsks, sumQty]
  | cons p rest ih =>
    obtain ⟨k, lvl⟩ := p
    by_cases hstop : stop k = true
    · rw [sweepAsks_cons_stop sym tid stop b r ts k lvl rest hstop]
      refine ⟨[], by simp, by simp, by simp, by simp [sumQty], by simp⟩
    · by_cases hr : r ≤ 0
      · rw [sweepAsks_nonpos sym tid stop b r ts _ hr]
        refine ⟨[], by simp, by simp, by simp, by simp [sumQty], by simp⟩
      · rw [sweepAsks_cons_go sym tid stop b r ts k lvl rest hstop hr]
        obtain ⟨δ1, hcl1, hcl2, hcl3, hcl4, hcl5⟩ :=
          consumeLevel_trades true sym tid (key_to_price k) b r ts lvl []
        set cl := consumeLevel true sym tid (key_to_price k) b r ts lvl [] with hcldef
        obtain ⟨δ2, hi1, hi2, hi3, hi4, hi5⟩ := ih _ cl.2.1 cl.2.2.1
        have hb2next :
            (if cl.2.2.2.isEmpty = true
             then { cl.1 with asks := alistRemove cl.1.asks k }
             else { cl.1 with asks := alistInsert cl.1.asks k cl.2.2.2 }).next_trade_id =
            cl.1.next_trade_id := by
          split_ifs <;> rfl
        rw [hb2next] at hi2 hi3
        refine ⟨δ1 ++ δ2, ?_, ?_, ?_, ?_, ?_⟩
        · rw [hi1, hcl1, List.append_assoc]
        · rw [List.map_append, hcl2, hi2, hcl3, List.length_append]
          rw [Nat.add_comm δ1.length δ2.length]
          exact List.range'_append_1 b.next_trade_id δ1.length δ2.length
        · rw [hi3, hcl3, List.length_append]
          omega
        · rw [sumQty_append]
          have : sumQty δ2 + (sweepAsks sym tid stop _ cl.2.1 cl.2.2.1 rest).2.1 =
              cl.2.1 := hi4
          linarith [hcl4, this]
        · intro t ht
          rcases List.mem_append.mp ht with ht1 | ht2
          · obtain ⟨hp, hsym, hmk⟩ := hcl5 t ht1
            refine ⟨(k, lvl), List.mem_cons_self _ _, hp, hsym, ?_⟩
            simpa using hmk
          · obtain ⟨p, hpmem, hrest⟩ := hi5 t ht2
            exact ⟨p, List.mem_cons_of_mem _ hpmem, hrest⟩

theorem sweepAsks_count (sym : String) (tid : Nat) (stop : Nat → Bool)
    (b : OrderBook) (r : ℚ) (ts : List Trade) (ls : List (Nat × PriceLevel))
    (hls : ∀ p ∈ ls, p ∈ b.asks) (hlsnd : (keysOf ls).Nodup)
    (hand : (keysOf b.asks).Nodup) :
    (keysOf (sweepAsks sym tid stop b r ts ls).1.asks).Nodup ∧
    (∀ id, countSide id (sweepAsks sym tid stop b r ts ls).1.asks ≤
      countSide id b.asks) ∧
    (∀ id, (alistGet? (sweepAsks sym tid stop b r ts ls).1.orders id).isSome →
      alistGet? (sweepAsks sym tid stop b r ts ls).1.orders id =
        alistGet? b.orders id ∧
      countSide id (sweepAsks sym tid stop b r ts ls).1.asks = countSide id b.asks) := by
  induction ls generalizing b r ts with
  | nil =>
    exact ⟨hand, fun id => le_refl _, fun id h => ⟨rfl, rfl⟩⟩
  | cons p rest ih =>
    obtain ⟨k, lvl⟩ := p
    by_cases hstop : stop k = true
    · rw [sweepAsks_cons_stop sym tid stop b r ts k lvl rest hstop]
      exact ⟨hand, fun id => le_refl _, fun id h => ⟨rfl, rfl⟩⟩
    · by_cases hr : r ≤ 0
      · rw [sweepAsks_nonpos sym tid stop b r ts _ hr]
        exact ⟨hand, fun id => le_refl _, fun id h => ⟨rfl, rfl⟩⟩
      · rw [sweepAsks_cons_go sym tid stop b r ts k lvl rest hstop hr]
        have hframe := consumeLevel_frame true sym tid (key_to_price k) b r ts lvl []
        have hGI := sweepAsks_step_GI sym tid b r ts k lvl rest hls hlsnd
        obtain ⟨hknotin, hrestnd⟩ := keysOf_cons_facts k lvl rest hlsnd
        have hmem : (k, lvl) ∈ b.asks := hls _ (List.mem_cons_self _ _)
        set cl := consumeLevel true sym tid (key_to_price k) b r ts lvl [] with hcldef
        have hb2orders :
            (if cl.2.2.2.isEmpty = true
             then { cl.1 with asks := alistRemove cl.1.asks k }
             else { cl.1 with asks := alistInsert cl.1.asks k cl.2.2.2 }).orders =
            cl.1.orders := by
          split_ifs <;> rfl
        have hb2nodup :
            (keysOf (if cl.2.2.2.isEmpty = true
             then { cl.1 with asks := alistRemove cl.1.asks k }
             else { cl.1 with asks := alistInsert cl.1.asks k cl.2.2.2 }).asks).Nodup := by
          split_ifs
          · simp only
            rw [hframe.2.1]
            exact nodup_keysOf_alistRemove _ _ hand
          · simp only
            rw [hframe.2.1]
            exact nodup_keysOf_alistInsert _ _ _ hand
        have hcountle : ∀ id,
            countSide id (if cl.2.2.2.isEmpty = true
             then { cl.1 with asks := alistRemove cl.1.asks k }
             else { cl.1 with asks := alistInsert cl.1.asks k cl.2.2.2 }).asks ≤
            countSide id b.asks := by
          intro id
          have hle := consumeLevel_count_le true sym tid (key_to_price k) b r ts lvl [] id
          rw [← hcldef] at hle
          rw [countL_nil] at hle
          split_ifs
          · simp only
            rw [hframe.2.1]
            have hrem := countSide_alistRemove id k lvl b.asks hand hmem
            omega
          · simp only
            rw [hframe.2.1]
            have hins := countSide_alistInsert id k lvl cl.2.2.2 b.asks hand hmem
            omega
        have hsurv2 : ∀ id,
            (alistGet? cl.1.orders id).isSome →
            alistGet? cl.1.orders id = alistGet? b.orders id ∧
            countSide id (if cl.2.2.2.isEmpty = true
             then { cl.1 with asks := alistRemove cl.1.asks k }
             else { cl.1 with asks := alistInsert cl.1.asks k cl.2.2.2 }).asks =
            countSide id b.asks := by
          intro id hsome
          obtain ⟨hlk, hcnt⟩ :=
            consumeLevel_surviving true sym tid (key_to_price k) b r ts lvl [] id hsome
          rw [← hcldef] at hcnt
          rw [countL_nil] at hcnt
          refine ⟨hlk, ?_⟩
          split_ifs with hemp
          · have hnil : cl.2.2.2 = [] := List.isEmpty_iff_eq_nil.mp hemp
            rw [hnil] at hcnt
            rw [countL_nil] at hcnt
            simp only
            rw [hframe.2.1]
            have hrem := countSide_alistRemove id k lvl b.asks hand hmem
            omega
          · simp only
            rw [hframe.2.1]
            have hins := countSide_alistInsert id k lvl cl.2.2.2 b.asks hand hmem
            omega
        obtain ⟨ihnd, ihle, ihsurv⟩ := ih _ cl.2.1 cl.2.2.1 hGI hrestnd hb2nodup
        refine ⟨ihnd, ?_, ?_⟩
        · intro id
          exact le_trans (ihle id) (hcountle id)
        · intro id hsome
          obtain ⟨hlk2, hcnt2⟩ := ihsurv id hsome
          have hsome2 : (alistGet? cl.1.orders id).isSome := by
            rw [← hb2orders]
            rw [hlk2] at hsome
            exact hsome
          obtain ⟨hlk1, hcnt1⟩ := hsurv2 id hsome2
          rw [hb2orders] at hlk2
          exact ⟨hlk2.trans hlk1, hcnt2.trans hcnt1⟩

theorem sweepAsks_stop_residual (sym : String) (tid : Nat) (stop : Nat → Bool)
    (b : OrderBook) (r : ℚ) (ts : List Trade) (ls : List (Nat × PriceLevel))
    (hls : ∀ p ∈ ls, p ∈ b.asks) (hlsnd : (keysOf ls).Nodup)
    (hsorted : ls.Pairwise (fun p q => p.1 ≤ q.1))
    (hmono : ∀ k1 k2, stop k1 = true → k1 ≤ k2 → stop k2 = true)
    (hpre : ∀ k' ∈ keysOf b.asks, k' ∈ keysOf ls ∨ stop k' = true)
    (hres : 0 < (sweepAsks sym tid stop b r ts ls).2.1) :
    ∀ k' ∈ keysOf (sweepAsks sym tid stop b r ts ls).1.asks, stop k' = true := by
  induction ls generalizing b r ts with
  | nil =>
    intro k' hk'
    rcases hpre k' hk' with hin | hst
    · simp [keysOf] at hin
    · exact hst
  | cons p rest ih =>
    obtain ⟨k, lvl⟩ := p
    rcases List.pairwise_cons.mp hsorted with ⟨hhead, htail⟩
    by_cases hstop : stop k = true
    · rw [sweepAsks_cons_stop sym tid stop b r ts k lvl rest hstop]
      intro k' hk'
      rcases hpre k' hk' with hin | hst
      · simp only [keysOf, List.map_cons, List.mem_cons] at hin
        rcases hin with rfl | hin'
        · exact hstop
        · obtain ⟨q, hq, hqk⟩ := List.mem_map.mp hin'
          exact hmono k k' hstop (hqk ▸ hhead q hq)
      · exact hst
    · by_cases hr : r ≤ 0
      · rw [sweepAsks_nonpos sym tid stop b r ts _ hr] at hres
        exact absurd hres (by simp; linarith)
      · rw [sweepAsks_cons_go sym tid stop b r ts k lvl rest hstop hr] at hres ⊢
        have hframe := consumeLevel_frame true sym tid (key_to_price k) b r ts lvl []
        have hGI := sweepAsks_step_GI sym tid b r ts k lvl rest hls hlsnd
        obtain ⟨hknotin, hrestnd⟩ := keysOf_cons_facts k lvl rest hlsnd
        set cl := consumeLevel true sym tid (key_to_price k) b r ts lvl [] with hcldef
        by_cases hemp : cl.2.2.2.isEmpty = true
        · rw [if_pos hemp] at hres ⊢
          have hGI' := hGI
          rw [if_pos hemp] at hGI'
          refine ih _ cl.2.1 cl.2.2.1 hGI' hrestnd htail ?_ hres
          intro k' hk'
          simp only at hk'
          rw [hframe.2.1] at hk'
          obtain ⟨hmem, hne⟩ := mem_keysOf_alistRemove _ _ _ hk'
          rcases hpre k' hmem with hin | hst
          · simp only [keysOf, List.map_cons, List.mem_cons] at hin
            rcases hin with heq | hin'
            · exact absurd heq hne
            · exact Or.inl hin'
          · exact Or.inr hst
        · exfalso
          have hnl : cl.2.2.2 ≠ [] := by
            intro hh
            rw [hh] at hemp
            simp at hemp
          have hclr : cl.2.1 ≤ 0 := by
            by_contra hpos
            push_neg at hpos
            exact hnl (consumeLevel_res_pos_newLevel true sym tid
              (key_to_price k) b r ts lvl [] hpos)
          rw [if_neg hemp] at hres
          rw [sweepAsks_nonpos _ _ _ _ _ _ _ hclr] at hres
          exact absurd hres (by linarith)

/-! ## Bid-sweep lemmas (mirror of the ask-sweep lemmas) -/

theorem sweepBids_nonpos (sym : String) (tid : Nat) (stop : Nat → Bool)
    (b : OrderBook) (r : ℚ) (ts : List Trade) (ls : List (Nat × PriceLevel))
    (hr : r ≤ 0) : sweepBids sym tid stop b r ts ls = (b, r, ts) := by
  cases ls with
  | nil => rfl
  | cons p rest =>
    obtain ⟨k, lvl⟩ := p
    by_cases hstop : stop k = true
    · simp [sweepBids, hstop]
    · simp [sweepBids, hstop, hr]

theorem sweepBids_cons_stop (sym : String) (tid : Nat) (stop : Nat → Bool)
    (b : OrderBook) (r : ℚ) (ts : List Trade) (k : Nat) (lvl : PriceLevel)
    (rest : List (Nat × PriceLevel)) (hstop : stop k = true) :
    sweepBids sym tid stop b r ts ((k, lvl) :: rest) = (b, r, ts) := by
  simp [sweepBids, hstop]

theorem sweepBids_cons_go (sym : String) (tid : Nat) (stop : Nat → Bool)
    (b : OrderBook) (r : ℚ) (ts : List Trade) (k : Nat) (lvl : PriceLevel)
    (rest : List (Nat × PriceLevel)) (hstop : ¬ stop k = true) (hr : ¬ r ≤ 0) :
    sweepBids sym tid stop b r ts ((k, lvl) :: rest) =
      sweepBids sym tid stop
        (if (consumeLevel false sym tid (key_to_price k) b r ts lvl []).2.2.2.isEmpty = true
         then { (consumeLevel false sym tid (key_to_price k) b r ts lvl []).1 with
                bids := alistRemove
                  (consumeLevel false sym tid (key_to_price k) b r ts lvl []).1.bids k }
         else { (consumeLevel false sym tid (key_to_price k) b r ts lvl []).1 with
                bids := alistInsert
                  (consumeLevel false sym tid (key_to_price k) b r ts lvl []).1.bids k
                  (consumeLevel false sym tid (key_to_price k) b r ts lvl []).2.2.2 })
        (consumeLevel false sym tid (key_to_price k) b r ts lvl []).2.1
        (consumeLevel false sym tid (key_to_price k) b r ts lvl []).2.2.1 rest := by
  simp only [sweepBids, if_neg hstop, if_neg hr]

theorem sweepBids_frame (sym : String) (tid : Nat) (stop : Nat → Bool)
    (b : OrderBook) (r : ℚ) (ts : List Trade) (ls : List (Nat × PriceLevel)) :
    (sweepBids sym tid stop b r ts ls).1.asks = b.asks ∧
    (sweepBids sym tid stop b r ts ls).1.symbol = b.symbol ∧
    (sweepBids sym tid stop b r ts ls).1.best_bid = b.best_bid ∧
    (sweepBids sym tid stop b r ts ls).1.best_ask = b.best_ask := by
  induction ls generalizing b r ts with
  | nil => exact ⟨rfl, rfl, rfl, rfl⟩
  | cons p rest ih =>
    obtain ⟨k, lvl⟩ := p
    by_cases hstop : stop k = true
    · rw [sweepBids_cons_stop sym tid stop b r ts k lvl rest hstop]
      exact ⟨rfl, rfl, rfl, rfl⟩
    · by_cases hr : r ≤ 0
      · rw [sweepBids_nonpos sym tid stop b r ts _ hr]
        exact ⟨rfl, rfl, rfl, rfl⟩
      · rw [sweepBids_cons_go sym tid stop b r ts k lvl rest hstop hr]
        obtain ⟨f1, f2, f3, f4, f5⟩ :=
          consumeLevel_frame false sym tid (key_to_price k) b r ts lvl []
        obtain ⟨g1, g2, g3, g4⟩ := ih _ _ _
        refine ⟨?_, ?_, ?_, ?_⟩ <;>
          [rw [g1]; rw [g2]; rw [g3]; rw [g4]] <;>
          split_ifs <;> simp [f2, f3, f4, f5]

theorem sweepBids_orders_shrink (sym : String) (tid : Nat) (stop : Nat → Bool)
    (b : OrderBook) (r : ℚ) (ts : List Trade) (ls : List (Nat × PriceLevel)) :
    ∀ id v, alistGet? (sweepBids sym tid stop b r ts ls).1.orders id = some v →
      alistGet? b.orders id = some v := by
  induction ls generalizing b r ts with
  | nil => exact fun id v h => h
  | cons p rest ih =>
    obtain ⟨k, lvl⟩ := p
    intro id v h
    by_cases hstop : stop k = true
    · rw [sweepBids_cons_stop sym tid stop b r ts k lvl rest hstop] at h
      exact h
    · by_cases hr : r ≤ 0
      · rw [sweepBids_nonpos sym tid stop b r ts _ hr] at h
        exact h
      · rw [sweepBids_cons_go sym tid stop b r ts k lvl rest hstop hr] at h
        have h2 := ih _ _ _ id v h
        have h3 : alistGet?
            (consumeLevel false sym tid (key_to_price k) b r ts lvl []).1.orders id =
            some v := by
          split_ifs at h2 <;> exact h2
        exact consumeLevel_orders_shrink false sym tid (key_to_price k) b r ts lvl [] id v h3

theorem sweepBids_r_nonneg (sym : String) (tid : Nat) (stop : Nat → Bool)
    (b : OrderBook) (r : ℚ) (ts : List Trade) (ls : List (Nat × PriceLevel))
    (hr : 0 ≤ r) : 0 ≤ (sweepBids sym tid stop b r ts ls).2.1 := by
  induction ls generalizing b r ts with
  | nil => exact hr
  | cons p rest ih =>
    obtain ⟨k, lvl⟩ := p
    by_cases hstop : stop k = true
    · rw [sweepBids_cons_stop sym tid stop b r ts k lvl rest hstop]
      exact hr
    · by_cases hnr : r ≤ 0
      · rw [sweepBids_nonpos sym tid stop b r ts _ hnr]
        exact hr
      · rw [sweepBids_cons_go sym tid stop b r ts k lvl rest hstop hnr]
        exact ih _ _ _ (consumeLevel_r_nonneg false sym tid (key_to_price k) b r ts lvl [] hr)

theorem sweepBids_keys_sub (sym : String) (tid : Nat) (stop : Nat → Bool)
    (b : OrderBook) (r : ℚ) (ts : List Trade) (ls : List (Nat × PriceLevel))
    (hls : ∀ p ∈ ls, p ∈ b.bids) (hlsnd : (keysOf ls).Nodup) :
    ∀ k' ∈ keysOf (sweepBids sym tid stop b r ts ls).1.bids, k' ∈ keysOf b.bids := by
  induction ls generalizing b r ts with
  | nil => exact fun k' h => h
  | cons p rest ih =>
    obtain ⟨k, lvl⟩ := p
    intro k' h
    by_cases hstop : stop k = true
    · rw [sweepBids_cons_stop sym tid stop b r ts k lvl rest hstop] at h
      exact h
    · by_cases hr : r ≤ 0
      · rw [sweepBids_nonpos sym tid stop b r ts _ hr] at h
        exact h
      · rw [sweepBids_cons_go sym tid stop b r ts k lvl rest hstop hr] at h
        have hknotin : k ∉ keysOf rest := by
          simp only [keysOf, List.map_cons, List.nodup_cons] at hlsnd
          exact hlsnd.1
        have hrestnd : (keysOf rest).Nodup := by
          simp only [keysOf, List.map_cons, List.nodup_cons] at hlsnd
          exact hlsnd.2
        have hframe := consumeLevel_frame false sym tid (key_to_price k) b r ts lvl []
        have hrest : ∀ p ∈ rest,
            p ∈ (if (consumeLevel false sym tid (key_to_price k) b r ts lvl []).2.2.2.isEmpty = true
                 then { (consumeLevel false sym tid (key_to_price k) b r ts lvl []).1 with
                        bids := alistRemove
                          (consumeLevel false sym tid (key_to_price k) b r ts lvl []).1.bids k }
                 else { (consumeLevel false sym tid (key_to_price k) b r ts lvl []).1 with
                        bids := alistInsert
                          (consumeLevel false sym tid (key_to_price k) b r ts lvl []).1.bids k
                          (consumeLevel false sym tid (key_to_price k) b r ts lvl []).2.2.2 }).bids := by
          intro p hp
          have hpb : p ∈ b.bids := hls p (List.mem_cons_of_mem _ hp)
          have hpk : p.1 ≠ k := by
            intro hpk
            exact hknotin (hpk ▸ List.mem_map.mpr ⟨p, hp, rfl⟩)
          split_ifs
          · simp only
            rw [hframe.1]
            exact mem_alistRemove_of_ne _ _ _ hpb hpk
          · simp only
            rw [hframe.1]
            exact mem_alistInsert_of_ne _ _ _ _ hpb hpk
        have h2 := ih _ _ _ hrest hrestnd k' h
        split_ifs at h2
        · simp only at h2
          rw [hframe.1] at h2
          exact (mem_keysOf_alistRemove _ _ _ h2).1
        · simp only at h2
          rw [hframe.1] at h2
          rcases mem_keysOf_alistInsert _ _ _ _ h2 with rfl | hmem
          · exact List.mem_map.mpr ⟨(k', lvl), hls (k', lvl) (List.mem_cons_self _ _), rfl⟩
          · exact hmem

theorem sweepBids_occurs (sym : String) (tid : Nat) (stop : Nat → Bool)
    (b : OrderBook) (r : ℚ) (ts : List Trade) (ls : List (Nat × PriceLevel))
    (hls : ∀ p ∈ ls, p ∈ b.bids) (hlsnd : (keysOf ls).Nodup) :
    ∀ e', occursSide (sweepBids sym tid stop b r ts ls).1.bids e' →
      ∃ e, occursSide b.bids e ∧ e'.id = e.id ∧ e'.quantity ≤ e.quantity := by
  induction ls generalizing b r ts with
  | nil => exact fun e' h => ⟨e', h, rfl, le_refl _⟩
  | cons p rest ih =>
    obtain ⟨k, lvl⟩ := p
    intro e' h
    by_cases hstop : stop k = true
    · rw [sweepBids_cons_stop sym tid stop b r ts k lvl rest hstop] at h
      exact ⟨e', h, rfl, le_refl _⟩
    · by_cases hr : r ≤ 0
      · rw [sweepBids_nonpos sym tid stop b r ts _ hr] at h
        exact ⟨e', h, rfl, le_refl _⟩
      · rw [sweepBids_cons_go sym tid stop b r ts k lvl rest hstop hr] at h
        have hknotin : k ∉ keysOf rest := by
          simp only [keysOf, List.map_cons, List.nodup_cons] at hlsnd
          exact hlsnd.1
        have hrestnd : (keysOf rest).Nodup := by
          simp only [keysOf, List.map_cons, List.nodup_cons] at hlsnd
          exact hlsnd.2
        have hframe := consumeLevel_frame false sym tid (key_to_price k) b r ts lvl []
        have hrest : ∀ p ∈ rest,
            p ∈ (if (consumeLevel false sym tid (key_to_price k) b r ts lvl []).2.2.2.isEmpty = true
                 then { (consumeLevel false sym tid (key_to_price k) b r ts lvl []).1 with
                        bids := alistRemove
                          (consumeLevel false sym tid (key_to_price k) b r ts lvl []).1.bids k }
                 else { (consumeLevel false sym tid (key_to_price k) b r ts lvl []).1 with
                        bids := alistInsert
                          (consumeLevel false sym tid (key_to_price k) b r ts lvl []).1.bids k
                          (consumeLevel false sym tid (key_to_price k) b r ts lvl []).2.2.2 }).bids := by
          intro p hp
          have hpb : p ∈ b.bids := hls p (List.mem_cons_of_mem _ hp)
          have hpk : p.1 ≠ k := by
            intro hpk
            exact hknotin (hpk ▸ List.mem_map.mpr ⟨p, hp, rfl⟩)
          split_ifs
          · simp only
            rw [hframe.1]
            exact mem_alistRemove_of_ne _ _ _ hpb hpk
          · simp only
            rw [hframe.1]
            exact mem_alistInsert_of_ne _ _ _ _ hpb hpk
        obtain ⟨e1, he1occ, he1id, he1q⟩ := ih _ _ _ hrest hrestnd e' h
        split_ifs at he1occ
        · simp only at he1occ
          rw [hframe.1] at he1occ
          exact ⟨e1, occursSide_alistRemove_elim _ _ _ he1occ, he1id, he1q⟩
        · simp only at he1occ
          rw [hframe.1] at he1occ
          rcases occursSide_alistInsert_elim _ _ _ _ he1occ with hocc | hnl
          · exact ⟨e1, hocc, he1id, he1q⟩
          · rcases consumeLevel_newLevel_entries false sym tid (key_to_price k) b r ts lvl []
              e1 hnl with hfalse | ⟨e2, he2, hid2, hq2⟩
            · simp at hfalse
            · exact ⟨e2, ⟨(k, lvl), hls (k, lvl) (List.mem_cons_self _ _), he2⟩,
                he1id.trans hid2, he1q.trans hq2⟩

theorem sweepBids_step_GI (sym : String) (tid : Nat) (b : OrderBook) (r : ℚ)
    (ts : List Trade) (k : Nat) (lvl : PriceLevel) (rest : List (Nat × PriceLevel))
    (hls : ∀ p ∈ (k, lvl) :: rest, p ∈ b.bids)
    (hlsnd : (keysOf ((k, lvl) :: rest)).Nodup) :
    ∀ p ∈ rest,
      p ∈ (if (consumeLevel false sym tid (key_to_price k) b r ts lvl []).2.2.2.isEmpty = true
           then { (consumeLevel false sym tid (key_to_price k) b r ts lvl []).1 with
                  bids := alistRemove
                    (consumeLevel false sym tid (key_to_price k) b r ts lvl []).1.bids k }
           else { (consumeLevel false sym tid (key_to_price k) b r ts lvl []).1 with
                  bids := alistInsert
                    (consumeLevel false sym tid (key_to_price k) b r ts lvl []).1.bids k
                    (consumeLevel false sym tid (key_to_price k) b r ts lvl []).2.2.2 }).bids := by
  have hframe := consumeLevel_frame false sym tid (key_to_price k) b r ts lvl []
  obtain ⟨hknotin, hrestnd⟩ := keysOf_cons_facts k lvl rest hlsnd
  intro p hp
  have hpb : p ∈ b.bids := hls p (List.mem_cons_of_mem _ hp)
  have hpk : p.1 ≠ k := by
    intro hpk
    exact hknotin (hpk ▸ List.mem_map.mpr ⟨p, hp, rfl⟩)
  split_ifs
  · simp only
    rw [hframe.1]
    exact mem_alistRemove_of_ne _ _ _ hpb hpk
  · simp only
    rw [hframe.1]
    exact mem_alistInsert_of_ne _ _ _ _ hpb hpk

theorem sweepBids_trades (sym : String) (tid : Nat) (stop : Nat → Bool)
    (b : OrderBook) (r : ℚ) (ts : List Trade) (ls : List (Nat × PriceLevel)) :
    ∃ δ, (sweepBids sym tid stop b r ts ls).2.2 = ts ++ δ ∧
      δ.map Trade.id = List.range' b.next_trade_id δ.length ∧
      (sweepBids sym tid stop b r ts ls).1.next_trade_id = b.next_trade_id + δ.length ∧
      sumQty δ + (sweepBids sym tid stop b r ts ls).2.1 = r ∧
      ∀ t ∈ δ, ∃ p ∈ ls, t.price = key_to_price p.1 ∧ t.symbol = sym ∧
        t.buy_order_id ∈ p.2.map Order.id := by
  induction ls generalizing b r ts with
  | nil =>
    refine ⟨[], by simp [sweepBids], by simp, by simp [sweepBids], ?_, by simp⟩
    simp [sweepBids, sumQty]
  | cons p rest ih =>
    obtain ⟨k, lvl⟩ := p
    by_cases hstop : stop k = true
    · rw [sweepBids_cons_stop sym tid stop b r ts k lvl rest hstop]
      refine ⟨[], by simp, by simp, by simp, by simp [sumQty], by simp⟩
    · by_cases hr : r ≤ 0
      · rw [sweepBids_nonpos sym tid stop b r ts _ hr]
        refine ⟨[], by simp, by simp, by simp, by simp [sumQty], by simp⟩
      · rw [sweepBids_cons_go sym tid stop b r ts k lvl rest hstop hr]
        obtain ⟨δ1, hcl1, hcl2, hcl3, hcl4, hcl5⟩ :=
          consumeLevel_trades false sym tid (key_to_price k) b r ts lvl []
        set cl := consumeLevel false sym tid (key_to_price k) b r ts lvl [] with hcldef
        obtain ⟨δ2, hi1, hi2, hi3, hi4, hi5⟩ := ih _ cl.2.1 cl.2.2.1
        have hb2next :
            (if cl.2.2.2.isEmpty = true
             then { cl.1 with bids := alistRemove cl.1.bids k }
             else { cl.1 with bids := alistInsert cl.1.bids k cl.2.2.2 }).next_trade_id =
            cl.1.next_trade_id := by
          split_ifs <;> rfl
        rw [hb2next] at hi2 hi3
        refine ⟨δ1 ++ δ2, ?_, ?_, ?_, ?_, ?_⟩
        · rw [hi1, hcl1, List.append_assoc]
        · rw [List.map_append, hcl2, hi2, hcl3, List.length_append]
          rw [Nat.add_comm δ1.length δ2.length]
          exact List.range'_append_1 b.next_trade_id δ1.length δ2.length
        · rw [hi3, hcl3, List.length_append]
          omega
        · rw [sumQty_append]
          have : sumQty δ2 + (sweepBids sym tid stop _ cl.2.1 cl.2.2.1 rest).2.1 =
              cl.2.1 := hi4
          linarith [hcl4, this]
        · intro t ht
          rcases List.mem_append.mp ht with ht1 | ht2
          · obtain ⟨hp, hsym, hmk⟩ := hcl5 t ht1
            refine ⟨(k, lvl), List.mem_cons_self _ _, hp, hsym, ?_⟩
            simpa using hmk
          · obtain ⟨p, hpmem, hrest⟩ := hi5 t ht2
            exact ⟨p, List.mem_cons_of_mem _ hpmem, hrest⟩

theorem sweepBids_count (sym : String) (tid : Nat) (stop : Nat → Bool)
    (b : OrderBook) (r : ℚ) (ts : List Trade) (ls : List (Nat × PriceLevel))
    (hls : ∀ p ∈ ls, p ∈ b.bids) (hlsnd : (keysOf ls).Nodup)
    (hand : (keysOf b.bids).Nodup) :
    (keysOf (sweepBids sym tid stop b r ts ls).1.bids).Nodup ∧
    (∀ id, countSide id (sweepBids sym tid stop b r ts ls).1.bids ≤
      countSide id b.bids) ∧
    (∀ id, (alistGet? (sweepBids sym tid stop b r ts ls).1.orders id).isSome →
      alistGet? (sweepBids sym tid stop b r ts ls).1.orders id =
        alistGet? b.orders id ∧
      countSide id (sweepBids sym tid stop b r ts ls).1.bids = countSide id b.bids) := by
  induction ls generalizing b r ts with
  | nil =>
    exact ⟨hand, fun id => le_refl _, fun id h => ⟨rfl, rfl⟩⟩
  | cons p rest ih =>
    obtain ⟨k, lvl⟩ := p
    by_cases hstop : stop k = true
    · rw [sweepBids_cons_stop sym tid stop b r ts k lvl rest hstop]
      exact ⟨hand, fun id => le_refl _, fun id h => ⟨rfl, rfl⟩⟩
    · by_cases hr : r ≤ 0
      · rw [sweepBids_nonpos sym tid stop b r ts _ hr]
        exact ⟨hand, fun id => le_refl _, fun id h => ⟨rfl, rfl⟩⟩
      · rw [sweepBids_cons_go sym tid stop b r ts k lvl rest hstop hr]
        have hframe := consumeLevel_frame false sym tid (key_to_price k) b r ts lvl []
        have hGI := sweepBids_step_GI sym tid b r ts k lvl rest hls hlsnd
        obtain ⟨hknotin, hrestnd⟩ := keysOf_cons_facts k lvl rest hlsnd
        have hmem : (k, lvl) ∈ b.bids := hls _ (List.mem_cons_self _ _)
        set cl := consumeLevel false sym tid (key_to_price k) b r ts lvl [] with hcldef
        have hb2orders :
            (if cl.2.2.2.isEmpty = true
             then { cl.1 with bids := alistRemove cl.1.bids k }
             else { cl.1 with bids := alistInsert cl.1.bids k cl.2.2.2 }).orders =
            cl.1.orders := by
          split_ifs <;> rfl
        have hb2nodup :
            (keysOf (if cl.2.2.2.isEmpty = true
             then { cl.1 with bids := alistRemove cl.1.bids k }
             else { cl.1 with bids := alistInsert cl.1.bids k cl.2.2.2 }).bids).Nodup := by
          split_ifs
          · simp only
            rw [hframe.1]
            exact nodup_keysOf_alistRemove _ _ hand
          · simp only
            rw [hframe.1]
            exact nodup_keysOf_alistInsert _ _ _ hand
        have hcountle : ∀ id,
            countSide id (if cl.2.2.2.isEmpty = true
             then { cl.1 with bids := alistRemove cl.1.bids k }
             else { cl.1 with bids := alistInsert cl.1.bids k cl.2.2.2 }).bids ≤
            countSide id b.bids := by
          intro id
          have hle := consumeLevel_count_le false sym tid (key_to_price k) b r ts lvl [] id
          rw [← hcldef] at hle
          rw [countL_nil] at hle
          split_ifs
          · simp only
            rw [hframe.1]
            have hrem := countSide_alistRemove id k lvl b.bids hand hmem
            omega
          · simp only
            rw [hframe.1]
            have hins := countSide_alistInsert id k lvl cl.2.2.2 b.bids hand hmem
            omega
        have hsurv2 : ∀ id,
            (alistGet? cl.1.orders id).isSome →
            alistGet? cl.1.orders id = alistGet? b.orders id ∧
            countSide id (if cl.2.2.2.isEmpty = true
             then { cl.1 with bids := alistRemove cl.1.bids k }
             else { cl.1 with bids := alistInsert cl.1.bids k cl.2.2.2 }).bids =
            countSide id b.bids := by
          intro id hsome
          obtain ⟨hlk, hcnt⟩ :=
            consumeLevel_surviving false sym tid (key_to_price k) b r ts lvl [] id hsome
          rw [← hcldef] at hcnt
          rw [countL_nil] at hcnt
          refine ⟨hlk, ?_⟩
          split_ifs with hemp
          · have hnil : cl.2.2.2 = [] := List.isEmpty_iff_eq_nil.mp hemp
            rw [hnil] at hcnt
            rw [countL_nil] at hcnt
            simp only
            rw [hframe.1]
            have hrem := countSide_alistRemove id k lvl b.bids hand hmem
            omega
          · simp only
            rw [hframe.1]
            have hins := countSide_alistInsert id k lvl cl.2.2.2 b.bids hand hmem
            omega
        obtain ⟨ihnd, ihle, ihsurv⟩ := ih _ cl.2.1 cl.2.2.1 hGI hrestnd hb2nodup
        refine ⟨ihnd, ?_, ?_⟩
        · intro id
          exact le_trans (ihle id) (hcountle id)
        · intro id hsome
          obtain ⟨hlk2, hcnt2⟩ := ihsurv id hsome
          have hsome2 : (alistGet? cl.1.orders id).isSome := by
            rw [← hb2orders]
            rw [hlk2] at hsome
            exact hsome
          obtain ⟨hlk1, hcnt1⟩ := hsurv2 id hsome2
          rw [hb2orders] at hlk2
          exact ⟨hlk2.trans hlk1, hcnt2.trans hcnt1⟩

theorem sweepBids_stop_residual (sym : String) (tid : Nat) (stop : Nat → Bool)
    (b : OrderBook) (r : ℚ) (ts : List Trade) (ls : List (Nat × PriceLevel))
    (hls : ∀ p ∈ ls, p ∈ b.bids) (hlsnd : (keysOf ls).Nodup)
    (hsorted : ls.Pairwise (fun p q => q.1 ≤ p.1))
    (hmono : ∀ k1 k2, stop k1 = true → k2 ≤ k1 → stop k2 = true)
    (hpre : ∀ k' ∈ keysOf b.bids, k' ∈ keysOf ls ∨ stop k' = true)
    (hres : 0 < (sweepBids sym tid stop b r ts ls).2.1) :
    ∀ k' ∈ keysOf (sweepBids sym tid stop b r ts ls).1.bids, stop k' = true := by
  induction ls generalizing b r ts with
  | nil =>
    intro k' hk'
    rcases hpre k' hk' with hin | hst
    · simp [keysOf] at hin
    · exact hst
  | cons p rest ih =>
    obtain ⟨k, lvl⟩ := p
    rcases List.pairwise_cons.mp hsorted with ⟨hhead, htail⟩
    by_cases hstop : stop k = true
    · rw [sweepBids_cons_stop sym tid stop b r ts k lvl rest hstop]
      intro k' hk'
      rcases hpre k' hk' with hin | hst
      · simp only [keysOf, List.map_cons, List.mem_cons] at hin
        rcases hin with rfl | hin'
        · exact hstop
        · obtain ⟨q, hq, hqk⟩ := List.mem_map.mp hin'
          exact hmono k k' hstop (hqk ▸ hhead q hq)
      · exact hst
    · by_cases hr : r ≤ 0
      · rw [sweepBids_nonpos sym tid stop b r ts _ hr] at hres
        exact absurd hres (by simp; linarith)
      · rw [sweepBids_cons_go sym tid stop b r ts k lvl rest hstop hr] at hres ⊢
        have hframe := consumeLevel_frame false sym tid (key_to_price k) b r ts lvl []
        have hGI := sweepBids_step_GI sym tid b r ts k lvl rest hls hlsnd
        obtain ⟨hknotin, hrestnd⟩ := keysOf_cons_facts k lvl rest hlsnd
        set cl := consumeLevel false sym tid (key_to_price k) b r ts lvl [] with hcldef
        by_cases hemp : cl.2.2.2.isEmpty = true
        · rw [if_pos hemp] at hres ⊢
          have hGI' := hGI
          rw [if_pos hemp] at hGI'
          refine ih _ cl.2.1 cl.2.2.1 hGI' hrestnd htail ?_ hres
          intro k' hk'
          simp only at hk'
          rw [hframe.1] at hk'
          obtain ⟨hmem, hne⟩ := mem_keysOf_alistRemove _ _ _ hk'
          rcases hpre k' hmem with hin | hst
          · simp only [keysOf, List.map_cons, List.mem_cons] at hin
            rcases hin with heq | hin'
            · exact absurd heq hne
            · exact Or.inl hin'
          · exact Or.inr hst
        · exfalso
          have hnl : cl.2.2.2 ≠ [] := by
            intro hh
            rw [hh] at hemp
            simp at hemp
          have hclr : cl.2.1 ≤ 0 := by
            by_contra hpos
            push_neg at hpos
            exact hnl (consumeLevel_res_pos_newLevel false sym tid
              (key_to_price k) b r ts lvl [] hpos)
          rw [if_neg hemp] at hres
          rw [sweepBids_nonpos _ _ _ _ _ _ _ hclr] at hres
          exact absurd hres (by linarith)


/-! ## Tick-codec order lemmas -/

theorem price_to_key_le_u64Max (p : ℚ) : price_to_key p ≤ u64Max :=
  min_le_right _ _

theorem key_to_price_mono (k1 k2 : Nat) (h : k1 ≤ k2) :
    key_to_price k1 ≤ key_to_price k2 := by
  unfold key_to_price
  have hc : (k1 : ℚ) ≤ (k2 : ℚ) := by exact_mod_cast h
  linarith

theorem price_to_key_le_of_lt (p : ℚ) (k : Nat) (h : p < key_to_price k) :
    price_to_key p ≤ k := by
  unfold price_to_key f64AsU64
  have h10 : p * 10000 < (k : ℚ) := by
    unfold key_to_price at h
    have : p * 10000 < ((k : ℚ) / 10000) * 10000 := by linarith
    calc p * 10000 < ((k : ℚ) / 10000) * 10000 := this
    _ = (k : ℚ) := by field_simp
  have hfl : ⌊p * 10000⌋ < (k : ℤ) := by
    rw [Int.floor_lt]
    exact_mod_cast h10
  have htn : Int.toNat ⌊p * 10000⌋ ≤ k := by
    rw [Int.toNat_le]
    · exact_mod_cast le_of_lt hfl
  exact le_trans (min_le_left _ _) htn

theorem le_price_to_key_of_lt (k : Nat) (p : ℚ) (h : key_to_price k < p)
    (hk : k ≤ u64Max) : k ≤ price_to_key p := by
  unfold price_to_key f64AsU64
  have h10 : (k : ℚ) ≤ p * 10000 := by
    unfold key_to_price at h
    have : ((k : ℚ) / 10000) * 10000 ≤ p * 10000 := by linarith
    calc (k : ℚ) = ((k : ℚ) / 10000) * 10000 := by field_simp
    _ ≤ p * 10000 := this
  have hfl : (k : ℤ) ≤ ⌊p * 10000⌋ := by
    rw [Int.le_floor]
    exact_mod_cast h10
  have htn : k ≤ Int.toNat ⌊p * 10000⌋ := by
    omega
  exact le_min htn hk

/-! ## Count and occurrence helpers -/

theorem countBook_eq_zero_of_fresh (b : OrderBook) (id : Nat)
    (h : ∀ e, occursInBook b e → e.id ≠ id) : countBook b id = 0 := by
  unfold countBook
  rw [countSide_eq_zero id b.bids (fun e he => h e (Or.inl he)),
      countSide_eq_zero id b.asks (fun e he => h e (Or.inr he))]

theorem not_occurs_of_countSide_zero (id : Nat) (s : List (Nat × PriceLevel))
    (h : countSide id s = 0) :
    ∀ e, occursSide s e → e.id ≠ id := by
  intro e he hid
  have := countSide_pos_of_occurs id s e he hid
  omega

theorem sorted_asks_mem (b : OrderBook) :
    ∀ p ∈ sort_by (fun a c => a.1 ≤ c.1) b.asks, p ∈ b.asks := fun p hp =>
  (perm_sort_by _ _).mem_iff.mp hp

theorem sorted_asks_keys_nodup (b : OrderBook) (h : (keysOf b.asks).Nodup) :
    (keysOf (sort_by (fun a c => a.1 ≤ c.1) b.asks)).Nodup := by
  have hperm :=
    (perm_sort_by (fun a c : Nat × PriceLevel => decide (a.1 ≤ c.1)) b.asks).map Prod.fst
  exact hperm.nodup_iff.mpr h

theorem sorted_bids_mem (b : OrderBook) :
    ∀ p ∈ sort_by (fun a c => c.1 ≤ a.1) b.bids, p ∈ b.bids := fun p hp =>
  (perm_sort_by _ _).mem_iff.mp hp

theorem sorted_bids_keys_nodup (b : OrderBook) (h : (keysOf b.bids).Nodup) :
    (keysOf (sort_by (fun a c => c.1 ≤ a.1) b.bids)).Nodup := by
  have hperm :=
    (perm_sort_by (fun a c : Nat × PriceLevel => decide (c.1 ≤ a.1)) b.bids).map Prod.fst
  exact hperm.nodup_iff.mpr h

/-! ## Matching-variant lemmas: market buy -/

theorem match_market_buy_fst (b : OrderBook) (o : Order) :
    (match_market_buy b o).1 =
      (sweepAsks o.symbol o.id (fun _ => false) b o.quantity []
        (sort_by (fun a c => a.1 ≤ c.1) b.asks)).1 := rfl

theorem match_market_buy_snd (b : OrderBook) (o : Order) :
    (match_market_buy b o).2 =
      (sweepAsks o.symbol o.id (fun _ => false) b o.quantity []
        (sort_by (fun a c => a.1 ≤ c.1) b.asks)).2.2 := rfl

theorem match_market_buy_inv (b : OrderBook) (o : Order) (hInv : BookInv b) :
    BookInv (match_market_buy b o).1 ∧
    (∀ id, (alistGet? (match_market_buy b o).1.orders id).isSome →
      (alistGet? b.orders id).isSome) ∧
    (∀ e, occursInBook (match_market_buy b o).1 e →
      ∃ e0, occursInBook b e0 ∧ e.id = e0.id) := by
  have hls := sorted_asks_mem b
  have hlsnd := sorted_asks_keys_nodup b hInv.asksNodup
  obtain ⟨hnd, hle, hsurv⟩ := sweepAsks_count o.symbol o.id (fun _ => false)
    b o.quantity [] _ hls hlsnd hInv.asksNodup
  have hframe := sweepAsks_frame o.symbol o.id (fun _ => false) b o.quantity []
    (sort_by (fun a c => a.1 ≤ c.1) b.asks)
  have hkeys := sweepAsks_keys_sub o.symbol o.id (fun _ => false) b o.quantity []
    _ hls hlsnd
  have hocc := sweepAsks_occurs o.symbol o.id (fun _ => false) b o.quantity []
    _ hls hlsnd
  have hshr := sweepAsks_orders_shrink o.symbol o.id (fun _ => false) b o.quantity []
    (sort_by (fun a c => a.1 ≤ c.1) b.asks)
  rw [match_market_buy_fst]
  refine ⟨⟨?_, ?_, ?_, ?_, ?_, ?_, ?_⟩, ?_, ?_⟩
  · rw [hframe.1]
    exact hInv.bidsNodup
  · exact hnd
  · rw [hframe.1]
    exact hInv.bidsBound
  · intro k hk
    exact hInv.asksBound k (hkeys k hk)
  · intro kb hkb ka hka
    rw [hframe.1] at hkb
    exact hInv.nocross kb hkb ka (hkeys ka hka)
  · intro id hsome
    obtain ⟨hlk, hcnt⟩ := hsurv id hsome
    have hpre : (alistGet? b.orders id).isSome := by
      rw [hlk] at hsome
      exact hsome
    have := hInv.idxCount id hpre
    unfold countBook at this ⊢
    rw [hframe.1, hcnt]
    exact this
  · intro id ro hlook e hocc2 hid
    obtain ⟨hlk, _⟩ := hsurv id (by rw [hlook]; rfl)
    rw [hlook] at hlk
    have hpre : alistGet? b.orders id = some ro := hlk.symm
    rcases hocc2 with hb | ha
    · rw [hframe.1] at hb
      exact hInv.idxQty id ro hpre e (Or.inl hb) hid
    · obtain ⟨e0, he0, heid, heq⟩ := hocc e ha
      have := hInv.idxQty id ro hpre e0 (Or.inr he0) (heid ▸ hid)
      linarith
  · intro id hsome
    obtain ⟨hlk, _⟩ := hsurv id hsome
    rw [hlk] at hsome
    exact hsome
  · intro e hocc2
    rcases hocc2 with hb | ha
    · rw [hframe.1] at hb
      exact ⟨e, Or.inl hb, rfl⟩
    · obtain ⟨e0, he0, heid, _⟩ := hocc e ha
      exact ⟨e0, Or.inr he0, heid⟩

theorem match_market_buy_spec (b : OrderBook) (o : Order) :
    (match_market_buy b o).2.map Trade.id =
      List.range' b.next_trade_id (match_market_buy b o).2.length ∧
    (match_market_buy b o).1.next_trade_id =
      b.next_trade_id + (match_market_buy b o).2.length ∧
    (∀ t ∈ (match_market_buy b o).2, ∃ p ∈ b.asks,
      t.price = key_to_price p.1 ∧ t.symbol = o.symbol ∧
      t.sell_order_id ∈ p.2.map Order.id) ∧
    sumQty (match_market_buy b o).2 +
      (sweepAsks o.symbol o.id (fun _ => false) b o.quantity []
        (sort_by (fun a c => a.1 ≤ c.1) b.asks)).2.1 = o.quantity := by
  obtain ⟨δ, h1, h2, h3, h4, h5⟩ := sweepAsks_trades o.symbol o.id (fun _ => false)
    b o.quantity [] (sort_by (fun a c => a.1 ≤ c.1) b.asks)
  rw [match_market_buy_snd, match_market_buy_fst, h1]
  simp only [List.nil_append] at h1 ⊢
  refine ⟨h2, h3, ?_, ?_⟩
  · intro t ht
    obtain ⟨p, hp, hprice, hsym, hmk⟩ := h5 t ht
    exact ⟨p, (perm_sort_by _ _).mem_iff.mp hp, hprice, hsym, hmk⟩
  · exact h4

/-! ## Matching-variant lemmas: limit buy -/

theorem match_limit_buy_def (b : OrderBook) (o : Order) :
    match_limit_buy b o =
      (if 0 < (sweepAsks o.symbol o.id (fun k => decide (o.price < key_to_price k))
          b o.quantity [] (sort_by (fun a c => a.1 ≤ c.1) b.asks)).2.1 then
        ({ (sweepAsks o.symbol o.id (fun k => decide (o.price < key_to_price k))
              b o.quantity [] (sort_by (fun a c => a.1 ≤ c.1) b.asks)).1 with
            orders := alistInsert
              (sweepAsks o.symbol o.id (fun k => decide (o.price < key_to_price k))
                b o.quantity [] (sort_by (fun a c => a.1 ≤ c.1) b.asks)).1.orders o.id
              { o with quantity := (sweepAsks o.symbol o.id
                  (fun k => decide (o.price < key_to_price k))
                  b o.quantity [] (sort_by (fun a c => a.1 ≤ c.1) b.asks)).2.1 }
            bids := alistInsert
              (sweepAsks o.symbol o.id (fun k => decide (o.price < key_to_price k))
                b o.quantity [] (sort_by (fun a c => a.1 ≤ c.1) b.asks)).1.bids
              (price_to_key o.price)
              (((alistGet? (sweepAsks o.symbol o.id
                    (fun k => decide (o.price < key_to_price k))
                    b o.quantity [] (sort_by (fun a c => a.1 ≤ c.1) b.asks)).1.bids
                  (price_to_key o.price)).getD []) ++
                [{ o with quantity := (sweepAsks o.symbol o.id
                    (fun k => decide (o.price < key_to_price k))
                    b o.quantity [] (sort_by (fun a c => a.1 ≤ c.1) b.asks)).2.1 }]) },
          (sweepAsks o.symbol o.id (fun k => decide (o.price < key_to_price k))
            b o.quantity [] (sort_by (fun a c => a.1 ≤ c.1) b.asks)).2.2)
       else
        ((sweepAsks o.symbol o.id (fun k => decide (o.price < key_to_price k))
            b o.quantity [] (sort_by (fun a c => a.1 ≤ c.1) b.asks)).1,
         (sweepAsks o.symbol o.id (fun k => decide (o.price < key_to_price k))
            b o.quantity [] (sort_by (fun a c => a.1 ≤ c.1) b.asks)).2.2)) := rfl

theorem sweepAsks_full_inv (sym : String) (tid : Nat) (stop : Nat → Bool)
    (b : OrderBook) (q : ℚ) (hInv : BookInv b) :
    BookInv (sweepAsks sym tid stop b q []
      (sort_by (fun a c => a.1 ≤ c.1) b.asks)).1 ∧
    (∀ id, (alistGet? (sweepAsks sym tid stop b q []
        (sort_by (fun a c => a.1 ≤ c.1) b.asks)).1.orders id).isSome →
      (alistGet? b.orders id).isSome) ∧
    (∀ e, occursInBook (sweepAsks sym tid stop b q []
        (sort_by (fun a c => a.1 ≤ c.1) b.asks)).1 e →
      ∃ e0, occursInBook b e0 ∧ e.id = e0.id ∧ e.quantity ≤ e0.quantity) := by
  have hls := sorted_asks_mem b
  have hlsnd := sorted_asks_keys_nodup b hInv.asksNodup
  obtain ⟨hnd, hle, hsurv⟩ := sweepAsks_count sym tid stop
    b q [] _ hls hlsnd hInv.asksNodup
  have hframe := sweepAsks_frame sym tid stop b q []
    (sort_by (fun a c => a.1 ≤ c.1) b.asks)
  have hkeys := sweepAsks_keys_sub sym tid stop b q [] _ hls hlsnd
  have hocc := sweepAsks_occurs sym tid stop b q [] _ hls hlsnd
  refine ⟨⟨?_, ?_, ?_, ?_, ?_, ?_, ?_⟩, ?_, ?_⟩
  · rw [hframe.1]
    exact hInv.bidsNodup
  · exact hnd
  · rw [hframe.1]
    exact hInv.bidsBound
  · intro k hk
    exact hInv.asksBound k (hkeys k hk)
  · intro kb hkb ka hka
    rw [hframe.1] at hkb
    exact hInv.nocross kb hkb ka (hkeys ka hka)
  · intro id hsome
    obtain ⟨hlk, hcnt⟩ := hsurv id hsome
    have hpre : (alistGet? b.orders id).isSome := by
      rw [hlk] at hsome
      exact hsome
    have hid := hInv.idxCount id hpre
    unfold countBook at hid ⊢
    rw [hframe.1, hcnt]
    exact hid
  · intro id ro hlook e hocc2 hid
    obtain ⟨hlk, _⟩ := hsurv id (by rw [hlook]; rfl)
    rw [hlook] at hlk
    have hpre : alistGet? b.orders id = some ro := hlk.symm
    rcases hocc2 with hb | ha
    · rw [hframe.1] at hb
      exact hInv.idxQty id ro hpre e (Or.inl hb) hid
    · obtain ⟨e0, he0, heid, heq⟩ := hocc e ha
      have := hInv.idxQty id ro hpre e0 (Or.inr he0) (heid ▸ hid)
      linarith
  · intro id hsome
    obtain ⟨hlk, _⟩ := hsurv id hsome
    rw [hlk] at hsome
    exact hsome
  · intro e hocc2
    rcases hocc2 with hb | ha
    · rw [hframe.1] at hb
      exact ⟨e, Or.inl hb, rfl, le_refl _⟩
    · obtain ⟨e0, he0, heid, heq⟩ := hocc e ha
      exact ⟨e0, Or.inr he0, heid, heq⟩

theorem match_limit_buy_inv (b : OrderBook) (o : Order) (hInv : BookInv b)
    (hfresh1 : alistGet? b.orders o.id = none)
    (hfresh2 : ∀ e, occursInBook b e → e.id ≠ o.id) :
    BookInv (match_limit_buy b o).1 ∧
    (∀ id, (alistGet? (match_limit_buy b o).1.orders id).isSome →
      (alistGet? b.orders id).isSome ∨ id = o.id) ∧
    (∀ e, occursInBook (match_limit_buy b o).1 e →
      (∃ e0, occursInBook b e0 ∧ e.id = e0.id) ∨ e.id = o.id) := by
  have hls := sorted_asks_mem b
  have hlsnd := sorted_asks_keys_nodup b hInv.asksNodup
  obtain ⟨hInv1, htrans1, htrans2⟩ := sweepAsks_full_inv o.symbol o.id
    (fun k => decide (o.price < key_to_price k)) b o.quantity hInv
  obtain ⟨hnd, hle, hsurv⟩ := sweepAsks_count o.symbol o.id
    (fun k => decide (o.price < key_to_price k)) b o.quantity [] _ hls hlsnd hInv.asksNodup
  have hframe := sweepAsks_frame o.symbol o.id
    (fun k => decide (o.price < key_to_price k)) b o.quantity []
    (sort_by (fun a c => a.1 ≤ c.1) b.asks)
  have hkeys := sweepAsks_keys_sub o.symbol o.id
    (fun k => decide (o.price < key_to_price k)) b o.quantity [] _ hls hlsnd
  have hshr := sweepAsks_orders_shrink o.symbol o.id
    (fun k => decide (o.price < key_to_price k)) b o.quantity []
    (sort_by (fun a c => a.1 ≤ c.1) b.asks)
  rw [match_limit_buy_def]
  set res := sweepAsks o.symbol o.id (fun k => decide (o.price < key_to_price k))
    b o.quantity [] (sort_by (fun a c => a.1 ≤ c.1) b.asks) with hresdef
  by_cases hrest : 0 < res.2.1
  · rw [if_pos hrest]
    simp only
    -- the freshly rested order
    set ro : Order := { o with quantity := res.2.1 } with hrodef
    set pk : Nat := price_to_key o.price with hpkdef
    set lvl0 : PriceLevel := (alistGet? res.1.bids pk).getD [] with hlvl0def
    have hfresh1' : alistGet? res.1.orders o.id = none := by
      cases hget : alistGet? res.1.orders o.id with
      | none => rfl
      | some v =>
        have := hshr o.id v hget
        rw [hfresh1] at this
        exact absurd this (by simp)
    have hcnt0 : countBook b o.id = 0 := countBook_eq_zero_of_fresh b o.id hfresh2
    have hcnta : countSide o.id res.1.asks = 0 := by
      have := hle o.id
      unfold countBook at hcnt0
      omega
    have hcntbd : countSide o.id res.1.bids = 0 := by
      rw [hframe.1]
      unfold countBook at hcnt0
      omega
    have hstopres : ∀ ka ∈ keysOf res.1.asks, pk ≤ ka := by
      intro ka hka
      have hsr := sweepAsks_stop_residual o.symbol o.id
        (fun k => decide (o.price < key_to_price k)) b o.quantity []
        (sort_by (fun a c => a.1 ≤ c.1) b.asks) hls hlsnd
        (sort_by_asc_pairwise b.asks)
        (fun k1 k2 hk1 hk12 => by
          simp only [decide_eq_true_eq] at hk1 ⊢
          exact lt_of_lt_of_le hk1 (key_to_price_mono k1 k2 hk12))
        (fun k' hk' => Or.inl (by
          have hperm := (perm_sort_by
            (fun a c : Nat × PriceLevel => decide (a.1 ≤ c.1)) b.asks).map Prod.fst
          exact (hperm.mem_iff).mpr hk'))
        hrest ka hka
      simp only [decide_eq_true_eq] at hsr
      exact price_to_key_le_of_lt o.price ka hsr
    -- counting through the bid-side insert
    have hcntb2 : ∀ id, countSide id (alistInsert res.1.bids pk (lvl0 ++ [ro])) =
        countSide id res.1.bids + countL id [ro] := by
      intro id
      cases hget : alistGet? res.1.bids pk with
      | some l =>
        have hmem := alistGet?_eq_some_mem res.1.bids pk l hget
        have hndb : (keysOf res.1.bids).Nodup := by
          rw [hframe.1]
          exact hInv.bidsNodup
        have hins := countSide_alistInsert id pk l (lvl0 ++ [ro]) res.1.bids hndb hmem
        have hl0 : lvl0 = l := by rw [hlvl0def, hget]; rfl
        rw [countL_append] at hins
        have hcl : countL id lvl0 = countL id l := by rw [hl0]
        omega
      | none =>
        have hnotin : pk ∉ keysOf res.1.bids := by
          intro hmem
          have := (alistGet?_isSome_iff res.1.bids pk).mpr hmem
          rw [hget] at this
          simp at this
        have hins := countSide_alistInsert_notmem id pk (lvl0 ++ [ro]) res.1.bids hnotin
        have hl0 : lvl0 = [] := by rw [hlvl0def, hget]; rfl
        rw [countL_append] at hins
        have hcl : countL id lvl0 = 0 := by rw [hl0]; rfl
        omega
    have hronia : countL o.id [ro] = 1 := by
      rw [hrodef]
      simp [countL_cons, countL_nil]
    -- occurrences through the bid-side insert
    have hoccb2 : ∀ e, occursSide (alistInsert res.1.bids pk (lvl0 ++ [ro])) e →
        occursSide res.1.bids e ∨ e = ro := by
      intro e he
      rcases occursSide_alistInsert_elim _ _ _ _ he with hold | hnew
      · exact Or.inl hold
      · rcases List.mem_append.mp hnew with hl0 | hro
        · cases hget : alistGet? res.1.bids pk with
          | some l =>
            have hmem := alistGet?_eq_some_mem res.1.bids pk l hget
            have hl0eq : lvl0 = l := by rw [hlvl0def, hget]; rfl
            rw [hl0eq] at hl0
            exact Or.inl ⟨(pk, l), hmem, hl0⟩
          | none =>
            have hl0eq : lvl0 = [] := by rw [hlvl0def, hget]; rfl
            rw [hl0eq] at hl0
            simp at hl0
        · exact Or.inr (List.mem_singleton.mp hro)
    refine ⟨⟨?_, ?_, ?_, ?_, ?_, ?_, ?_⟩, ?_, ?_⟩
    · exact nodup_keysOf_alistInsert _ _ _ (by rw [hframe.1]; exact hInv.bidsNodup)
    · exact hnd
    · intro k hk
      rcases mem_keysOf_alistInsert _ _ _ _ hk with rfl | hk2
      · exact price_to_key_le_u64Max o.price
      · rw [hframe.1] at hk2
        exact hInv.bidsBound k hk2
    · intro k hk
      exact hInv.asksBound k (hkeys k hk)
    · intro kb hkb ka hka
      rcases mem_keysOf_alistInsert _ _ _ _ hkb with rfl | hkb2
      · exact hstopres ka hka
      · rw [hframe.1] at hkb2
        exact hInv.nocross kb hkb2 ka (hkeys ka hka)
    · intro id hsome
      by_cases hid : id = o.id
      · subst hid
        unfold countBook
        simp only
        rw [hcntb2 o.id, hronia, hcntbd, hcnta]
      · have hlk : alistGet? (alistInsert res.1.orders o.id ro) id =
            alistGet? res.1.orders id := alistGet?_insert_ne _ _ _ _ hid
        simp only at hsome
        rw [hlk] at hsome
        obtain ⟨hlk2, hcnt2⟩ := hsurv id hsome
        have hpre : (alistGet? b.orders id).isSome := by
          rw [hlk2] at hsome
          exact hsome
        have hcount := hInv.idxCount id hpre
        unfold countBook at hcount ⊢
        simp only
        rw [hcntb2 id, hcnt2, hframe.1]
        have hro0 : countL id [ro] = 0 := by
          rw [hrodef]
          simp [countL_cons, countL_nil]
          intro hh
          exact absurd hh.symm hid
        omega
    · intro id ro2 hlook e hocc2 hid
      by_cases hido : id = o.id
      · subst hido
        simp only at hlook
        rw [alistGet?_insert_self] at hlook
        have hro2 : ro2 = ro := by
          injection hlook.symm
        rcases hocc2 with hb | ha
        · simp only at hb
          rcases hoccb2 e hb with hold | hrov
          · exfalso
            exact not_occurs_of_countSide_zero o.id res.1.bids hcntbd e hold hid
          · rw [hro2, hrov]
        · exfalso
          exact not_occurs_of_countSide_zero o.id res.1.asks hcnta e ha hid
      · simp only at hlook
        rw [alistGet?_insert_ne _ _ _ _ hido] at hlook
        have hsome : (alistGet? res.1.orders id).isSome := by rw [hlook]; rfl
        obtain ⟨hlk2, _⟩ := hsurv id hsome
        rw [hlook] at hlk2
        have hpre : alistGet? b.orders id = some ro2 := hlk2.symm
        rcases hocc2 with hb | ha
        · simp only at hb
          rcases hoccb2 e hb with hold | hrov
          · rw [hframe.1] at hold
            exact hInv.idxQty id ro2 hpre e (Or.inl hold) hid
          · exfalso
            rw [hrov] at hid
            exact hido ((show o.id = id from hid).symm)
        · obtain ⟨e0, he0, heid, heq⟩ := sweepAsks_occurs o.symbol o.id
            (fun k => decide (o.price < key_to_price k)) b o.quantity [] _
            hls hlsnd e ha
          have := hInv.idxQty id ro2 hpre e0 (Or.inr he0) (heid ▸ hid)
          linarith
    · intro id hsome
      by_cases hid : id = o.id
      · exact Or.inr hid
      · rw [show (alistGet? (alistInsert res.1.orders o.id ro) id).isSome =
            (alistGet? res.1.orders id).isSome from by
              rw [alistGet?_insert_ne _ _ _ _ hid]] at hsome
        exact Or.inl (htrans1 id hsome)
    · intro e hocc2
      rcases hocc2 with hb | ha
      · simp only at hb
        rcases hoccb2 e hb with hold | hrov
        · have : occursInBook res.1 e := Or.inl hold
          obtain ⟨e0, he0, heid, _⟩ := htrans2 e this
          exact Or.inl ⟨e0, he0, heid⟩
        · refine Or.inr ?_
          rw [hrov, hrodef]
      · have : occursInBook res.1 e := Or.inr ha
        obtain ⟨e0, he0, heid, _⟩ := htrans2 e this
        exact Or.inl ⟨e0, he0, heid⟩
  · rw [if_neg hrest]
    refine ⟨hInv1, ?_, ?_⟩
    · intro id hsome
      exact Or.inl (htrans1 id hsome)
    · intro e he
      obtain ⟨e0, he0, heid, _⟩ := htrans2 e he
      exact Or.inl ⟨e0, he0, heid⟩

theorem restQty_eq_of_get (b : OrderBook) (id : Nat) (ro : Order)
    (h : alistGet? b.orders id = some ro) : restQty b id = ro.quantity := by
  unfold restQty
  rw [h]

theorem restQty_eq_zero_of_none (b : OrderBook) (id : Nat)
    (h : alistGet? b.orders id = none) : restQty b id = 0 := by
  unfold restQty
  rw [h]

theorem match_limit_buy_spec (b : OrderBook) (o : Order) :
    (match_limit_buy b o).2.map Trade.id =
      List.range' b.next_trade_id (match_limit_buy b o).2.length ∧
    (match_limit_buy b o).1.next_trade_id =
      b.next_trade_id + (match_limit_buy b o).2.length ∧
    (∀ t ∈ (match_limit_buy b o).2, ∃ p ∈ b.asks,
      t.price = key_to_price p.1 ∧ t.symbol = o.symbol ∧
      t.sell_order_id ∈ p.2.map Order.id) := by
  obtain ⟨δ, h1, h2, h3, h4, h5⟩ := sweepAsks_trades o.symbol o.id
    (fun k => decide (o.price < key_to_price k)) b o.quantity []
    (sort_by (fun a c => a.1 ≤ c.1) b.asks)
  rw [match_limit_buy_def]
  set res := sweepAsks o.symbol o.id (fun k => decide (o.price < key_to_price k))
    b o.quantity [] (sort_by (fun a c => a.1 ≤ c.1) b.asks) with hresdef
  simp only [List.nil_append] at h1
  have hmk : ∀ t ∈ δ, ∃ p ∈ b.asks,
      t.price = key_to_price p.1 ∧ t.symbol = o.symbol ∧
      t.sell_order_id ∈ p.2.map Order.id := by
    intro t ht
    obtain ⟨p, hp, hprice, hsym, hmk⟩ := h5 t ht
    exact ⟨p, (perm_sort_by _ _).mem_iff.mp hp, hprice, hsym, hmk⟩
  by_cases hrest : 0 < res.2.1
  · rw [if_pos hrest]
    simp only
    rw [h1]
    exact ⟨h2, h3, hmk⟩
  · rw [if_neg hrest]
    simp only
    rw [h1]
    exact ⟨h2, h3, hmk⟩

theorem match_limit_buy_conservation (b : OrderBook) (o : Order)
    (hq : 0 ≤ o.quantity) (hfresh : alistGet? b.orders o.id = none) :
    sumQty (match_limit_buy b o).2 + restQty (match_limit_buy b o).1 o.id =
      o.quantity := by
  obtain ⟨δ, h1, h2, h3, h4, h5⟩ := sweepAsks_trades o.symbol o.id
    (fun k => decide (o.price < key_to_price k)) b o.quantity []
    (sort_by (fun a c => a.1 ≤ c.1) b.asks)
  have hshr := sweepAsks_orders_shrink o.symbol o.id
    (fun k => decide (o.price < key_to_price k)) b o.quantity []
    (sort_by (fun a c => a.1 ≤ c.1) b.asks)
  have hnn := sweepAsks_r_nonneg o.symbol o.id
    (fun k => decide (o.price < key_to_price k)) b o.quantity []
    (sort_by (fun a c => a.1 ≤ c.1) b.asks) hq
  rw [match_limit_buy_def]
  set res := sweepAsks o.symbol o.id (fun k => decide (o.price < key_to_price k))
    b o.quantity [] (sort_by (fun a c => a.1 ≤ c.1) b.asks) with hresdef
  simp only [List.nil_append] at h1
  by_cases hrest : 0 < res.2.1
  · rw [if_pos hrest]
    simp only
    rw [restQty_eq_of_get _ o.id { o with quantity := res.2.1 }
      (alistGet?_insert_self _ _ _)]
    rw [h1]
    exact h4
  · rw [if_neg hrest]
    simp only
    have hnone : alistGet? res.1.orders o.id = none := by
      cases hget : alistGet? res.1.orders o.id with
      | none => rfl
      | some v =>
        have := hshr o.id v hget
        rw [hfresh] at this
        exact absurd this (by simp)
    rw [restQty_eq_zero_of_none _ o.id hnone]
    have hz : res.2.1 = 0 := le_antisymm (not_lt.mp hrest) hnn
    rw [h1]
    rw [hz] at h4
    linarith

theorem match_limit_buy_nonpos (b : OrderBook) (o : Order) (hq : o.quantity ≤ 0) :
    match_limit_buy b o = (b, []) := by
  rw [match_limit_buy_def, sweepAsks_nonpos _ _ _ _ _ _ _ hq]
  rw [if_neg (by simpa using not_lt.mpr hq)]

theorem match_market_buy_nonpos (b : OrderBook) (o : Order) (hq : o.quantity ≤ 0) :
    match_market_buy b o = (b, []) := by
  simp only [match_market_buy]
  rw [sweepAsks_nonpos _ _ _ _ _ _ _ hq]

theorem match_market_buy_conservation (b : OrderBook) (o : Order)
    (hfresh : alistGet? b.orders o.id = none) :
    sumQty (match_market_buy b o).2 +
      (sweepAsks o.symbol o.id (fun _ => false) b o.quantity []
        (sort_by (fun a c => a.1 ≤ c.1) b.asks)).2.1 = o.quantity ∧
    restQty (match_market_buy b o).1 o.id = 0 := by
  refine ⟨(match_market_buy_spec b o).2.2.2, ?_⟩
  have hshr := sweepAsks_orders_shrink o.symbol o.id (fun _ => false) b o.quantity []
    (sort_by (fun a c => a.1 ≤ c.1) b.asks)
  rw [match_market_buy_fst]
  apply restQty_eq_zero_of_none
  cases hget : alistGet? (sweepAsks o.symbol o.id (fun _ => false) b o.quantity []
      (sort_by (fun a c => a.1 ≤ c.1) b.asks)).1.orders o.id with
  | none => rfl
  | some v =>
    have := hshr o.id v hget
    rw [hfresh] at this
    exact absurd this (by simp)

/-! ## Matching-variant lemmas: market sell -/

theorem match_market_sell_fst (b : OrderBook) (o : Order) :
    (match_market_sell b o).1 =
      (sweepBids o.symbol o.id (fun _ => false) b o.quantity []
        (sort_by (fun a c => c.1 ≤ a.1) b.bids)).1 := rfl

theorem match_market_sell_snd (b : OrderBook) (o : Order) :
    (match_market_sell b o).2 =
      (sweepBids o.symbol o.id (fun _ => false) b o.quantity []
        (sort_by (fun a c => c.1 ≤ a.1) b.bids)).2.2 := rfl

theorem sweepBids_full_inv (sym : String) (tid : Nat) (stop : Nat → Bool)
    (b : OrderBook) (q : ℚ) (hInv : BookInv b) :
    BookInv (sweepBids sym tid stop b q []
      (sort_by (fun a c => c.1 ≤ a.1) b.bids)).1 ∧
    (∀ id, (alistGet? (sweepBids sym tid stop b q []
        (sort_by (fun a c => c.1 ≤ a.1) b.bids)).1.orders id).isSome →
      (alistGet? b.orders id).isSome) ∧
    (∀ e, occursInBook (sweepBids sym tid stop b q []
        (sort_by (fun a c => c.1 ≤ a.1) b.bids)).1 e →
      ∃ e0, occursInBook b e0 ∧ e.id = e0.id ∧ e.quantity ≤ e0.quantity) := by
  have hls := sorted_bids_mem b
  have hlsnd := sorted_bids_keys_nodup b hInv.bidsNodup
  obtain ⟨hnd, hle, hsurv⟩ := sweepBids_count sym tid stop
    b q [] _ hls hlsnd hInv.bidsNodup
  have hframe := sweepBids_frame sym tid stop b q []
    (sort_by (fun a c => c.1 ≤ a.1) b.bids)
  have hkeys := sweepBids_keys_sub sym tid stop b q [] _ hls hlsnd
  have hocc := sweepBids_occurs sym tid stop b q [] _ hls hlsnd
  refine ⟨⟨?_, ?_, ?_, ?_, ?_, ?_, ?_⟩, ?_, ?_⟩
  · exact hnd
  · rw [hframe.1]
    exact hInv.asksNodup
  · intro k hk
    exact hInv.bidsBound k (hkeys k hk)
  · intro k hk
    rw [hframe.1] at hk
    exact hInv.asksBound k hk
  · intro kb hkb ka hka
    rw [hframe.1] at hka
    exact hInv.nocross kb (hkeys kb hkb) ka hka
  · intro id hsome
    obtain ⟨hlk, hcnt⟩ := hsurv id hsome
    have hpre : (alistGet? b.orders id).isSome := by
      rw [hlk] at hsome
      exact hsome
    have hid := hInv.idxCount id hpre
    unfold countBook at hid ⊢
    rw [hframe.1, hcnt]
    exact hid
  · intro id ro hlook e hocc2 hid
    obtain ⟨hlk, _⟩ := hsurv id (by rw [hlook]; rfl)
    rw [hlook] at hlk
    have hpre : alistGet? b.orders id = some ro := hlk.symm
    rcases hocc2 with hb | ha
    · obtain ⟨e0, he0, heid, heq⟩ := hocc e hb
      have := hInv.idxQty id ro hpre e0 (Or.inl he0) (heid ▸ hid)
      linarith
    · rw [hframe.1] at ha
      exact hInv.idxQty id ro hpre e (Or.inr ha) hid
  · intro id hsome
    obtain ⟨hlk, _⟩ := hsurv id hsome
    rw [hlk] at hsome
    exact hsome
  · intro e hocc2
    rcases hocc2 with hb | ha
    · obtain ⟨e0, he0, heid, heq⟩ := hocc e hb
      exact ⟨e0, Or.inl he0, heid, heq⟩
    · rw [hframe.1] at ha
      exact ⟨e, Or.inr ha, rfl, le_refl _⟩

theorem match_market_sell_inv (b : OrderBook) (o : Order) (hInv : BookInv b) :
    BookInv (match_market_sell b o).1 ∧
    (∀ id, (alistGet? (match_market_sell b o).1.orders id).isSome →
      (alistGet? b.orders id).isSome) ∧
    (∀ e, occursInBook (match_market_sell b o).1 e →
      ∃ e0, occursInBook b e0 ∧ e.id = e0.id) := by
  obtain ⟨h1, h2, h3⟩ := sweepBids_full_inv o.symbol o.id (fun _ => false)
    b o.quantity hInv
  rw [match_market_sell_fst]
  refine ⟨h1, h2, ?_⟩
  intro e he
  obtain ⟨e0, he0, heid, _⟩ := h3 e he
  exact ⟨e0, he0, heid⟩

theorem match_market_sell_spec (b : OrderBook) (o : Order) :
    (match_market_sell b o).2.map Trade.id =
      List.range' b.next_trade_id (match_market_sell b o).2.length ∧
    (match_market_sell b o).1.next_trade_id =
      b.next_trade_id + (match_market_sell b o).2.length ∧
    (∀ t ∈ (match_market_sell b o).2, ∃ p ∈ b.bids,
      t.price = key_to_price p.1 ∧ t.symbol = o.symbol ∧
      t.buy_order_id ∈ p.2.map Order.id) ∧
    sumQty (match_market_sell b o).2 +
      (sweepBids o.symbol o.id (fun _ => false) b o.quantity []
        (sort_by (fun a c => c.1 ≤ a.1) b.bids)).2.1 = o.quantity := by
  obtain ⟨δ, h1, h2, h3, h4, h5⟩ := sweepBids_trades o.symbol o.id (fun _ => false)
    b o.quantity [] (sort_by (fun a c => c.1 ≤ a.1) b.bids)
  rw [match_market_sell_snd, match_market_sell_fst, h1]
  simp only [List.nil_append] at h1 ⊢
  refine ⟨h2, h3, ?_, ?_⟩
  · intro t ht
    obtain ⟨p, hp, hprice, hsym, hmk⟩ := h5 t ht
    exact ⟨p, (perm_sort_by _ _).mem_iff.mp hp, hprice, hsym, hmk⟩
  · exact h4

theorem match_market_sell_nonpos (b : OrderBook) (o : Order) (hq : o.quantity ≤ 0) :
    match_market_sell b o = (b, []) := by
  simp only [match_market_sell]
  rw [sweepBids_nonpos _ _ _ _ _ _ _ hq]

theorem match_market_sell_conservation (b : OrderBook) (o : Order)
    (hfresh : alistGet? b.orders o.id = none) :
    sumQty (match_market_sell b o).2 +
      (sweepBids o.symbol o.id (fun _ => false) b o.quantity []
        (sort_by (fun a c => c.1 ≤ a.1) b.bids)).2.1 = o.quantity ∧
    restQty (match_market_sell b o).1 o.id = 0 := by
  refine ⟨(match_market_sell_spec b o).2.2.2, ?_⟩
  have hshr := sweepBids_orders_shrink o.symbol o.id (fun _ => false) b o.quantity []
    (sort_by (fun a c => c.1 ≤ a.1) b.bids)
  rw [match_market_sell_fst]
  apply restQty_eq_zero_of_none
  cases hget : alistGet? (sweepBids o.symbol o.id (fun _ => false) b o.quantity []
      (sort_by (fun a c => c.1 ≤ a.1) b.bids)).1.orders o.id with
  | none => rfl
  | some v =>
    have := hshr o.id v hget
    rw [hfresh] at this
    exact absurd this (by simp)

/-! ## Matching-variant lemmas: limit sell -/

theorem match_limit_sell_def (b : OrderBook) (o : Order) :
    match_limit_sell b o =
      (if 0 < (sweepBids o.symbol o.id (fun k => decide (key_to_price k < o.price))
          b o.quantity [] (sort_by (fun a c => c.1 ≤ a.1) b.bids)).2.1 then
        ({ (sweepBids o.symbol o.id (fun k => decide (key_to_price k < o.price))
              b o.quantity [] (sort_by (fun a c => c.1 ≤ a.1) b.bids)).1 with
            orders := alistInsert
              (sweepBids o.symbol o.id (fun k => decide (key_to_price k < o.price))
                b o.quantity [] (sort_by (fun a c => c.1 ≤ a.1) b.bids)).1.orders o.id
              { o with quantity := (sweepBids o.symbol o.id
                  (fun k => decide (key_to_price k < o.price))
                  b o.quantity [] (sort_by (fun a c => c.1 ≤ a.1) b.bids)).2.1 }
            asks := alistInsert
              (sweepBids o.symbol o.id (fun k => decide (key_to_price k < o.price))
                b o.quantity [] (sort_by (fun a c => c.1 ≤ a.1) b.bids)).1.asks
              (price_to_key o.price)
              (((alistGet? (sweepBids o.symbol o.id
                    (fun k => decide (key_to_price k < o.price))
                    b o.quantity [] (sort_by (fun a c => c.1 ≤ a.1) b.bids)).1.asks
                  (price_to_key o.price)).getD []) ++
                [{ o with quantity := (sweepBids o.symbol o.id
                    (fun k => decide (key_to_price k < o.price))
                    b o.quantity [] (sort_by (fun a c => c.1 ≤ a.1) b.bids)).2.1 }]) },
          (sweepBids o.symbol o.id (fun k => decide (key_to_price k < o.price))
            b o.quantity [] (sort_by (fun a c => c.1 ≤ a.1) b.bids)).2.2)
       else
        ((sweepBids o.symbol o.id (fun k => decide (key_to_price k < o.price))
            b o.quantity [] (sort_by (fun a c => c.1 ≤ a.1) b.bids)).1,
         (sweepBids o.symbol o.id (fun k => decide (key_to_price k < o.price))
            b o.quantity [] (sort_by (fun a c => c.1 ≤ a.1) b.bids)).2.2)) := rfl

theorem match_limit_sell_inv (b : OrderBook) (o : Order) (hInv : BookInv b)
    (hfresh1 : alistGet? b.orders o.id = none)
    (hfresh2 : ∀ e, occursInBook b e → e.id ≠ o.id) :
    BookInv (match_limit_sell b o).1 ∧
    (∀ id, (alistGet? (match_limit_sell b o).1.orders id).isSome →
      (alistGet? b.orders id).isSome ∨ id = o.id) ∧
    (∀ e, occursInBook (match_limit_sell b o).1 e →
      (∃ e0, occursInBook b e0 ∧ e.id = e0.id) ∨ e.id = o.id) := by
  have hls := sorted_bids_mem b
  have hlsnd := sorted_bids_keys_nodup b hInv.bidsNodup
  obtain ⟨hInv1, htrans1, htrans2⟩ := sweepBids_full_inv o.symbol o.id
    (fun k => decide (key_to_price k < o.price)) b o.quantity hInv
  obtain ⟨hnd, hle, hsurv⟩ := sweepBids_count o.symbol o.id
    (fun k => decide (key_to_price k < o.price)) b o.quantity [] _ hls hlsnd hInv.bidsNodup
  have hframe := sweepBids_frame o.symbol o.id
    (fun k => decide (key_to_price k < o.price)) b o.quantity []
    (sort_by (fun a c => c.1 ≤ a.1) b.bids)
  have hkeys := sweepBids_keys_sub o.symbol o.id
    (fun k => decide (key_to_price k < o.price)) b o.quantity [] _ hls hlsnd
  have hshr := sweepBids_orders_shrink o.symbol o.id
    (fun k => decide (key_to_price k < o.price)) b o.quantity []
    (sort_by (fun a c => c.1 ≤ a.1) b.bids)
  rw [match_limit_sell_def]
  set res := sweepBids o.symbol o.id (fun k => decide (key_to_price k < o.price))
    b o.quantity [] (sort_by (fun a c => c.1 ≤ a.1) b.bids) with hresdef
  by_cases hrest : 0 < res.2.1
  · rw [if_pos hrest]
    simp only
    set ro : Order := { o with quantity := res.2.1 } with hrodef
    set pk : Nat := price_to_key o.price with hpkdef
    set lvl0 : PriceLevel := (alistGet? res.1.asks pk).getD [] with hlvl0def
    have hfresh1' : alistGet? res.1.orders o.id = none := by
      cases hget : alistGet? res.1.orders o.id with
      | none => rfl
      | some v =>
        have := hshr o.id v hget
        rw [hfresh1] at this
        exact absurd this (by simp)
    have hcnt0 : countBook b o.id = 0 := countBook_eq_zero_of_fresh b o.id hfresh2
    have hcntbd : countSide o.id res.1.bids = 0 := by
      have := hle o.id
      unfold countBook at hcnt0
      omega
    have hcnta : countSide o.id res.1.asks = 0 := by
      rw [hframe.1]
      unfold countBook at hcnt0
      omega
    have hstopres : ∀ kb ∈ keysOf res.1.bids, kb ≤ pk := by
      intro kb hkb
      have hsr := sweepBids_stop_residual o.symbol o.id
        (fun k => decide (key_to_price k < o.price)) b o.quantity []
        (sort_by (fun a c => c.1 ≤ a.1) b.bids) hls hlsnd
        (sort_by_desc_pairwise b.bids)
        (fun k1 k2 hk1 hk12 => by
          simp only [decide_eq_true_eq] at hk1 ⊢
          exact lt_of_le_of_lt (key_to_price_mono k2 k1 hk12) hk1)
        (fun k' hk' => Or.inl (by
          have hperm := (perm_sort_by
            (fun a c : Nat × PriceLevel => decide (c.1 ≤ a.1)) b.bids).map Prod.fst
          exact (hperm.mem_iff).mpr hk'))
        hrest kb hkb
      simp only [decide_eq_true_eq] at hsr
      exact le_price_to_key_of_lt kb o.price hsr
        (hInv.bidsBound kb (hkeys kb hkb))
    have hcnta2 : ∀ id, countSide id (alistInsert res.1.asks pk (lvl0 ++ [ro])) =
        countSide id res.1.asks + countL id [ro] := by
      intro id
      cases hget : alistGet? res.1.asks pk with
      | some l =>
        have hmem := alistGet?_eq_some_mem res.1.asks pk l hget
        have hnda : (keysOf res.1.asks).Nodup := by
          rw [hframe.1]
          exact hInv.asksNodup
        have hins := countSide_alistInsert id pk l (lvl0 ++ [ro]) res.1.asks hnda hmem
        have hl0 : lvl0 = l := by rw [hlvl0def, hget]; rfl
        rw [countL_append] at hins
        have hcl : countL id lvl0 = countL id l := by rw [hl0]
        omega
      | none =>
        have hnotin : pk ∉ keysOf res.1.asks := by
          intro hmem
          have := (alistGet?_isSome_iff res.1.asks pk).mpr hmem
          rw [hget] at this
          simp at this
        have hins := countSide_alistInsert_notmem id pk (lvl0 ++ [ro]) res.1.asks hnotin
        have hl0 : lvl0 = [] := by rw [hlvl0def, hget]; rfl
        rw [countL_append] at hins
        have hcl : countL id lvl0 = 0 := by rw [hl0]; rfl
        omega
    have hronia : countL o.id [ro] = 1 := by
      rw [hrodef]
      simp [countL_cons, countL_nil]
    have hocca2 : ∀ e, occursSide (alistInsert res.1.asks pk (lvl0 ++ [ro])) e →
        occursSide res.1.asks e ∨ e = ro := by
      intro e he
      rcases occursSide_alistInsert_elim _ _ _ _ he with hold | hnew
      · exact Or.inl hold
      · rcases List.mem_append.mp hnew with hl0 | hro
        · cases hget : alistGet? res.1.asks pk with
          | some l =>
            have hmem := alistGet?_eq_some_mem res.1.asks pk l hget
            have hl0eq : lvl0 = l := by rw [hlvl0def, hget]; rfl
            rw [hl0eq] at hl0
            exact Or.inl ⟨(pk, l), hmem, hl0⟩
          | none =>
            have hl0eq : lvl0 = [] := by rw [hlvl0def, hget]; rfl
            rw [hl0eq] at hl0
            simp at hl0
        · exact Or.inr (List.mem_singleton.mp hro)
    refine ⟨⟨?_, ?_, ?_, ?_, ?_, ?_, ?_⟩, ?_, ?_⟩
    · exact hnd
    · exact nodup_keysOf_alistInsert _ _ _ (by rw [hframe.1]; exact hInv.asksNodup)
    · intro k hk
      exact hInv.bidsBound k (hkeys k hk)
    · intro k hk
      rcases mem_keysOf_alistInsert _ _ _ _ hk with rfl | hk2
      · exact price_to_key_le_u64Max o.price
      · rw [hframe.1] at hk2
        exact hInv.asksBound k hk2
    · intro kb hkb ka hka
      rcases mem_keysOf_alistInsert _ _ _ _ hka with rfl | hka2
      · exact hstopres kb hkb
      · rw [hframe.1] at hka2
        exact hInv.nocross kb (hkeys kb hkb) ka hka2
    · intro id hsome
      by_cases hid : id = o.id
      · subst hid
        unfold countBook
        simp only
        rw [hcnta2 o.id, hronia, hcntbd, hcnta]
      · have hlk : alistGet? (alistInsert res.1.orders o.id ro) id =
            alistGet? res.1.orders id := alistGet?_insert_ne _ _ _ _ hid
        simp only at hsome
        rw [hlk] at hsome
        obtain ⟨hlk2, hcnt2⟩ := hsurv id hsome
        have hpre : (alistGet? b.orders id).isSome := by
          rw [hlk2] at hsome
          exact hsome
        have hcount := hInv.idxCount id hpre
        unfold countBook at hcount ⊢
        simp only
        rw [hcnta2 id, hcnt2, hframe.1]
        have hro0 : countL id [ro] = 0 := by
          rw [hrodef]
          simp [countL_cons, countL_nil]
          intro hh
          exact absurd hh.symm hid
        omega
    · intro id ro2 hlook e hocc2 hid
      by_cases hido : id = o.id
      · subst hido
        simp only at hlook
        rw [alistGet?_insert_self] at hlook
        have hro2 : ro2 = ro := by
          injection hlook.symm
        rcases hocc2 with hb | ha
        · exfalso
          exact not_occurs_of_countSide_zero o.id res.1.bids hcntbd e hb hid
        · simp only at ha
          rcases hocca2 e ha with hold | hrov
          · exfalso
            exact not_occurs_of_countSide_zero o.id res.1.asks hcnta e hold hid
          · rw [hro2, hrov]
      · simp only at hlook
        rw [alistGet?_insert_ne _ _ _ _ hido] at hlook
        have hsome : (alistGet? res.1.orders id).isSome := by rw [hlook]; rfl
        obtain ⟨hlk2, _⟩ := hsurv id hsome
        rw [hlook] at hlk2
        have hpre : alistGet? b.orders id = some ro2 := hlk2.symm
        rcases hocc2 with hb | ha
        · obtain ⟨e0, he0, heid, heq⟩ := sweepBids_occurs o.symbol o.id
            (fun k => decide (key_to_price k < o.price)) b o.quantity [] _
            hls hlsnd e hb
          have := hInv.idxQty id ro2 hpre e0 (Or.inl he0) (heid ▸ hid)
          linarith
        · simp only at ha
          rcases hocca2 e ha with hold | hrov
          · rw [hframe.1] at hold
            exact hInv.idxQty id ro2 hpre e (Or.inr hold) hid
          · exfalso
            rw [hrov] at hid
            exact hido ((show o.id = id from hid).symm)
    · intro id hsome
      by_cases hid : id = o.id
      · exact Or.inr hid
      · rw [show (alistGet? (alistInsert res.1.orders o.id ro) id).isSome =
            (alistGet? res.1.orders id).isSome from by
              rw [alistGet?_insert_ne _ _ _ _ hid]] at hsome
        exact Or.inl (htrans1 id hsome)
    · intro e hocc2
      rcases hocc2 with hb | ha
      · have hin : occursInBook res.1 e := Or.inl hb
        obtain ⟨e0, he0, heid, _⟩ := htrans2 e hin
        exact Or.inl ⟨e0, he0, heid⟩
      · simp only at ha
        rcases hocca2 e ha with hold | hrov
        · have hin : occursInBook res.1 e := Or.inr hold
          obtain ⟨e0, he0, heid, _⟩ := htrans2 e hin
          exact Or.inl ⟨e0, he0, heid⟩
        · refine Or.inr ?_
          rw [hrov, hrodef]
  · rw [if_neg hrest]
    refine ⟨hInv1, ?_, ?_⟩
    · intro id hsome
      exact Or.inl (htrans1 id hsome)
    · intro e he
      obtain ⟨e0, he0, heid, _⟩ := htrans2 e he
      exact Or.inl ⟨e0, he0, heid⟩

theorem match_limit_sell_spec (b : OrderBook) (o : Order) :
    (match_limit_sell b o).2.map Trade.id =
      List.range' b.next_trade_id (match_limit_sell b o).2.length ∧
    (match_limit_sell b o).1.next_trade_id =
      b.next_trade_id + (match_limit_sell b o).2.length ∧
    (∀ t ∈ (match_limit_sell b o).2, ∃ p ∈ b.bids,
      t.price = key_to_price p.1 ∧ t.symbol = o.symbol ∧
      t.buy_order_id ∈ p.2.map Order.id) := by
  obtain ⟨δ, h1, h2, h3, h4, h5⟩ := sweepBids_trades o.symbol o.id
    (fun k => decide (key_to_price k < o.price)) b o.quantity []
    (sort_by (fun a c => c.1 ≤ a.1) b.bids)
  rw [match_limit_sell_def]
  set res := sweepBids o.symbol o.id (fun k => decide (key_to_price k < o.price))
    b o.quantity [] (sort_by (fun a c => c.1 ≤ a.1) b.bids) with hresdef
  simp only [List.nil_append] at h1
  have hmk : ∀ t ∈ δ, ∃ p ∈ b.bids,
      t.price = key_to_price p.1 ∧ t.symbol = o.symbol ∧
      t.buy_order_id ∈ p.2.map Order.id := by
    intro t ht
    obtain ⟨p, hp, hprice, hsym, hmk⟩ := h5 t ht
    exact ⟨p, (perm_sort_by _ _).mem_iff.mp hp, hprice, hsym, hmk⟩
  by_cases hrest : 0 < res.2.1
  · rw [if_pos hrest]
    simp only
    rw [h1]
    exact ⟨h2, h3, hmk⟩
  · rw [if_neg hrest]
    simp only
    rw [h1]
    exact ⟨h2, h3, hmk⟩

theorem match_limit_sell_conservation (b : OrderBook) (o : Order)
    (hq : 0 ≤ o.quantity) (hfresh : alistGet? b.orders o.id = none) :
    sumQty (match_limit_sell b o).2 + restQty (match_limit_sell b o).1 o.id =
      o.quantity := by
  obtain ⟨δ, h1, h2, h3, h4, h5⟩ := sweepBids_trades o.symbol o.id
    (fun k => decide (key_to_price k < o.price)) b o.quantity []
    (sort_by (fun a c => c.1 ≤ a.1) b.bids)
  have hshr := sweepBids_orders_shrink o.symbol o.id
    (fun k => decide (key_to_price k < o.price)) b o.quantity []
    (sort_by (fun a c => c.1 ≤ a.1) b.bids)
  have hnn := sweepBids_r_nonneg o.symbol o.id
    (fun k => decide (key_to_price k < o.price)) b o.quantity []
    (sort_by (fun a c => c.1 ≤ a.1) b.bids) hq
  rw [match_limit_sell_def]
  set res := sweepBids o.symbol o.id (fun k => decide (key_to_price k < o.price))
    b o.quantity [] (sort_by (fun a c => c.1 ≤ a.1) b.bids) with hresdef
  simp only [List.nil_append] at h1
  by_cases hrest : 0 < res.2.1
  · rw [if_pos hrest]
    simp only
    rw [restQty_eq_of_get _ o.id { o with quantity := res.2.1 }
      (alistGet?_insert_self _ _ _)]
    rw [h1]
    exact h4
  · rw [if_neg hrest]
    simp only
    have hnone : alistGet? res.1.orders o.id = none := by
      cases hget : alistGet? res.1.orders o.id with
      | none => rfl
      | some v =>
        have := hshr o.id v hget
        rw [hfresh] at this
        exact absurd this (by simp)
    rw [restQty_eq_zero_of_none _ o.id hnone]
    have hz : res.2.1 = 0 := le_antisymm (not_lt.mp hrest) hnn
    rw [h1]
    rw [hz] at h4
    linarith

theorem match_limit_sell_nonpos (b : OrderBook) (o : Order) (hq : o.quantity ≤ 0) :
    match_limit_sell b o = (b, []) := by
  rw [match_limit_sell_def, sweepBids_nonpos _ _ _ _ _ _ _ hq]
  rw [if_neg (by simpa using not_lt.mpr hq)]

/-! ## The assembled submit step -/

theorem add_order_eq (b : OrderBook) (o : Order) :
    b.add_order o =
      if (alistGet? (matchStep b o).1.orders o.id).isSome then
        (update_best_prices (matchStep b o).1, (matchStep b o).2)
      else matchStep b o := by
  unfold add_order matchStep
  rfl

theorem update_best_prices_fields (b : OrderBook) :
    (update_best_prices b).bids = b.bids ∧ (update_best_prices b).asks = b.asks ∧
    (update_best_prices b).orders = b.orders ∧
    (update_best_prices b).next_trade_id = b.next_trade_id := by
  exact ⟨rfl, rfl, rfl, rfl⟩

theorem bookInv_update_best_prices (x : OrderBook) (h : BookInv x) :
    BookInv (update_best_prices x) :=
  ⟨h.bidsNodup, h.asksNodup, h.bidsBound, h.asksBound, h.nocross, h.idxCount, h.idxQty⟩

theorem matchStep_inv (b : OrderBook) (o : Order) (hInv : BookInv b)
    (hfresh1 : alistGet? b.orders o.id = none)
    (hfresh2 : ∀ e, occursInBook b e → e.id ≠ o.id) :
    BookInv (matchStep b o).1 ∧
    (∀ id, (alistGet? (matchStep b o).1.orders id).isSome →
      (alistGet? b.orders id).isSome ∨ id = o.id) ∧
    (∀ e, occursInBook (matchStep b o).1 e →
      (∃ e0, occursInBook b e0 ∧ e.id = e0.id) ∨ e.id = o.id) := by
  unfold matchStep
  cases o.side <;> cases o.order_type
  · obtain ⟨h1, h2, h3⟩ := match_market_buy_inv b o hInv
    exact ⟨h1, fun id h => Or.inl (h2 id h), fun e h => Or.inl (h3 e h)⟩
  · exact match_limit_buy_inv b o hInv hfresh1 hfresh2
  · obtain ⟨h1, h2, h3⟩ := match_market_sell_inv b o hInv
    exact ⟨h1, fun id h => Or.inl (h2 id h), fun e h => Or.inl (h3 e h)⟩
  · exact match_limit_sell_inv b o hInv hfresh1 hfresh2

theorem matchStep_ids (b : OrderBook) (o : Order) :
    (matchStep b o).2.map Trade.id =
      List.range' b.next_trade_id (matchStep b o).2.length ∧
    (matchStep b o).1.next_trade_id = b.next_trade_id + (matchStep b o).2.length := by
  unfold matchStep
  cases o.side <;> cases o.order_type
  · exact ⟨(match_market_buy_spec b o).1, (match_market_buy_spec b o).2.1⟩
  · exact ⟨(match_limit_buy_spec b o).1, (match_limit_buy_spec b o).2.1⟩
  · exact ⟨(match_market_sell_spec b o).1, (match_market_sell_spec b o).2.1⟩
  · exact ⟨(match_limit_sell_spec b o).1, (match_limit_sell_spec b o).2.1⟩

theorem matchStep_price (b : OrderBook) (o : Order) :
    ∀ t ∈ (matchStep b o).2,
      ∃ p ∈ (match o.side with
             | OrderSide.Buy => b.asks
             | OrderSide.Sell => b.bids),
        t.price = key_to_price p.1 ∧
        (match o.side with
         | OrderSide.Buy => t.sell_order_id
         | OrderSide.Sell => t.buy_order_id) ∈ p.2.map Order.id := by
  unfold matchStep
  cases o.side <;> cases o.order_type
  · intro t ht
    obtain ⟨p, hp, hprice, _, hmk⟩ := (match_market_buy_spec b o).2.2.1 t ht
    exact ⟨p, hp, hprice, hmk⟩
  · intro t ht
    obtain ⟨p, hp, hprice, _, hmk⟩ := (match_limit_buy_spec b o).2.2 t ht
    exact ⟨p, hp, hprice, hmk⟩
  · intro t ht
    obtain ⟨p, hp, hprice, _, hmk⟩ := (match_market_sell_spec b o).2.2.1 t ht
    exact ⟨p, hp, hprice, hmk⟩
  · intro t ht
    obtain ⟨p, hp, hprice, _, hmk⟩ := (match_limit_sell_spec b o).2.2 t ht
    exact ⟨p, hp, hprice, hmk⟩

theorem matchStep_conservation (b : OrderBook) (o : Order)
    (hq : 0 ≤ o.quantity) (hfresh : alistGet? b.orders o.id = none) :
    sumQty (matchStep b o).2 + restQty (matchStep b o).1 o.id +
      market_residue b o = o.quantity := by
  unfold matchStep market_residue
  cases o.side <;> cases o.order_type
  · obtain ⟨hsum, hrest⟩ := match_market_buy_conservation b o hfresh
    show sumQty (match_market_buy b o).2 + restQty (match_market_buy b o).1 o.id +
      (sweepAsks o.symbol o.id (fun _ => false) b o.quantity []
        (sort_by (fun a c => a.1 ≤ c.1) b.asks)).2.1 = o.quantity
    rw [hrest]
    linarith
  · have h := match_limit_buy_conservation b o hq hfresh
    show sumQty (match_limit_buy b o).2 + restQty (match_limit_buy b o).1 o.id + 0 =
      o.quantity
    linarith
  · obtain ⟨hsum, hrest⟩ := match_market_sell_conservation b o hfresh
    show sumQty (match_market_sell b o).2 + restQty (match_market_sell b o).1 o.id +
      (sweepBids o.symbol o.id (fun _ => false) b o.quantity []
        (sort_by (fun a c => c.1 ≤ a.1) b.bids)).2.1 = o.quantity
    rw [hrest]
    linarith
  · have h := match_limit_sell_conservation b o hq hfresh
    show sumQty (match_limit_sell b o).2 + restQty (match_limit_sell b o).1 o.id + 0 =
      o.quantity
    linarith

theorem matchStep_best_frame (b : OrderBook) (o : Order) :
    (matchStep b o).1.best_bid = b.best_bid ∧
    (matchStep b o).1.best_ask = b.best_ask := by
  unfold matchStep
  cases o.side <;> cases o.order_type
  · rw [match_market_buy_fst]
    have h := sweepAsks_frame o.symbol o.id (fun _ => false) b o.quantity []
      (sort_by (fun a c => a.1 ≤ c.1) b.asks)
    exact ⟨h.2.2.1, h.2.2.2⟩
  · rw [match_limit_buy_def]
    have h := sweepAsks_frame o.symbol o.id
      (fun k => decide (o.price < key_to_price k)) b o.quantity []
      (sort_by (fun a c => a.1 ≤ c.1) b.asks)
    split_ifs
    · exact ⟨h.2.2.1, h.2.2.2⟩
    · exact ⟨h.2.2.1, h.2.2.2⟩
  · rw [match_market_sell_fst]
    have h := sweepBids_frame o.symbol o.id (fun _ => false) b o.quantity []
      (sort_by (fun a c => c.1 ≤ a.1) b.bids)
    exact ⟨h.2.2.1, h.2.2.2⟩
  · rw [match_limit_sell_def]
    have h := sweepBids_frame o.symbol o.id
      (fun k => decide (key_to_price k < o.price)) b o.quantity []
      (sort_by (fun a c => c.1 ≤ a.1) b.bids)
    split_ifs
    · exact ⟨h.2.2.1, h.2.2.2⟩
    · exact ⟨h.2.2.1, h.2.2.2⟩

theorem matchStep_nonpos (b : OrderBook) (o : Order) (hq : o.quantity ≤ 0) :
    matchStep b o = (b, []) := by
  unfold matchStep
  cases o.side <;> cases o.order_type
  · exact match_market_buy_nonpos b o hq
  · exact match_limit_buy_nonpos b o hq
  · exact match_market_sell_nonpos b o hq
  · exact match_limit_sell_nonpos b o hq

theorem add_order_nonpos (b : OrderBook) (o : Order) (hq : o.quantity ≤ 0)
    (hfresh : alistGet? b.orders o.id = none) : b.add_order o = (b, []) := by
  rw [add_order_eq, matchStep_nonpos b o hq]
  simp [hfresh]

theorem add_order_inv (b : OrderBook) (o : Order) (hInv : BookInv b)
    (hfresh1 : alistGet? b.orders o.id = none)
    (hfresh2 : ∀ e, occursInBook b e → e.id ≠ o.id) :
    BookInv (b.add_order o).1 ∧
    (∀ id, (alistGet? (b.add_order o).1.orders id).isSome →
      (alistGet? b.orders id).isSome ∨ id = o.id) ∧
    (∀ e, occursInBook (b.add_order o).1 e →
      (∃ e0, occursInBook b e0 ∧ e.id = e0.id) ∨ e.id = o.id) := by
  obtain ⟨h1, h2, h3⟩ := matchStep_inv b o hInv hfresh1 hfresh2
  rw [add_order_eq]
  split_ifs
  · exact ⟨bookInv_update_best_prices _ h1, h2, h3⟩
  · exact ⟨h1, h2, h3⟩

theorem add_order_trade_ids (b : OrderBook) (o : Order) :
    (b.add_order o).2.map Trade.id =
      List.range' b.next_trade_id (b.add_order o).2.length ∧
    (b.add_order o).1.next_trade_id = b.next_trade_id + (b.add_order o).2.length := by
  obtain ⟨h1, h2⟩ := matchStep_ids b o
  rw [add_order_eq]
  split_ifs
  · exact ⟨h1, h2⟩
  · exact ⟨h1, h2⟩

theorem add_order_conservation (b : OrderBook) (o : Order)
    (hq : 0 ≤ o.quantity) (hfresh : alistGet? b.orders o.id = none) :
    sumQty (b.add_order o).2 + restQty (b.add_order o).1 o.id +
      market_residue b o = o.quantity := by
  have h := matchStep_conservation b o hq hfresh
  rw [add_order_eq]
  split_ifs
  · exact h
  · exact h

theorem add_order_price (b : OrderBook) (o : Order) :
    ∀ t ∈ (b.add_order o).2,
      ∃ p ∈ (match o.side with
             | OrderSide.Buy => b.asks
             | OrderSide.Sell => b.bids),
        t.price = key_to_price p.1 ∧
        (match o.side with
         | OrderSide.Buy => t.sell_order_id
         | OrderSide.Sell => t.buy_order_id) ∈ p.2.map Order.id := by
  have h := matchStep_price b o
  rw [add_order_eq]
  split_ifs
  · exact h
  · exact h

theorem add_order_best_prices (b : OrderBook) (o : Order) :
    ((alistGet? (b.add_order o).1.orders o.id).isSome →
      (b.add_order o).1.best_bid =
        (match ((b.add_order o).1.bids.map Prod.fst).max? with
         | some k => key_to_price k
         | none => 0) ∧
      (b.add_order o).1.best_ask =
        (match ((b.add_order o).1.asks.map Prod.fst).min? with
         | some k => key_to_price k
         | none => f64MAX)) ∧
    (¬ (alistGet? (b.add_order o).1.orders o.id).isSome →
      (b.add_order o).1.best_bid = b.best_bid ∧
      (b.add_order o).1.best_ask = b.best_ask) := by
  rw [add_order_eq]
  split_ifs with hc
  · constructor
    · intro _
      exact ⟨rfl, rfl⟩
    · intro hn
      exact absurd hc hn
  · constructor
    · intro hs
      exact absurd hs hc
    · intro _
      exact matchStep_best_frame b o

end OrderBook

/-! ## Engine-level invariant -/

open OrderBook

theorem bookInv_new (s : String) : BookInv (OrderBook.new s) := by
  refine ⟨?_, ?_, ?_, ?_, ?_, ?_, ?_⟩
  · simp [OrderBook.new, keysOf]
  · simp [OrderBook.new, keysOf]
  · intro k hk
    simp [OrderBook.new, keysOf] at hk
  · intro k hk
    simp [OrderBook.new, keysOf] at hk
  · intro kb hkb
    simp [OrderBook.new, keysOf] at hkb
  · intro id hid
    simp [OrderBook.new, alistGet?] at hid
  · intro id ro hro
    simp [OrderBook.new, alistGet?] at hro

theorem bookIdBound_new (s : String) (n : Nat) : bookIdBound (OrderBook.new s) n := by
  constructor
  · intro id hid
    simp [OrderBook.new, keysOf] at hid
  · intro e he
    rcases he with h | h <;>
      · obtain ⟨p, hp, _⟩ := h
        simp [OrderBook.new] at hp

theorem bookIdBound_mono (b : OrderBook) (n m : Nat) (h : bookIdBound b n)
    (hnm : n ≤ m) : bookIdBound b m :=
  ⟨fun id hid => lt_of_lt_of_le (h.1 id hid) hnm,
   fun e he => lt_of_lt_of_le (h.2 e he) hnm⟩

theorem engineInv_new : EngineInv TradingEngine.new := by
  intro p hp
  simp [TradingEngine.new] at hp

theorem engineInv_add_symbol (e : TradingEngine) (s : String) (h : EngineInv e) :
    EngineInv (e.add_symbol s) := by
  intro p hp
  unfold TradingEngine.add_symbol at hp
  simp only at hp
  rcases mem_of_mem_alistInsert _ _ _ p hp with hmem | heq
  · exact h p hmem
  · subst heq
    exact ⟨bookInv_new s, bookIdBound_new s _⟩

theorem engineInv_place_order (e : TradingEngine) (s : String) (side : OrderSide)
    (ty : OrderType) (q p : ℚ) (u : Nat) (h : EngineInv e) :
    EngineInv (e.place_order s side ty q p u).1 := by
  unfold TradingEngine.place_order
  cases hget : alistGet? e.orderbooks s with
  | none =>
    simp only [hget]
    exact h
  | some b =>
    simp only [hget]
    intro pr hpr
    simp only at hpr
    rcases mem_of_mem_alistInsert _ _ _ pr hpr with hmem | heq
    · obtain ⟨hbi, hbd⟩ := h pr hmem
      exact ⟨hbi, bookIdBound_mono _ _ _ hbd (Nat.le_succ _)⟩
    · subst heq
      obtain ⟨hbi, hbd⟩ := h (s, b) (alistGet?_eq_some_mem _ _ _ hget)
      have hfresh1 : alistGet? b.orders e.next_order_id = none := by
        cases hg2 : alistGet? b.orders e.next_order_id with
        | none => rfl
        | some v =>
          have hin : e.next_order_id ∈ keysOf b.orders :=
            (alistGet?_isSome_iff _ _).mp (by rw [hg2]; rfl)
          have := hbd.1 e.next_order_id hin
          simp at this
      have hfresh2 : ∀ e2, occursInBook b e2 → e2.id ≠ e.next_order_id := by
        intro e2 he2 hid
        have := hbd.2 e2 he2
        rw [hid] at this
        simp at this
      obtain ⟨hinv2, htr1, htr2⟩ := add_order_inv b
        { id := e.next_order_id, symbol := s, side := side, order_type := ty,
          quantity := q, price := p, timestamp := 0, user_id := u }
        hbi hfresh1 hfresh2
      refine ⟨hinv2, ?_, ?_⟩
      · intro id hid
        have hsome := (alistGet?_isSome_iff _ _).mpr hid
        rcases htr1 id hsome with hpre | heq2
        · have hk : id ∈ keysOf b.orders := (alistGet?_isSome_iff _ _).mp hpre
          exact lt_of_lt_of_le (hbd.1 id hk) (Nat.le_succ _)
        · rw [heq2]
          exact Nat.lt_succ_self _
      · intro e2 he2
        rcases htr2 e2 he2 with ⟨e0, he0, heid⟩ | heq2
        · rw [heid]
          exact lt_of_lt_of_le (hbd.2 e0 he0) (Nat.le_succ _)
        · rw [heq2]
          exact Nat.lt_succ_self _

theorem reachable_engineInv (e : TradingEngine) (h : Reachable e) : EngineInv e := by
  induction h with
  | new => exact engineInv_new
  | add_symbol e s _ ih => exact engineInv_add_symbol e s ih
  | place e s side ty q p u _ ih => exact engineInv_place_order e s side ty q p u ih

/-! ## The claims -/

/-- C1: contrary to the spec, `place_order` performs no input validation.  On
any reachable engine, a submit with non-positive quantity to a registered
symbol is accepted (`Except.ok []`, not an error), and the order-id and
processed-order counters advance, so the call is not the no-op the spec
promises. -/
theorem place_order_accepts_nonpositive (e : TradingEngine) (s : String)
    (side : OrderSide) (ty : OrderType) (q p : ℚ) (u : Nat)
    (hre : Reachable e) (hq : q ≤ 0)
    (hreg : (alistGet? e.orderbooks s).isSome = true) :
    (e.place_order s side ty q p u).2 = Except.ok [] ∧
    (e.place_order s side ty q p u).1.next_order_id = e.next_order_id + 1 ∧
    (e.place_order s side ty q p u).1.processed_orders = e.processed_orders + 1 := by
  obtain ⟨b, hb⟩ := Option.isSome_iff_exists.mp hreg
  have hinv := reachable_engineInv e hre (s, b) (alistGet?_eq_some_mem _ _ _ hb)
  have hfresh : alistGet? b.orders e.next_order_id = none := by
    cases hg : alistGet? b.orders e.next_order_id with
    | none => rfl
    | some v =>
      have hin : e.next_order_id ∈ keysOf b.orders :=
        (alistGet?_isSome_iff _ _).mp (by rw [hg]; rfl)
      have := hinv.2.1 e.next_order_id hin
      omega
  have hadd := OrderBook.add_order_nonpos b
      { id := e.next_order_id, symbol := s, side := side, order_type := ty,
        quantity := q, price := p, timestamp := 0, user_id := u } hq hfresh
  unfold TradingEngine.place_order
  rw [hb]
  simp [hadd]

/-- Witness for C1's theorem: a limit buy of quantity -1 on a fresh book is
accepted and bumps the counters. -/
theorem place_order_accepts_nonpositive_witness :
    (engX0.place_order "X" OrderSide.Buy OrderType.Limit (-1) 100 7).2 =
      Except.ok [] ∧
    (engX0.place_order "X" OrderSide.Buy OrderType.Limit (-1) 100 7).1.next_order_id =
      engX0.next_order_id + 1 ∧
    (engX0.place_order "X" OrderSide.Buy OrderType.Limit (-1) 100 7).1.processed_orders =
      engX0.processed_orders + 1 :=
  place_order_accepts_nonpositive engX0 "X" OrderSide.Buy OrderType.Limit
    (-1) 100 7 (Reachable.add_symbol _ _ Reachable.new) (by decide) (by rfl)

/-- Counterexample to C1 as stated: a limit buy with a negative limit price
is not rejected — it returns `Except.ok []` and even rests on the book (its
id enters the orders index). -/
theorem place_order_invalid_rests_cex :
    (engX0.place_order "X" OrderSide.Buy OrderType.Limit 5 (-3) 9).2 =
      Except.ok [] ∧
    ((alistGet? (engX0.place_order "X" OrderSide.Buy OrderType.Limit
        5 (-3) 9).1.orderbooks "X").map (fun b => keysOf b.orders)) =
      some [1] := by
  constructor <;> with_unfolding_all rfl

/-- C2: `add_symbol` always installs a fresh book for the symbol — the source
calls `DashMap::insert` unconditionally — so a repeated call replaces the
existing book rather than leaving it unchanged. -/
theorem add_symbol_replaces_book (e : TradingEngine) (s : String) :
    alistGet? (e.add_symbol s).orderbooks s = some (OrderBook.new s) := by
  unfold TradingEngine.add_symbol
  exact alistGet?_insert_self _ _ _

/-- Counterexample to C2 as stated: after a sell rests on `"X"` (the orders
index holds id 1), a second `add_symbol "X"` erases it — not a no-op. -/
theorem add_symbol_second_call_erases_cex :
    ((alistGet? engRest.orderbooks "X").map (fun b => keysOf b.orders)) =
      some [1] ∧
    ((alistGet? (engRest.add_symbol "X").orderbooks "X").map
      (fun b => keysOf b.orders)) = some [] := by
  constructor <;> with_unfolding_all rfl

/-- C3: the best-price summary is recomputed only when the aggressor's id is
in the orders index after the match (i.e. the aggressor rested); in every
other case `best_bid` and `best_ask` are left exactly as they were, however
stale. -/
theorem best_prices_updated_only_if_rested (b : OrderBook) (o : Order) :
    ((alistGet? (b.add_order o).1.orders o.id).isSome →
      (b.add_order o).1.best_bid =
        (match ((b.add_order o).1.bids.map Prod.fst).max? with
         | some k => OrderBook.key_to_price k
         | none => 0) ∧
      (b.add_order o).1.best_ask =
        (match ((b.add_order o).1.asks.map Prod.fst).min? with
         | some k => OrderBook.key_to_price k
         | none => f64MAX)) ∧
    (¬ (alistGet? (b.add_order o).1.orders o.id).isSome →
      (b.add_order o).1.best_bid = b.best_bid ∧
      (b.add_order o).1.best_ask = b.best_ask) :=
  OrderBook.add_order_best_prices b o

/-- Counterexample to C3 as stated: a market buy that fully consumes the only
ask level leaves `asks` empty yet `best_ask` still reads 100 — the price of a
level that no longer exists — instead of the unset sentinel `f64::MAX`. -/
theorem best_ask_stale_after_full_fill_cex :
    ((alistGet? engStale.orderbooks "X").map (fun b => b.asks)) = some [] ∧
    ((alistGet? engStale.orderbooks "X").map (fun b => b.best_ask)) =
      some 100 ∧
    (100 : ℚ) ≠ f64MAX :=
  ⟨by with_unfolding_all rfl, by with_unfolding_all rfl,
   by norm_num [f64MAX]⟩

/-- C4: trade ids are allocated per book, not per engine: one submit's trades
carry the consecutive ids `next_trade_id, next_trade_id + 1, …` of that
book's own counter, which advances by the number of trades emitted. -/
theorem trade_ids_per_book_range (b : OrderBook) (o : Order) :
    (b.add_order o).2.map Trade.id =
      List.range' b.next_trade_id (b.add_order o).2.length ∧
    (b.add_order o).1.next_trade_id =
      b.next_trade_id + (b.add_order o).2.length :=
  OrderBook.add_order_trade_ids b o

/-- Counterexample to C4 as stated: one engine, two symbols; the first trade
of the `"X"` book and the later first trade of the `"Y"` book both carry
trade id 1, so ids are neither unique per engine nor globally increasing. -/
theorem trade_ids_not_globally_unique_cex :
    (engXY.place_order "X" OrderSide.Buy OrderType.Limit 10 100 3).2.map
      (fun ts => ts.map Trade.id) = Except.ok [1] ∧
    (engXY3.place_order "Y" OrderSide.Buy OrderType.Limit 10 100 4).2.map
      (fun ts => ts.map Trade.id) = Except.ok [1] := by
  constructor <;> with_unfolding_all rfl

/-- C5: on any reachable engine, every id the orders index knows sits in
exactly one price-level queue; but the queue entry's quantity is only
dominated by the indexed one (a partial fill shrinks the queue copy and
leaves the index stale), so only `≤` holds, not equality. -/
theorem orders_index_unique_occurrence (e : TradingEngine) (s : String)
    (b : OrderBook) (id : Nat) (hre : Reachable e)
    (hb : alistGet? e.orderbooks s = some b)
    (hid : (alistGet? b.orders id).isSome = true) :
    countBook b id = 1 ∧
    ∀ ro, alistGet? b.orders id = some ro →
      ∀ o, occursInBook b o → o.id = id → o.quantity ≤ ro.quantity := by
  have hinv := reachable_engineInv e hre (s, b) (alistGet?_eq_some_mem _ _ _ hb)
  exact ⟨hinv.1.idxCount id hid, fun ro hro o ho hoid =>
    hinv.1.idxQty id ro hro o ho hoid⟩

set_option maxRecDepth 8000 in
/-- Witness for C5's theorem: the resting sell of `engRest` occurs exactly
once in the queues, with its queue quantity dominated by the index. -/
theorem orders_index_unique_occurrence_witness :
    countBook bookRest 1 = 1 ∧
    ∀ ro, alistGet? bookRest.orders 1 = some ro →
      ∀ o, occursInBook bookRest o → o.id = 1 → o.quantity ≤ ro.quantity :=
  orders_index_unique_occurrence engRest "X" bookRest 1
    (Reachable.place _ _ _ _ _ _ _ (Reachable.add_symbol _ _ Reachable.new))
    (by with_unfolding_all rfl) (by with_unfolding_all rfl)

/-- Counterexample to C5 as stated: after order 1 (10 units) is partially
filled by 4 units, its queue entry holds 6 while the orders index still holds
the original 10 — the quantities do not agree. -/
theorem orders_index_qty_mismatch_cex :
    ((alistGet? engPartial.orderbooks "X").map
      (fun b => (alistGet? b.orders 1).map Order.quantity)) =
      some (some 10) ∧
    ((alistGet? engPartial.orderbooks "X").map
      (fun b => (alistGet? b.asks 1000000).map
        (fun l => l.map Order.quantity))) = some (some [6]) ∧
    (10 : ℚ) ≠ 6 :=
  ⟨by with_unfolding_all rfl, by with_unfolding_all rfl, by decide⟩

/-- C6: on any reachable engine, the tick keys never cross strictly — every
resting bid tick is at most every resting ask tick.  (Equality, a touching
book, is reachable; the spec's strict `<` is not maintained.) -/
theorem book_ticks_never_strictly_crossed (e : TradingEngine) (s : String)
    (b : OrderBook) (hre : Reachable e)
    (hb : alistGet? e.orderbooks s = some b) :
    ∀ kb ∈ keysOf b.bids, ∀ ka ∈ keysOf b.asks, kb ≤ ka := by
  have hinv := reachable_engineInv e hre (s, b) (alistGet?_eq_some_mem _ _ _ hb)
  exact hinv.1.nocross

/-- Witness for C6's theorem: in `bookTwoSided` the only bid tick 900000 is
at most the only ask tick 1000000. -/
theorem book_ticks_never_strictly_crossed_witness :
    (900000 : Nat) ≤ 1000000 :=
  book_ticks_never_strictly_crossed engTwoSided "X" bookTwoSided
    (Reachable.place _ _ _ _ _ _ _
      (Reachable.place _ _ _ _ _ _ _ (Reachable.add_symbol _ _ Reachable.new)))
    (by with_unfolding_all rfl)
    900000 (by with_unfolding_all decide)
    1000000 (by with_unfolding_all decide)

/-- Counterexample to C6 as stated: prices 0.5 and 0.50007 both floor to tick
5000, so a bid and an ask rest at the same tick and
`best_bid = best_ask = 1/2` with both sides non-empty — not `<`. -/
theorem book_crossed_at_equal_tick_cex :
    ((alistGet? engEqualTick.orderbooks "X").map
      (fun b => (keysOf b.bids, keysOf b.asks, b.best_bid, b.best_ask))) =
      some ([5000], [5000], 1/2, 1/2) ∧
    ¬ ((1 : ℚ)/2 < 1/2) :=
  ⟨by with_unfolding_all rfl, lt_irrefl ((1 : ℚ)/2)⟩

/-- C7: every emitted trade's price is the tick price of a level resting on
the opposite side of the pre-match book, and the maker id the trade records
sits in that level's queue — the aggressor's limit price is never used. -/
theorem trade_price_is_maker_level_price (b : OrderBook) (o : Order)
    (t : Trade) (ht : t ∈ (b.add_order o).2) :
    ∃ p ∈ (match o.side with
           | OrderSide.Buy => b.asks
           | OrderSide.Sell => b.bids),
      t.price = OrderBook.key_to_price p.1 ∧
      (match o.side with
       | OrderSide.Buy => t.sell_order_id
       | OrderSide.Sell => t.buy_order_id) ∈ p.2.map Order.id :=
  OrderBook.add_order_price b o t ht

/-- Witness for C7's theorem: the taker limit 101 crosses the maker level
100, and the emitted trade prices at the maker's 100. -/
theorem trade_price_is_maker_level_price_witness :
    ∃ p ∈ bookOneAsk.asks,
      tradeMk.price = OrderBook.key_to_price p.1 ∧
      tradeMk.sell_order_id ∈ p.2.map Order.id :=
  trade_price_is_maker_level_price bookOneAsk takerOrd tradeMk
    (by with_unfolding_all decide)

/-- C8: for a submit with non-negative quantity and a fresh order id, the
emitted trade quantities plus the residual resting quantity plus the
discarded market residue add up to the submitted quantity. -/
theorem submit_quantity_conservation (b : OrderBook) (o : Order)
    (hq : 0 ≤ o.quantity) (hfresh : alistGet? b.orders o.id = none) :
    sumQty (b.add_order o).2 + restQty (b.add_order o).1 o.id +
      market_residue b o = o.quantity :=
  OrderBook.add_order_conservation b o hq hfresh

/-- Witness for C8's theorem: submitting `orderPos` (5 units) to a fresh book
conserves the 5 units. -/
theorem submit_quantity_conservation_witness :
    (0 : ℚ) ≤ orderPos.quantity ∧
    sumQty ((OrderBook.new "X").add_order orderPos).2 +
      restQty ((OrderBook.new "X").add_order orderPos).1 orderPos.id +
      market_residue (OrderBook.new "X") orderPos = orderPos.quantity :=
  ⟨by decide,
   submit_quantity_conservation (OrderBook.new "X") orderPos (by decide) rfl⟩

/-- Counterexample to C8 as stated ("for any submit"): a limit buy of
quantity -5 — which `place_order` does not reject — neither trades nor rests,
so the three summands add to 0, not to the submitted -5. -/
theorem conservation_negative_qty_cex :
    sumQty ((OrderBook.new "X").add_order orderNeg).2 +
      restQty ((OrderBook.new "X").add_order orderNeg).1 orderNeg.id +
      market_residue (OrderBook.new "X") orderNeg ≠ orderNeg.quantity := by
  have h0 : sumQty ((OrderBook.new "X").add_order orderNeg).2 +
      restQty ((OrderBook.new "X").add_order orderNeg).1 orderNeg.id +
      market_residue (OrderBook.new "X") orderNeg = 0 := by
    with_unfolding_all rfl
  rw [h0]
  decide

/-- C9: for every positive price whose scaled floor fits the u64 tick grid,
`key_to_price (price_to_key p)` equals `⌊p * 10000⌋ / 10000`, and both
conversion directions are monotone. -/
theorem tick_codec_roundtrip_and_monotone (p : ℚ) (hp : 0 < p)
    (hgrid : ⌊p * 10000⌋ ≤ (u64Max : ℤ)) :
    OrderBook.key_to_price (OrderBook.price_to_key p) =
      (⌊p * 10000⌋ : ℚ) / 10000 ∧
    (∀ p1 p2 : ℚ, p1 ≤ p2 →
      OrderBook.price_to_key p1 ≤ OrderBook.price_to_key p2) ∧
    (∀ k1 k2 : Nat, k1 ≤ k2 →
      OrderBook.key_to_price k1 ≤ OrderBook.key_to_price k2) := by
  refine ⟨?_, ?_, fun k1 k2 h => OrderBook.key_to_price_mono k1 k2 h⟩
  · unfold OrderBook.key_to_price OrderBook.price_to_key f64AsU64
    have h0 : (0 : ℤ) ≤ ⌊p * 10000⌋ := Int.floor_nonneg.mpr (by positivity)
    have hmin : min (Int.toNat ⌊p * 10000⌋) u64Max = Int.toNat ⌊p * 10000⌋ :=
      Nat.min_eq_left (Int.toNat_le.mpr hgrid)
    rw [hmin]
    congr 1
    exact_mod_cast Int.toNat_of_nonneg h0
  · intro p1 p2 h
    unfold OrderBook.price_to_key f64AsU64
    have hf : ⌊p1 * 10000⌋ ≤ ⌊p2 * 10000⌋ :=
      Int.floor_le_floor (mul_le_mul_of_nonneg_right h (by norm_num))
    exact min_le_min (Int.toNat_le_toNat hf) le_rfl

/-- Witness for C9's theorem at the in-grid price 3. -/
theorem tick_codec_roundtrip_and_monotone_witness :
    (0 : ℚ) < 3 ∧
    (OrderBook.key_to_price (OrderBook.price_to_key 3) =
      (⌊(3 : ℚ) * 10000⌋ : ℚ) / 10000 ∧
    (∀ p1 p2 : ℚ, p1 ≤ p2 →
      OrderBook.price_to_key p1 ≤ OrderBook.price_to_key p2) ∧
    (∀ k1 k2 : Nat, k1 ≤ k2 →
      OrderBook.key_to_price k1 ≤ OrderBook.key_to_price k2)) :=
  ⟨by decide, tick_codec_roundtrip_and_monotone 3 (by decide)
    (by with_unfolding_all decide)⟩

/-- C10: a fresh book carries the in-band sentinels: `last_price = 0`,
`best_bid = 0`, `best_ask = f64::MAX`, and the depth view of a freshly added
symbol reports `last_price = 0` (a number, not an absent value). -/
theorem fresh_book_sentinel_values (s : String) :
    (OrderBook.new s).last_price = 0 ∧ (OrderBook.new s).best_bid = 0 ∧
    (OrderBook.new s).best_ask = f64MAX ∧
    ((TradingEngine.new.add_symbol s).get_orderbook s).map
      OrderbookView.last_price = some 0 := by
  refine ⟨rfl, rfl, rfl, ?_⟩
  unfold TradingEngine.get_orderbook TradingEngine.add_symbol
  rw [alistGet?_insert_self]
  rfl

end Orderbook
